import Mathlib

/-!
Verification of the Information_Retrieval crawl/classify pipeline.

A shallow embedding, in Lean 4, of the parts of the repository that the
specification's testable claims are about:

* `src/crawler/canonicalize.py` (URL canonicalization) together with the
  `urllib.parse` routines it calls (`urlparse`, `urlunparse`, `parse_qsl`,
  `urlencode`, `quote_plus`, `unquote`, CPython 3.11 semantics),
* `src/crawler/robots.py` together with `urllib.robotparser`,
* `src/crawler/downloader.py` (retry/backoff arithmetic),
* `src/storage/state.py` (the persistent frontier queue) and
  `src/crawler/queue.py` (per-domain budget),
* `src/utils/polite_fetch.py` (adaptive backoff arithmetic),
* `src/classify/reuters_build_lexicon.py` and
  `src/ml/tfidf_Lexicon_Classifier.py` (lexicon construction),
* `src/classify/score_and_label.py` (token-overlap scoring).

Python strings are modelled as `List Char` (Lean `Char` is a Unicode scalar
value; Python strings containing lone surrogates have no counterpart and are
outside the model).  Python floats are modelled as rationals: every constant
involved (1.8, 2.0, 0.5, 10.0, 1.0) and every comparison proved is robust to
the float/rational distinction.  Character case mapping (`str.lower`) is
modelled pointwise on the ASCII range, which is exact for every character
class the code inspects (schemes are ASCII by construction; host names in
all claims are ASCII).
-/

namespace IRSpec

/-- Python `str` modelled as a list of Unicode scalar values. -/
abbrev PyStr := List Char

/-- Convert a Lean string literal to the `PyStr` model. -/
def pystr (s : String) : PyStr := s.data

/-- Python `str.lower` for a single character, pointwise on the ASCII range
(exact for all ASCII text; see the header note on case mapping). -/
def pyLowerChar (c : Char) : Char :=
  if 'A' ≤ c ∧ c ≤ 'Z' then Char.ofNat (c.toNat + 32) else c

/-- Python `str.lower` on a whole string. -/
def pyLower (s : PyStr) : PyStr := s.map pyLowerChar

/-! ## The persistent frontier: `src/storage/state.py` (`StateDB`)

The `queue` table has columns `id INTEGER PRIMARY KEY AUTOINCREMENT`,
`url TEXT UNIQUE`, `depth`, `source`, `record_type`, `added_ts`.  The
`added_ts` column (wall-clock seconds) is written but never read back by any
query the repository issues, so it is not part of the model. -/

/-- One row of the `queue` table. -/
structure QRow where
  id : Nat
  url : PyStr
  depth : Nat
  source : PyStr
  rtype : PyStr
deriving DecidableEq, Repr

/-- The `queue` table state: rows in insertion order plus the next
`AUTOINCREMENT` id.  SQLite starts AUTOINCREMENT ids at 1. -/
structure QueueState where
  nextId : Nat
  rows : List QRow
deriving DecidableEq, Repr

/-- The freshly created (empty) queue table. -/
def qInit : QueueState := ⟨1, []⟩

/-- Model of `StateDB.push`: `INSERT OR IGNORE INTO queue(url, …)` — a no-op
when a row with the same `url` already exists (the `UNIQUE` constraint),
otherwise appends a row with the next AUTOINCREMENT id. -/
def dbPush (url : PyStr) (depth : Nat) (source rtype : PyStr)
    (st : QueueState) : QueueState :=
  if st.rows.any (fun r => r.url = url) then st
  else ⟨st.nextId + 1, st.rows ++ [⟨st.nextId, url, depth, source, rtype⟩]⟩

/-- One comparison step of the min-id scan (the fold body of `minIdRow`). -/
def minStep (acc : Option QRow) (r : QRow) : Option QRow :=
  match acc with
  | none => some r
  | some m => if r.id < m.id then some r else some m

/-- The row selected by `SELECT … FROM queue ORDER BY id LIMIT 1`: the row
with the smallest `id` (ids are unique, being the primary key). -/
def minIdRow (rows : List QRow) : Option QRow :=
  rows.foldl
    (fun acc r =>
      match acc with
      | none => some r
      | some m => if r.id < m.id then some r else some m)
    none

/-- Model of `StateDB.pop`: select the row with the smallest id; if none,
return `none`; otherwise `DELETE FROM queue WHERE id = qid` and return the
row. -/
def dbPop (st : QueueState) : Option QRow × QueueState :=
  match minIdRow st.rows with
  | none => (none, st)
  | some r => (some r, ⟨st.nextId, st.rows.filter (fun r' => r'.id ≠ r.id)⟩)

/-- Number of dequeue-able items carrying a given URL. -/
def countUrl (st : QueueState) (u : PyStr) : Nat :=
  (st.rows.filter (fun r => r.url = u)).length

/-- An operation against the `StateDB` queue. -/
inductive QOp where
  | push (url : PyStr) (depth : Nat) (source rtype : PyStr)
  | pop
deriving DecidableEq, Repr

/-- Run one operation; popped rows are appended to the output log. -/
def qStep : QueueState × List QRow → QOp → QueueState × List QRow
  | (st, out), QOp.push u d s t => (dbPush u d s t st, out)
  | (st, out), QOp.pop =>
      match dbPop st with
      | (none, st') => (st', out)
      | (some r, st') => (st', out ++ [r])

/-- Run a trace of operations from the empty store, returning the final
state and the list of rows the pops returned, in order. -/
def qExec (ops : List QOp) : QueueState × List QRow :=
  ops.foldl qStep (qInit, [])

/-- Number of pushes of a given URL in a trace. -/
def pushCount (ops : List QOp) (u : PyStr) : Nat :=
  (ops.filter (fun o => match o with
    | QOp.push u' _ _ _ => u' = u
    | QOp.pop => false)).length

/-- Number of pops that returned a given URL in a trace. -/
def popCount (ops : List QOp) (u : PyStr) : Nat :=
  (((qExec ops).2).filter (fun r => r.url = u)).length

/-! ## String primitives shared by the `urllib` models -/

/-- Python `s.split(c, 1)`: the part before the first occurrence of `c`,
and — when `c` occurs — the part after it. -/
def splitFirst (c : Char) : PyStr → PyStr × Option PyStr
  | [] => ([], none)
  | x :: xs =>
      if x = c then ([], some xs)
      else
        let r := splitFirst c xs
        (x :: r.1, r.2)

/-- Decompose `s` as `a ++ [c] ++ b` with `c ∉ b` (split at the LAST
occurrence of `c`), or `none` when `c ∉ s`. -/
def splitLast (c : Char) : PyStr → Option (PyStr × PyStr)
  | [] => none
  | x :: xs =>
      match splitLast c xs with
      | some (a, b) => some (x :: a, b)
      | none => if x = c then some ([], xs) else none

/-- Python `s.split(c)` (split at EVERY occurrence, keeping empty
pieces; `"".split(c)` is `[""]`). -/
def pySplitChar (c : Char) : PyStr → List PyStr
  | [] => [[]]
  | x :: rest =>
      if x = c then [] :: pySplitChar c rest
      else
        match pySplitChar c rest with
        | [] => [[x]]
        | t :: ts => (x :: t) :: ts

/-! ## CPython 3.11 `urllib.parse`: splitting

The crawler's canonicalizer is built directly on `urlparse`, `urlunparse`,
`parse_qsl` and `urlencode`, so those are embedded from the CPython 3.11.6
sources (the interpreter the repository runs on), including the WHATWG
leading-strip, the bracketed-host validation and the `_checknetloc`
rejection. -/

/-- Bytes removed from URLs by `urlsplit` (`_UNSAFE_URL_BYTES_TO_REMOVE`:
tab, CR, LF, each removed by `str.replace`). -/
def removeUnsafe (s : PyStr) : PyStr :=
  s.filter (fun c => ¬(c = '\t' ∨ c = '\r' ∨ c = '\n'))

/-- Leading characters stripped by `urlsplit`
(`_WHATWG_C0_CONTROL_OR_SPACE`: code points 0x00–0x20). -/
def lstripC0 (s : PyStr) : PyStr := s.dropWhile (fun c => c.toNat ≤ 0x20)

/-! Validation of bracketed hosts (`_check_bracketed_host`), which follows
`ipaddress.ip_address`.  Only validity is modelled, not the parsed value:
`urlsplit` discards the parse and keeps the netloc text. -/

/-- Hex digit test (`_HEX_DIGITS`, both cases). -/
def isHexDigit (c : Char) : Bool :=
  ('0' ≤ c ∧ c ≤ '9') ∨ ('a' ≤ c ∧ c ≤ 'f') ∨ ('A' ≤ c ∧ c ≤ 'F')

/-- ASCII decimal digit test. -/
def isDecDigit (c : Char) : Bool := '0' ≤ c ∧ c ≤ '9'

/-- Decimal value of a digit string. -/
def decVal (s : PyStr) : Nat := s.foldl (fun a c => 10 * a + (c.toNat - '0'.toNat)) 0

/-- Validity of one IPv4 octet (`IPv4Address._parse_octet`): 1–3 ASCII
digits, no leading zero unless the octet is exactly `0`, value ≤ 255. -/
def isOctet (o : PyStr) : Bool :=
  o ≠ [] ∧ o.all isDecDigit ∧ o.length ≤ 3 ∧
    (o = ['0'] ∨ o.headD ' ' ≠ '0') ∧ decVal o ≤ 255

/-- Validity of an IPv4 address string (`IPv4Address._ip_int_from_string`):
exactly four valid octets separated by dots. -/
def validIPv4 (s : PyStr) : Bool :=
  s ≠ [] ∧ (pySplitChar '.' s).length = 4 ∧ (pySplitChar '.' s).all isOctet

/-- Validity of one IPv6 hextet (`IPv6Address._parse_hextet`): 1–4 hex
digits. -/
def isHextet (p : PyStr) : Bool := p ≠ [] ∧ p.length ≤ 4 ∧ p.all isHexDigit

/-- The `::`-compression bookkeeping of `IPv6Address._ip_int_from_string`
applied to the colon-separated parts (after any IPv4 tail has been
replaced by two synthetic hextets). -/
def v6parts (parts : List PyStr) : Bool :=
  parts.length ≤ 9 ∧
    (let interior := (parts.drop 1).dropLast
     let empties := interior.filter (fun p => p = [])
     if 2 ≤ empties.length then false
     else if empties.length = 1 then
       let skip := 1 + interior.indexOf []
       let hi0 := skip
       let lo0 := parts.length - skip - 1
       (if parts.headD [] = [] then skip = 1 else true) ∧
       (if parts.getLastD [] = [] then lo0 = 1 else true) ∧
       (let hi := if parts.headD [] = [] then hi0 - 1 else hi0
        let lo := if parts.getLastD [] = [] then lo0 - 1 else lo0
        hi + lo + 1 ≤ 8 ∧
          (parts.take hi).all isHextet ∧
          (parts.drop (parts.length - lo)).all isHextet)
     else
       parts.length = 8 ∧ parts.headD [] ≠ [] ∧ parts.getLastD [] ≠ [] ∧
         parts.all isHextet)

/-- Validity of an IPv6 address body (no scope id):
`IPv6Address._ip_int_from_string`. -/
def v6core (addr : PyStr) : Bool :=
  addr ≠ [] ∧
    (let parts := pySplitChar ':' addr
     3 ≤ parts.length ∧
       (if '.' ∈ parts.getLastD [] then
         validIPv4 (parts.getLastD []) ∧
           v6parts (parts.dropLast ++ [['0'], ['0']])
       else v6parts parts))

/-- Validity of an IPv6 address with optional `%scope` suffix
(`IPv6Address.__init__` via `_split_scope_id`). -/
def validIPv6 (h : PyStr) : Bool :=
  match splitFirst '%' h with
  | (addr, some scope) => scope ≠ [] ∧ '%' ∉ scope ∧ v6core addr
  | (addr, none) => v6core addr

/-- Model of `_check_bracketed_host` as a validity predicate: a host
starting with a lower-case `v` must match `v[hexdigits]+\..+`; any other
host must be a valid IPv6 address.  (A valid IPv4 address — rejected in
brackets — is never a valid IPv6 address, so the IPv4 branch is subsumed.) -/
def bracketedHostOk (h : PyStr) : Bool :=
  match h with
  | 'v' :: rest =>
      match splitFirst '.' rest with
      | (hexs, some tail) => hexs ≠ [] ∧ hexs.all isHexDigit ∧ tail ≠ []
      | (_, none) => false
  | _ => validIPv6 h

/-- Characters valid in scheme names (`scheme_chars`). -/
def schemeChar (c : Char) : Bool :=
  ('a' ≤ c ∧ c ≤ 'z') ∨ ('A' ≤ c ∧ c ≤ 'Z') ∨ ('0' ≤ c ∧ c ≤ '9') ∨
    c = '+' ∨ c = '-' ∨ c = '.'

/-- The test `url[0].isascii() and url[0].isalpha()` (for ASCII characters
`isalpha` is exactly the two letter ranges). -/
def isAsciiAlpha (c : Char) : Bool :=
  ('a' ≤ c ∧ c ≤ 'z') ∨ ('A' ≤ c ∧ c ≤ 'Z')

/-- Scheme extraction in `urlsplit`: split at the FIRST `:`; if the part
before it is non-empty, starts with an ASCII letter and consists of scheme
characters, it (lower-cased) becomes the scheme; otherwise the scheme is
empty.  (`i = url.find(':'); if i > 0 and url[0].isascii() and
url[0].isalpha(): for c in url[:i] …`.) -/
def splitScheme (url : PyStr) : PyStr × PyStr :=
  match splitFirst ':' url with
  | (before, some after) =>
      if before ≠ [] ∧ isAsciiAlpha (before.headD ' ') ∧ before.all schemeChar then
        (pyLower before, after)
      else ([], url)
  | (_, none) => ([], url)

/-- The body of `_splitnetloc url 2`: the netloc runs until the first of
`/`, `?`, `#`. -/
def netlocBreak (c : Char) : Bool := c = '/' ∨ c = '?' ∨ c = '#'

/-- Model of `_splitnetloc(url, 2)` applied to `url.drop 2`. -/
def splitNetloc (rest : PyStr) : PyStr × PyStr :=
  (rest.takeWhile (fun c => ¬netlocBreak c), rest.dropWhile (fun c => ¬netlocBreak c))

/-- Result of `urlsplit`. -/
structure SplitResult where
  scheme : PyStr
  netloc : PyStr
  path : PyStr
  query : PyStr
  fragment : PyStr
deriving DecidableEq, Repr

/-- Model of `_checknetloc`, which rejects a netloc whose NFKC
normalization introduces one of `/?#@:`.  Since a netloc (split at
`/?#`, with `@`/`:` removed before normalizing) cannot already contain
those delimiters, the check fires exactly when the netloc contains one of
the nineteen code points whose NFKC compatibility decomposition contains a
delimiter (no canonical decomposition does, and canonical composition
cannot create ASCII). -/
def nfkcOffender (c : Char) : Bool :=
  c.toNat ∈ [0x2047, 0x2048, 0x2049, 0x2100, 0x2101, 0x2105, 0x2106,
    0x2A74, 0xFE13, 0xFE16, 0xFE55, 0xFE56, 0xFE5F, 0xFE6B, 0xFF03,
    0xFF0F, 0xFF1A, 0xFF1F, 0xFF20]

/-- The bracketed-host extraction
`netloc.partition('[')[2].partition(']')[0]`. -/
def bracketPart (netloc : PyStr) : PyStr :=
  match splitFirst '[' netloc with
  | (_, some after) => (splitFirst ']' after).1
  | (_, none) => []

/-- Model of CPython 3.11.6 `urlsplit(url)` (defaults: no default scheme,
`allow_fragments=True`).  Returns `Except` because `urlsplit` raises
`ValueError` on a netloc with mismatched square brackets or an invalid
bracketed host. -/
def urlsplitE (url : PyStr) : Except PyStr SplitResult :=
  let url0 := removeUnsafe (lstripC0 url)
  let sp := splitScheme url0
  let scheme := sp.1
  let rest0 := sp.2
  if rest0.take 2 = ['/', '/'] then
    let nl := splitNetloc (rest0.drop 2)
    let netloc := nl.1
    let rest1 := nl.2
    if ('[' ∈ netloc ∧ ']' ∉ netloc) ∨ (']' ∈ netloc ∧ '[' ∉ netloc) then
      .error (pystr "Invalid IPv6 URL")
    else if '[' ∈ netloc ∧ ']' ∈ netloc ∧ ¬bracketedHostOk (bracketPart netloc) then
      .error (pystr "invalid bracketed host")
    else if netloc.any nfkcOffender then
      .error (pystr "netloc contains invalid characters under NFKC normalization")
    else
      let fr := splitFirst '#' rest1
      let qu := splitFirst '?' fr.1
      .ok ⟨scheme, netloc, qu.1, qu.2.getD [], fr.2.getD []⟩
  else
    let fr := splitFirst '#' rest0
    let qu := splitFirst '?' fr.1
    .ok ⟨scheme, [], qu.1, qu.2.getD [], fr.2.getD []⟩

/-- Schemes for which `urlparse` splits `;parameters` off the path
(`uses_params` in CPython 3.11). -/
def usesParams : List PyStr :=
  [pystr "", pystr "ftp", pystr "hdl", pystr "prospero", pystr "http",
   pystr "imap", pystr "https", pystr "shttp", pystr "rtsp", pystr "rtsps",
   pystr "rtspu", pystr "sip", pystr "sips", pystr "mms", pystr "sftp",
   pystr "tel"]

/-- Schemes for which `urlunsplit` re-inserts a `//` even with an empty
netloc (`uses_netloc` in CPython 3.11). -/
def usesNetloc : List PyStr :=
  [pystr "", pystr "ftp", pystr "http", pystr "gopher", pystr "nntp",
   pystr "telnet", pystr "imap", pystr "wais", pystr "file", pystr "mms",
   pystr "https", pystr "shttp", pystr "snews", pystr "prospero",
   pystr "rtsp", pystr "rtsps", pystr "rtspu", pystr "rsync", pystr "svn",
   pystr "svn+ssh", pystr "sftp", pystr "nfs", pystr "git",
   pystr "git+ssh", pystr "ws", pystr "wss"]

/-- Model of `_splitparams(url)`: split the `;parameters` suffix off the
LAST path segment (the first `;` at or after the last `/`). -/
def splitParams (url : PyStr) : PyStr × PyStr :=
  match splitLast '/' url with
  | some (a, b) =>
      match splitFirst ';' b with
      | (v, some p) => (a ++ '/' :: v, p)
      | (_, none) => (url, [])
  | none =>
      match splitFirst ';' url with
      | (v, some p) => (v, p)
      | (_, none) => (url, [])

/-- Result of `urlparse` (a `SplitResult` plus the `params` component). -/
structure ParseResult where
  scheme : PyStr
  netloc : PyStr
  path : PyStr
  params : PyStr
  query : PyStr
  fragment : PyStr
deriving DecidableEq, Repr

/-- Model of CPython 3.11 `urlparse(url)`: `urlsplit`, then split params
off the path when the scheme is in `uses_params` and the path has a `;`. -/
def urlparseE (url : PyStr) : Except PyStr ParseResult := do
  let r ← urlsplitE url
  if r.scheme ∈ usesParams ∧ ';' ∈ r.path then
    let pp := splitParams r.path
    pure ⟨r.scheme, r.netloc, pp.1, pp.2, r.query, r.fragment⟩
  else
    pure ⟨r.scheme, r.netloc, r.path, [], r.query, r.fragment⟩

/-- Model of CPython 3.11 `urlunsplit((scheme, netloc, url, query,
fragment))`. -/
def urlunsplit (scheme netloc url query fragment : PyStr) : PyStr :=
  let url1 :=
    if netloc ≠ [] ∨ (scheme ≠ [] ∧ scheme ∈ usesNetloc ∧ url.take 2 ≠ ['/', '/']) then
      let u := if url ≠ [] ∧ url.take 1 ≠ ['/'] then '/' :: url else url
      '/' :: '/' :: (netloc ++ u)
    else url
  let url2 := if scheme ≠ [] then scheme ++ ':' :: url1 else url1
  let url3 := if query ≠ [] then url2 ++ '?' :: query else url2
  if fragment ≠ [] then url3 ++ '#' :: fragment else url3

/-- Model of `urlunparse`: re-attach `;params` to the path, then
`urlunsplit`. -/
def urlunparse (scheme netloc url params query fragment : PyStr) : PyStr :=
  urlunsplit scheme netloc (if params ≠ [] then url ++ ';' :: params else url)
    query fragment

/-! ## UTF-8 (used by `quote`/`unquote`)

Percent coding in `urllib.parse` goes through `str.encode('utf-8')` and
`bytes.decode('utf-8', 'replace')`.  The decoder below follows CPython's
`replace` handler: each maximal subpart of an ill-formed sequence yields one
U+FFFD and decoding restarts at the first byte that does not fit. -/

/-- UTF-8 encoding of one scalar value (1–4 bytes). -/
def utf8EncodeChar (c : Char) : List Nat :=
  let n := c.toNat
  if n < 0x80 then [n]
  else if n < 0x800 then [0xC0 + n / 64, 0x80 + n % 64]
  else if n < 0x10000 then
    [0xE0 + n / 4096, 0x80 + n / 64 % 64, 0x80 + n % 64]
  else
    [0xF0 + n / 262144, 0x80 + n / 4096 % 64, 0x80 + n / 64 % 64, 0x80 + n % 64]

/-- UTF-8 encoding of a string (`str.encode('utf-8')`; Lean `Char` has no
lone surrogates, so encoding never fails). -/
def utf8Encode (s : PyStr) : List Nat := s.flatMap utf8EncodeChar

/-- Continuation byte test. -/
def utf8Cont (b : Nat) : Bool := 0x80 ≤ b ∧ b < 0xC0

/-- Range of the second byte allowed after lead byte `b` (UTF-8 shortest
form, surrogates excluded). -/
def utf8Cont2 (b b2 : Nat) : Bool :=
  if b = 0xE0 then 0xA0 ≤ b2 ∧ b2 < 0xC0
  else if b = 0xED then 0x80 ≤ b2 ∧ b2 < 0xA0
  else if b = 0xF0 then 0x90 ≤ b2 ∧ b2 < 0xC0
  else if b = 0xF4 then 0x80 ≤ b2 ∧ b2 < 0x90
  else utf8Cont b2

/-- The replacement character U+FFFD. -/
def repl : Char := Char.ofNat 0xFFFD

/-- Model of `bytes.decode('utf-8', errors='replace')`. -/
def utf8DecodeReplace : List Nat → PyStr
  | [] => []
  | b :: bs =>
    if b < 0x80 then Char.ofNat b :: utf8DecodeReplace bs
    else if 0xC2 ≤ b ∧ b ≤ 0xDF then
      match bs with
      | b2 :: rest =>
          if utf8Cont b2 then
            Char.ofNat ((b - 0xC0) * 64 + (b2 - 0x80)) :: utf8DecodeReplace rest
          else repl :: utf8DecodeReplace (b2 :: rest)
      | [] => [repl]
    else if 0xE0 ≤ b ∧ b ≤ 0xEF then
      match bs with
      | b2 :: rest =>
          if utf8Cont2 b b2 then
            match rest with
            | b3 :: rest2 =>
                if utf8Cont b3 then
                  Char.ofNat ((b - 0xE0) * 4096 + (b2 - 0x80) * 64 + (b3 - 0x80)) ::
                    utf8DecodeReplace rest2
                else repl :: utf8DecodeReplace (b3 :: rest2)
            | [] => [repl]
          else repl :: utf8DecodeReplace (b2 :: rest)
      | [] => [repl]
    else if 0xF0 ≤ b ∧ b ≤ 0xF4 then
      match bs with
      | b2 :: rest =>
          if utf8Cont2 b b2 then
            match rest with
            | b3 :: rest2 =>
                if utf8Cont b3 then
                  match rest2 with
                  | b4 :: rest3 =>
                      if utf8Cont b4 then
                        Char.ofNat ((b - 0xF0) * 262144 + (b2 - 0x80) * 4096 +
                            (b3 - 0x80) * 64 + (b4 - 0x80)) ::
                          utf8DecodeReplace rest3
                      else repl :: utf8DecodeReplace (b4 :: rest3)
                  | [] => [repl]
                else repl :: utf8DecodeReplace (b3 :: rest2)
            | [] => [repl]
          else repl :: utf8DecodeReplace (b2 :: rest)
      | [] => [repl]
    else repl :: utf8DecodeReplace bs

/-! ## CPython 3.11 percent coding -/

/-- Value of one hex digit (`_hexdig`: both cases accepted). -/
def hexVal (c : Char) : Option Nat :=
  if '0' ≤ c ∧ c ≤ '9' then some (c.toNat - '0'.toNat)
  else if 'a' ≤ c ∧ c ≤ 'f' then some (c.toNat - 'a'.toNat + 10)
  else if 'A' ≤ c ∧ c ≤ 'F' then some (c.toNat - 'A'.toNat + 10)
  else none

/-- Upper-case hex digit for `0 ≤ n < 16` (the `'%{:02X}'` format). -/
def hexChar (n : Nat) : Char :=
  if n < 10 then Char.ofNat ('0'.toNat + n) else Char.ofNat ('A'.toNat + n - 10)

/-- The two upper-case hex digits of a byte. -/
def hexPair (b : Nat) : PyStr := [hexChar (b / 16), hexChar (b % 16)]

/-- The `_ALWAYS_SAFE` byte set: ASCII letters, digits, `_.-~`. -/
def alwaysSafe (b : Nat) : Bool :=
  ('a'.toNat ≤ b ∧ b ≤ 'z'.toNat) ∨ ('A'.toNat ≤ b ∧ b ≤ 'Z'.toNat) ∨
    ('0'.toNat ≤ b ∧ b ≤ '9'.toNat) ∨ b = '_'.toNat ∨ b = '.'.toNat ∨
    b = '-'.toNat ∨ b = '~'.toNat

/-- Model of `quote(string, safe)` for an ASCII byte set `safe`: encode to
UTF-8, keep always-safe and safe bytes, percent-escape the rest in upper
case.  (The all-safe and empty-string shortcuts in `quote_from_bytes`
produce the same result byte for byte.) -/
def pyQuote (safe : List Nat) (s : PyStr) : PyStr :=
  (utf8Encode s).flatMap fun b =>
    if alwaysSafe b ∨ b ∈ safe then [Char.ofNat b] else '%' :: hexPair b

/-- Model of `quote_plus(string)` with `safe=''`: as `quote`, except a
space becomes `+`.  (In CPython this is `quote(string, ' ')` followed by
`replace(' ', '+')` when the string contains a space, and plain
`quote(string, '')` otherwise; both paths agree with this byte map.) -/
def quotePlus (s : PyStr) : PyStr :=
  (utf8Encode s).flatMap fun b =>
    if b = 32 then ['+']
    else if alwaysSafe b then [Char.ofNat b]
    else '%' :: hexPair b

/-- Tokenization step of `unquote`: ASCII characters and valid `%XX`
escapes become bytes; a `%` not followed by two hex digits stays a literal
`%` byte; non-ASCII characters pass through as characters (they sit outside
the ASCII runs that `unquote` sends through `unquote_to_bytes`). -/
def unquoteTokens : PyStr → List (Sum Nat Char)
  | [] => []
  | '%' :: c1 :: c2 :: rest =>
      match hexVal c1, hexVal c2 with
      | some h, some l => Sum.inl (16 * h + l) :: unquoteTokens rest
      | _, _ => Sum.inl 37 :: unquoteTokens (c1 :: c2 :: rest)
  | c :: rest =>
      if c.toNat < 0x80 then Sum.inl c.toNat :: unquoteTokens rest
      else Sum.inr c :: unquoteTokens rest

/-- Decode the token stream: each maximal run of bytes is UTF-8 decoded
with replacement (matching `unquote`, which decodes each ASCII run of the
input separately); pass-through characters break the runs. -/
def decodeTokensAux (acc : List Nat) : List (Sum Nat Char) → PyStr
  | [] => utf8DecodeReplace acc.reverse
  | Sum.inl b :: rest => decodeTokensAux (b :: acc) rest
  | Sum.inr c :: rest => utf8DecodeReplace acc.reverse ++ c :: decodeTokensAux [] rest

/-- Model of CPython 3.11 `unquote(string)` (UTF-8, `errors='replace'`). -/
def pyUnquote (s : PyStr) : PyStr := decodeTokensAux [] (unquoteTokens s)

/-- Model of `unquote_plus`: turn `+` into a space, then `unquote`. -/
def pyUnquotePlus (s : PyStr) : PyStr :=
  pyUnquote (s.map fun c => if c = '+' then ' ' else c)

/-! ## `parse_qsl`, `urlencode`, `sorted` -/

/-- Model of CPython 3.11 `parse_qsl(qs, keep_blank_values=True)` with the
default separator `&`: empty query gives no pairs; otherwise split on `&`,
skip empty fields, split each field at the first `=` (missing value means
empty value), and `unquote_plus` both name and value. -/
def parseQsl (qs : PyStr) : List (PyStr × PyStr) :=
  if qs = [] then []
  else
    (pySplitChar '&' qs).filterMap fun nv =>
      if nv = [] then none
      else
        match splitFirst '=' nv with
        | (n, some v) => some (pyUnquotePlus n, pyUnquotePlus v)
        | (n, none) => some (pyUnquotePlus n, [])

/-- Model of `urlencode(pairs)` (default `quote_via=quote_plus`,
`safe=''`): quote each name and value, join with `=` and `&`. -/
def pyUrlencode (pairs : List (PyStr × PyStr)) : PyStr :=
  List.intercalate ['&'] (pairs.map fun p => quotePlus p.1 ++ '=' :: quotePlus p.2)

/-- Python's `<=` on `(str, str)` tuples: lexicographic on the first
component (code-point order on strings), ties broken by the second. -/
def pairLe (p q : PyStr × PyStr) : Prop :=
  p.1 < q.1 ∨ (p.1 = q.1 ∧ p.2 ≤ q.2)

instance : DecidableRel pairLe := fun p q => by
  unfold pairLe; infer_instance

instance : IsTotal (PyStr × PyStr) pairLe where
  total p q := by
    rcases lt_trichotomy p.1 q.1 with h | h | h
    · exact Or.inl (Or.inl h)
    · rcases le_total p.2 q.2 with h2 | h2
      · exact Or.inl (Or.inr ⟨h, h2⟩)
      · exact Or.inr (Or.inr ⟨h.symm, h2⟩)
    · exact Or.inr (Or.inl h)

instance : IsTrans (PyStr × PyStr) pairLe where
  trans p q r hpq hqr := by
    rcases hpq with h1 | ⟨e1, l1⟩
    · rcases hqr with h2 | ⟨e2, _⟩
      · exact Or.inl (h1.trans h2)
      · exact Or.inl (e2 ▸ h1)
    · rcases hqr with h2 | ⟨e2, l2⟩
      · exact Or.inl (e1 ▸ h2)
      · exact Or.inr ⟨e1.trans e2, l1.trans l2⟩

instance : IsAntisymm (PyStr × PyStr) pairLe where
  antisymm p q hpq hqp := by
    rcases hpq with h1 | ⟨e1, l1⟩
    · rcases hqp with h2 | ⟨e2, _⟩
      · exact absurd (h1.trans h2) (lt_irrefl _)
      · exact absurd h1 (e2 ▸ lt_irrefl _)
    · rcases hqp with h2 | ⟨e2, l2⟩
      · exact absurd h2 (e1 ▸ lt_irrefl _)
      · exact Prod.ext e1 (le_antisymm l1 l2)

/-- Model of Python `sorted` on the pair list (a stable sort; with this
total antisymmetric order the result is the unique sorted permutation). -/
def sortPairs (l : List (PyStr × PyStr)) : List (PyStr × PyStr) :=
  List.insertionSort pairLe l

/-! ## `src/crawler/canonicalize.py` -/

/-- The `TRACKING_KEYS` set. -/
def TRACKING_KEYS : List PyStr :=
  [pystr "utm_source", pystr "utm_medium", pystr "utm_campaign",
   pystr "utm_term", pystr "utm_content", pystr "gclid", pystr "fbclid",
   pystr "igshid"]

/-- Model of `re.sub(r"/\x7b2,\x7d", "/", path)`: compress every run of
slashes to a single slash (the flag records whether the previous character
was a slash). -/
def collapseAux : Bool → PyStr → PyStr
  | _, [] => []
  | prevSlash, c :: rest =>
      if c = '/' then
        if prevSlash then collapseAux true rest
        else '/' :: collapseAux true rest
      else c :: collapseAux false rest

/-- Entry point of the slash compression (no slash seen yet). -/
def collapseSlashes (s : PyStr) : PyStr := collapseAux false s

/-- The flag `collapseAux` carries after scanning a string: whether the
last character seen was a slash (the starting flag if the string is
empty). -/
def flagEnd (b : Bool) : PyStr → Bool
  | [] => b
  | c :: rest => flagEnd (c = '/') rest

/-- Model of `canonicalize_url` (`src/crawler/canonicalize.py`): parse,
lower-case scheme and netloc, default and collapse the path, drop
fragment and params, remove tracking keys from the query, re-encode the
remaining pairs sorted.  `Except` propagates the `ValueError` that
`urlparse` can raise. -/
def canonicalize_url (url : PyStr) : Except PyStr PyStr := do
  let p ← urlparseE url
  let scheme := pyLower p.scheme
  let netloc := pyLower p.netloc
  let path := collapseSlashes (if p.path = [] then pystr "/" else p.path)
  let qp := (parseQsl p.query).filter fun kv => kv.1 ∉ TRACKING_KEYS
  let query := pyUrlencode (sortPairs qp)
  pure (urlunparse scheme netloc path [] query [])

/-! ## CPython 3.11 `urllib.robotparser` and `src/crawler/robots.py`

The robots authority wraps `RobotFileParser`.  Python whitespace stripping
is modelled over the ASCII whitespace characters (robots lines come from
`splitlines`, so they contain no newline), and `str.isdigit` over ASCII
digits. -/

/-- ASCII whitespace (the characters `str.strip` removes for ASCII text). -/
def isSpaceChar (c : Char) : Bool :=
  c = ' ' ∨ c = '\t' ∨ c = '\n' ∨ c = '\r' ∨ c.toNat = 0x0B ∨ c.toNat = 0x0C

/-- Python `str.strip()`. -/
def pyStrip (s : PyStr) : PyStr :=
  (s.dropWhile isSpaceChar).reverse.dropWhile isSpaceChar |>.reverse

/-- Python `str.isdigit()` (ASCII digits). -/
def isDigitStr (s : PyStr) : Bool := s ≠ [] ∧ s.all isDecDigit

/-- A `RuleLine`: an `Allow`/`Disallow` path with its allowance. -/
structure RuleLine where
  path : PyStr
  allowance : Bool
deriving DecidableEq, Repr

/-- An `Entry`: user agents, rule lines, optional `Crawl-delay` and
`Request-rate`. -/
structure Entry where
  useragents : List PyStr
  rulelines : List RuleLine
  delay : Option Nat
  req_rate : Option (Nat × Nat)
deriving DecidableEq, Repr

/-- The fresh `Entry()`. -/
def emptyEntry : Entry := ⟨[], [], none, none⟩

/-- State of a `RobotFileParser`.  `last_checked` is only ever compared to
zero, so it is a flag. -/
structure RobotFileParser where
  entries : List Entry
  default_entry : Option Entry
  disallow_all : Bool
  allow_all : Bool
  last_checked : Bool
  sitemaps : List PyStr
deriving DecidableEq, Repr

/-- A freshly constructed `RobotFileParser()`. -/
def freshRFP : RobotFileParser := ⟨[], none, false, false, false, []⟩

/-- Model of `RuleLine.__init__`: an empty `Disallow` path means allow
all; the path is re-parsed, re-assembled and quoted (`safe='/'`).  The
re-parse can raise `ValueError`, which propagates out of
`RobotFileParser.parse`. -/
def mkRuleLineE (path : PyStr) (allowance : Bool) : Except PyStr RuleLine := do
  let allowance := if path = [] ∧ allowance = false then true else allowance
  let pr ← urlparseE path
  let path2 := urlunparse pr.scheme pr.netloc pr.path pr.params pr.query pr.fragment
  pure ⟨pyQuote ['/'.toNat] path2, allowance⟩

/-- Model of `RobotFileParser._add_entry`. -/
def addEntry (st : RobotFileParser) (e : Entry) : RobotFileParser :=
  if pystr "*" ∈ e.useragents then
    if st.default_entry = none then { st with default_entry := some e } else st
  else { st with entries := st.entries ++ [e] }

/-- The loop body of `RobotFileParser.parse`.  A `ValueError` from
`RuleLine` aborts the loop, leaving the entries added so far (and
`last_checked` set) on the parser — exactly the state the caught exception
leaves behind in `robots.py`. -/
def parseLoop (st : RobotFileParser) (state : Nat) (entry : Entry) :
    List PyStr → RobotFileParser
  | [] => if state = 2 then addEntry st entry else st
  | line :: rest =>
      -- blank-line handling (tested on the raw line)
      let blank := line = []
      let st := if blank ∧ state = 2 then addEntry st entry else st
      let entry := if blank ∧ (state = 1 ∨ state = 2) then emptyEntry else entry
      let state := if blank ∧ (state = 1 ∨ state = 2) then 0 else state
      -- comment removal and strip
      let line := pyStrip (splitFirst '#' line).1
      if line = [] then parseLoop st state entry rest
      else
        match splitFirst ':' line with
        | (k0, some v0) =>
            let key := pyLower (pyStrip k0)
            let value := pyUnquote (pyStrip v0)
            if key = pystr "user-agent" then
              let st := if state = 2 then addEntry st entry else st
              let entry := if state = 2 then emptyEntry else entry
              parseLoop st 1 { entry with useragents := entry.useragents ++ [value] } rest
            else if key = pystr "disallow" then
              if state ≠ 0 then
                match mkRuleLineE value false with
                | .ok rl =>
                    parseLoop st 2 { entry with rulelines := entry.rulelines ++ [rl] } rest
                | .error _ => st
              else parseLoop st state entry rest
            else if key = pystr "allow" then
              if state ≠ 0 then
                match mkRuleLineE value true with
                | .ok rl =>
                    parseLoop st 2 { entry with rulelines := entry.rulelines ++ [rl] } rest
                | .error _ => st
              else parseLoop st state entry rest
            else if key = pystr "crawl-delay" then
              if state ≠ 0 then
                let entry := if isDigitStr (pyStrip value) then
                    { entry with delay := some (decVal (pyStrip value)) } else entry
                parseLoop st 2 entry rest
              else parseLoop st state entry rest
            else if key = pystr "request-rate" then
              if state ≠ 0 then
                let numbers := pySplitChar '/' value
                let entry :=
                  match numbers with
                  | [a, b] =>
                      if isDigitStr (pyStrip a) ∧ isDigitStr (pyStrip b) then
                        { entry with req_rate := some (decVal (pyStrip a), decVal (pyStrip b)) }
                      else entry
                  | _ => entry
                parseLoop st 2 entry rest
              else parseLoop st state entry rest
            else if key = pystr "sitemap" then
              parseLoop { st with sitemaps := st.sitemaps ++ [value] } state entry rest
            else parseLoop st state entry rest
        | (_, none) => parseLoop st state entry rest

/-- Model of `RobotFileParser.parse(lines)`: sets `last_checked`
(`modified()`), then runs the line state machine. -/
def rfpParse (lines : List PyStr) (st : RobotFileParser) : RobotFileParser :=
  parseLoop { st with last_checked := true } 0 emptyEntry lines

/-- Model of `Entry.applies_to(useragent)`: the agent token before the
first `/`, lower-cased; an entry applies via `*` or substring match. -/
def entryAppliesTo (e : Entry) (useragent : PyStr) : Bool :=
  let ua := pyLower (splitFirst '/' useragent).1
  e.useragents.any fun agent => agent = pystr "*" ∨ (pyLower agent) <:+: ua

/-- Model of `Entry.allowance(filename)`: first matching rule wins, no
match means allowed. -/
def entryAllowance (e : Entry) (filename : PyStr) : Bool :=
  match e.rulelines.find? (fun l => l.path = pystr "*" ∨ l.path.isPrefixOf filename) with
  | some l => l.allowance
  | none => true

/-- Model of `RobotFileParser.can_fetch(useragent, url)`.  The request URL
is unquoted, re-parsed (this can raise, hence `Except`), re-assembled
without scheme/netloc and quoted. -/
def canFetchE (st : RobotFileParser) (useragent url : PyStr) : Except PyStr Bool :=
  if st.disallow_all then .ok false
  else if st.allow_all then .ok true
  else if st.last_checked = false then .ok false
  else do
    let parsed ← urlparseE (pyUnquote url)
    let url2 := urlunparse [] [] parsed.path parsed.params parsed.query parsed.fragment
    let url3 := pyQuote ['/'.toNat] url2
    let url4 := if url3 = [] then pystr "/" else url3
    match st.entries.find? (fun e => entryAppliesTo e useragent) with
    | some e => .ok (entryAllowance e url4)
    | none =>
        match st.default_entry with
        | some d => .ok (entryAllowance d url4)
        | none => .ok true

/-- Model of `RobotFileParser.crawl_delay(useragent)`. -/
def rfpCrawlDelay (st : RobotFileParser) (useragent : PyStr) : Option Nat :=
  if st.last_checked = false then none
  else
    match st.entries.find? (fun e => entryAppliesTo e useragent) with
    | some e => e.delay
    | none =>
        match st.default_entry with
        | some d => d.delay
        | none => none

/-- Outcome of fetching `robots.txt` (`urllib.request.urlopen` inside
`RobotFileParser.read`): a decoded line list, an `HTTPError` code, or a
network-level failure (which `read` does not catch; a body that fails
UTF-8 decoding behaves identically and is subsumed). -/
inductive FetchOutcome where
  | success (lines : List PyStr)
  | httpError (code : Nat)
  | netError
deriving DecidableEq, Repr

/-- Model of `RobotFileParser.read()` under a given fetch outcome: 401/403
set `disallow_all`, other 4xx set `allow_all`, other `HTTPError`s leave
the parser untouched, a body is parsed.  A network error raises out of
`read`; `robots.py` catches it and keeps the fresh parser. -/
def readOutcome : FetchOutcome → RobotFileParser → RobotFileParser
  | .netError, st => st
  | .httpError code, st =>
      if code = 401 ∨ code = 403 then { st with disallow_all := true }
      else if 400 ≤ code ∧ code < 500 then { st with allow_all := true }
      else st
  | .success lines, st => rfpParse lines st

/-- Model of `_get_parser(root)` in `robots.py`: a fresh parser, `read()`
inside `try/except Exception: pass`. -/
def getParserOutcome (o : FetchOutcome) : RobotFileParser := readOutcome o freshRFP

/-- Model of `rootsite(url)` in `robots.py`. -/
def rootsiteE (url : PyStr) : Except PyStr PyStr := do
  let p ← urlparseE url
  pure (p.scheme ++ ':' :: '/' :: '/' :: p.netloc)

/-- Model of `allowed(user_agent, url)` in `robots.py`, with the robots
fetch abstracted by its outcome: `rootsite`/`set_url` parse errors
propagate (they sit outside the `try`), while any exception inside
`can_fetch` yields `True`. -/
def allowedModel (o : FetchOutcome) (user_agent url : PyStr) :
    Except PyStr Bool := do
  let root ← rootsiteE url
  let _ ← urlparseE (root ++ pystr "/robots.txt")
  let r := getParserOutcome o
  match canFetchE r user_agent url with
  | .ok b => pure b
  | .error _ => pure true

/-- Model of `crawl_delay(user_agent, url)` in `robots.py` (the wrapped
`RobotFileParser.crawl_delay` raises nothing, so its `except` is dead). -/
def crawlDelayModel (o : FetchOutcome) (user_agent url : PyStr) :
    Except PyStr (Option Nat) := do
  let root ← rootsiteE url
  let _ ← urlparseE (root ++ pystr "/robots.txt")
  pure (rfpCrawlDelay (getParserOutcome o) user_agent)

/-! ## `src/crawler/downloader.py`: retry backoff

Floats are modelled as rationals; `BACKOFF_BASE = 1.8` becomes `9/5`
(every comparison proved is far from the float rounding error). -/

/-- `BACKOFF_BASE` from `src/config.py`. -/
def BACKOFF_BASE : ℚ := 9 / 5

/-- `RETRY_MAX` from `src/config.py`. -/
def RETRY_MAX : Nat := 3

/-- The retriable status codes in `fetch`. -/
def retriableCode (c : Nat) : Bool := c ∈ [429, 503, 502, 500, 408]

/-- The value `fetch` assigns to `backoff` from a parseable `Retry-After`
header: `backoff = max(float(ra), backoff)`.  The very next statement of
the retriable branch overwrites it (see `fetchRetryStep`), so this value
never reaches a `sleep`. -/
def retryAfterClamped (retryAfter : Option ℚ) (backoff : ℚ) : ℚ :=
  match retryAfter with
  | some r => max r backoff
  | none => backoff

/-- State update of one retriable iteration of `fetch` (status in
`{429, 503, 502, 500, 408}`): after the (dead) `Retry-After` assignment,
`attempt += 1` and `backoff = max(1.0, BACKOFF_BASE ** attempt)`.  The
returned backoff is the duration of the `time.sleep(backoff)` that
precedes the next attempt. -/
def fetchRetryStep (retryAfter : Option ℚ) (attempt : Nat) (backoff : ℚ) :
    Nat × ℚ :=
  let _dead := retryAfterClamped retryAfter backoff
  (attempt + 1, max 1 (BACKOFF_BASE ^ (attempt + 1)))

/-! ## `src/utils/polite_fetch.py`: adaptive backoff -/

/-- The per-origin pacing state of a `PoliteSession`.  The two dicts are
modelled as total maps (`dict.get` with default 0 for `adaptive_extra`,
`None` for `domain_delay`); the dataclass fields `min_interval` (1.0) and
`max_extra_delay` (10.0) are carried explicitly. -/
structure PoliteState where
  adaptive_extra : PyStr → ℚ
  domain_delay : PyStr → Option ℚ
  min_interval : ℚ
  max_extra_delay : ℚ

/-- A fresh `PoliteSession` with the dataclass defaults. -/
def politeInit : PoliteState :=
  ⟨fun _ => 0, fun _ => none, 1, 10⟩

/-- Model of `PoliteSession._effective_delay(netloc)`.  `rtDelay` stands
for what `_crawl_delay_from_text(netloc)` would return (a network
oracle); `x or base` maps `None` and `0.0` to `base`.  Returns the delay
and the state (the first call caches `domain_delay[netloc]`). -/
def effectiveDelay (rtDelay : Option ℚ) (st : PoliteState) (netloc : PyStr) :
    ℚ × PoliteState :=
  let base := st.min_interval
  match st.domain_delay netloc with
  | some cd =>
      (max base cd + min (st.adaptive_extra netloc) st.max_extra_delay, st)
  | none =>
      let cd := match rtDelay with
        | some d => if d = 0 then base else d
        | none => base
      let st' := { st with
        domain_delay := fun n => if n = netloc then some (max cd base) else st.domain_delay n }
      (max base cd + min (st.adaptive_extra netloc) st.max_extra_delay, st')

/-- Model of the 200-response update in `PoliteSession.get`:
`adaptive_extra[netloc] = max(0, adaptive_extra.get(netloc, 0) - 0.5)`. -/
def politeOnSuccess (st : PoliteState) (netloc : PyStr) : PoliteState :=
  { st with adaptive_extra := fun n =>
      if n = netloc then max 0 (st.adaptive_extra netloc - 1/2)
      else st.adaptive_extra n }

/-- Model of the 429-response update in `PoliteSession.get`:
`adaptive_extra[netloc] = min(max_extra_delay, adaptive_extra.get(netloc, 0) + 2.0)`. -/
def politeOn429 (st : PoliteState) (netloc : PyStr) : PoliteState :=
  { st with adaptive_extra := fun n =>
      if n = netloc then min st.max_extra_delay (st.adaptive_extra netloc + 2)
      else st.adaptive_extra n }

/-! ## `src/crawler/queue.py`: `CrawlQueue` -/

/-- `MAX_PAGES_PER_DOMAIN` from `src/config.py`. -/
def MAX_PAGES_PER_DOMAIN : Nat := 200

/-- In-memory state of a `CrawlQueue`: the backing `StateDB` plus the
`domain_counts` dict (`dict.get(dom, 0)` modelled as a total map). -/
structure CrawlQueue where
  db : QueueState
  domain_counts : PyStr → Nat

/-- A fresh `CrawlQueue` over an empty store. -/
def cqInit : CrawlQueue := ⟨qInit, fun _ => 0⟩

/-- Model of `CrawlQueue._domain`: `urlparse(url).netloc.lower()` (the
parse can raise, hence `Except`). -/
def cqDomainE (url : PyStr) : Except PyStr PyStr := do
  let p ← urlparseE url
  pure (pyLower p.netloc)

/-- Model of `CrawlQueue.seed`: pushes straight into the store at depth 0,
with no budget check. -/
def cqSeed (url source rtype : PyStr) (q : CrawlQueue) : CrawlQueue :=
  { q with db := dbPush url 0 source rtype q.db }

/-- Model of `CrawlQueue.push`: drop the URL when its domain count has
reached `MAX_PAGES_PER_DOMAIN`, otherwise store-push.  `domain_counts` is
never written. -/
def cqPush (url : PyStr) (depth : Nat) (source rtype : PyStr) (q : CrawlQueue) :
    Except PyStr CrawlQueue := do
  let dom ← cqDomainE url
  if MAX_PAGES_PER_DOMAIN ≤ q.domain_counts dom then pure q
  else pure { q with db := dbPush url depth source rtype q.db }

/-- Model of `CrawlQueue.pop`: store-pop; on a row, increment the popped
URL's domain count.  (If `_domain` raised, Python would leave the row
already deleted; the `Except` model only covers the non-raising runs,
which is all the claims quantify over.) -/
def cqPop (q : CrawlQueue) : Except PyStr (Option QRow × CrawlQueue) :=
  match dbPop q.db with
  | (none, _) => .ok (none, q)
  | (some r, db') => do
      let dom ← cqDomainE r.url
      pure (some r, ⟨db', fun n =>
        if n = dom then q.domain_counts dom + 1 else q.domain_counts n⟩)

/-- An operation against a `CrawlQueue`. -/
inductive CQOp where
  | seed (url source rtype : PyStr)
  | push (url : PyStr) (depth : Nat) (source rtype : PyStr)
  | pop

/-- Run a `CrawlQueue` trace from a given state, logging popped rows; an
exception stops the run. -/
def cqExecFrom (q : CrawlQueue) (out : List QRow) :
    List CQOp → Except PyStr (CrawlQueue × List QRow)
  | [] => .ok (q, out)
  | CQOp.seed u s t :: rest => cqExecFrom (cqSeed u s t q) out rest
  | CQOp.push u d s t :: rest => do
      let q' ← cqPush u d s t q
      cqExecFrom q' out rest
  | CQOp.pop :: rest => do
      let r ← cqPop q
      match r.1 with
      | none => cqExecFrom r.2 out rest
      | some row => cqExecFrom r.2 (out ++ [row]) rest

/-- Number of rows in a pop log whose canonical domain is `d`. -/
def countDom (out : List QRow) (d : PyStr) : Nat :=
  (out.filter fun r =>
    match cqDomainE r.url with
    | .ok d' => d' = d
    | .error _ => false).length

/-! ## Lexicon construction

`build_lexicon` (`src/classify/reuters_build_lexicon.py`) and
`build_lexicons` (`src/ml/tfidf_Lexicon_Classifier.py`) both consume a
fitted TF-IDF document-term matrix.  The matrix is an input of the model
(a list of rows of rationals): the claims are about the category
count filter and centroid handling, not about `TfidfVectorizer` (whose
entries are non-negative — stated as a hypothesis where needed). -/

/-- Ordered de-duplication keeping first occurrences (Python `dict`
insertion order), with the set of already-seen keys as accumulator. -/
def dedupFirstAux (seen : List PyStr) : List PyStr → List PyStr
  | [] => []
  | x :: xs =>
      if x ∈ seen then dedupFirstAux seen xs
      else x :: dedupFirstAux (x :: seen) xs

/-- Entry point of the ordered de-duplication. -/
def dedupFirst (l : List PyStr) : List PyStr := dedupFirstAux [] l

/-- The `(category, doc index)` pairs in iteration order of the
`cat_docs` construction loop. -/
def labelPairs (labels : List (List PyStr)) : List (PyStr × Nat) :=
  labels.enum.flatMap fun p => p.2.map fun c => (c, p.1)

/-- Keys of `cat_docs` in insertion order. -/
def lexCats (labels : List (List PyStr)) : List PyStr :=
  dedupFirst ((labelPairs labels).map Prod.fst)

/-- `cat_docs[c]`: the indices of the documents labelled `c`, with
multiplicity, in loop order. -/
def docsOf (labels : List (List PyStr)) (c : PyStr) : List Nat :=
  ((labelPairs labels).filter fun p => p.1 = c).map Prod.snd

/-- Column `j` of the mean of the selected rows (`M.mean(axis=0)`). -/
def colMean (x : List (List ℚ)) (idxs : List Nat) (j : Nat) : ℚ :=
  (idxs.map fun i => (x.getD i []).getD j 0).sum / idxs.length

/-- The per-category centroid over `v` columns. -/
def centroidOf (x : List (List ℚ)) (v : Nat) (idxs : List Nat) : List ℚ :=
  (List.range v).map (colMean x idxs)

/-- Index order used by `np.argsort(centroid)[::-1]`: by value descending,
ties by index descending (NumPy's ascending stable argsort, reversed). -/
def byValDesc (vals : List ℚ) (i j : Nat) : Prop :=
  vals.getD j 0 < vals.getD i 0 ∨ (vals.getD i 0 = vals.getD j 0 ∧ j ≤ i)

instance (vals : List ℚ) : DecidableRel (byValDesc vals) := fun i j => by
  unfold byValDesc; infer_instance

instance (vals : List ℚ) : IsTotal Nat (byValDesc vals) where
  total i j := by
    unfold byValDesc
    rcases lt_trichotomy (vals.getD i 0) (vals.getD j 0) with h | h | h
    · exact Or.inr (Or.inl h)
    · rcases Nat.le_total i j with h2 | h2
      · exact Or.inr (Or.inr ⟨h.symm, h2⟩)
      · exact Or.inl (Or.inr ⟨h, h2⟩)
    · exact Or.inl (Or.inl h)

instance (vals : List ℚ) : IsTrans Nat (byValDesc vals) where
  trans i j k hij hjk := by
    unfold byValDesc at *
    rcases hij with h1 | ⟨e1, l1⟩ <;> rcases hjk with h2 | ⟨e2, l2⟩
    · exact Or.inl (h2.trans h1)
    · exact Or.inl (e2 ▸ h1)
    · exact Or.inl (e1 ▸ h2)
    · exact Or.inr ⟨e1.trans e2, l2.trans l1⟩

/-- Model of `np.argsort(centroid)[::-1]`: column indices sorted by value
descending. -/
def argsortDesc (vals : List ℚ) : List Nat :=
  List.insertionSort (byValDesc vals) (List.range vals.length)

/-- Model of `build_lexicon` (`src/classify/reuters_build_lexicon.py`),
abstracted over the fitted matrix `x` and feature names `vocab`: for each
category in `cat_docs` order, skip when it has fewer than 5 documents,
skip when its centroid sums to zero, keep the top `top_k` strictly
positive terms, and drop the category if none remain. -/
def build_lexicon (x : List (List ℚ)) (labels : List (List PyStr))
    (vocab : List PyStr) (top_k : Nat) : List (PyStr × List (PyStr × ℚ)) :=
  (lexCats labels).filterMap fun c =>
    let idxs := docsOf labels c
    if idxs.length < 5 then none
    else
      let centroid := centroidOf x vocab.length idxs
      if centroid.sum = 0 then none
      else
        let top := (argsortDesc centroid).take top_k
        let terms := (top.filter fun i => 0 < centroid.getD i 0).map
          fun i => (vocab.getD i [], centroid.getD i 0)
        if terms = [] then none else some (c, terms)

/-- Python `sorted(set(y))` (code-point order; de-dup then sort). -/
def sortedDistinct (y : List PyStr) : List PyStr :=
  List.insertionSort (fun a b => a ≤ b) (dedupFirst y)

/-- Python `sorted(…, key=score, reverse=True)` as a relation: by score
descending (a stable sort under this relation reproduces Python's stable
descending sort). -/
def byScoreDesc (p q : PyStr × ℚ) : Prop := q.2 ≤ p.2

instance : DecidableRel byScoreDesc := fun p q => by
  unfold byScoreDesc; infer_instance

instance : IsTotal (PyStr × ℚ) byScoreDesc where
  total p q := le_total q.2 p.2

instance : IsTrans (PyStr × ℚ) byScoreDesc where
  trans _ _ _ h1 h2 := le_trans h2 h1

/-- Model of `build_lexicons` (`src/ml/tfidf_Lexicon_Classifier.py`): for
each distinct label (sorted), skip only EMPTY categories; keep positive
terms of the centroid (`argpartition` top-`topk` when the vocabulary is
larger than `topk` — modelled by the sorted prefix, a legal resolution of
`argpartition`'s unspecified order), sorted by weight descending; the
category is always added, even with an empty term list. -/
def build_lexicons (x : List (List ℚ)) (y : List PyStr) (vocab : List PyStr)
    (topk : Nat) : List (PyStr × List (PyStr × ℚ)) :=
  (sortedDistinct y).filterMap fun lab =>
    let idx := (y.enum.filter fun p => p.2 = lab).map Prod.fst
    if idx = [] then none
    else
      let arr := centroidOf x vocab.length idx
      let top_idx :=
        if topk < vocab.length then (argsortDesc arr).take topk
        else (List.range arr.length).filter fun i => 0 < arr.getD i 0
      let pairs0 := (top_idx.filter fun i => 0 < arr.getD i 0).map
        fun i => (vocab.getD i [], arr.getD i 0)
      some (lab, List.insertionSort byScoreDesc pairs0)

/-! ## `src/classify/score_and_label.py`: token-overlap scoring -/

/-- Split at every character satisfying `p`, keeping empty pieces. -/
def pySplitP (p : Char → Bool) : PyStr → List PyStr
  | [] => [[]]
  | x :: rest =>
      if p x then [] :: pySplitP p rest
      else
        match pySplitP p rest with
        | [] => [[x]]
        | t :: ts => (x :: t) :: ts

/-- Python `str.split()` (no argument): split at whitespace, dropping
empty pieces. -/
def pySplitWS (s : PyStr) : List PyStr :=
  (pySplitP isSpaceChar s).filter (fun t => t ≠ [])

/-- Model of `tokens_to_ngrams`: the unigrams followed by the
adjacent-pair bigrams joined with a space. -/
def tokens_to_ngrams (toks : List PyStr) : List PyStr :=
  toks ++ (toks.zip toks.tail).map fun p => p.1 ++ ' ' :: p.2

/-- Weight of a gram in a category's weight dict (`weights[g]`; a dict
built from pairs keeps the LAST value for a repeated key). -/
def lookupW (weights : List (PyStr × ℚ)) (g : PyStr) : ℚ :=
  match weights.reverse.find? (fun w => w.1 = g) with
  | some w => w.2
  | none => 0

/-- The score a category accrues over the grams (`s += weights[g]` for
every occurrence of a known gram). -/
def catScore (grams : List PyStr) (weights : List (PyStr × ℚ)) : ℚ :=
  (grams.map (lookupW weights)).sum

/-- Model of `score_row(tokens, lexicon)`: categories with strictly
positive score, sorted by score descending (Python's stable `sort` with
`reverse=True`); empty label and empty top-3 when no category scores
positive. -/
def score_row (tokens : PyStr) (lexicon : List (PyStr × List (PyStr × ℚ))) :
    PyStr × List (PyStr × ℚ) :=
  let toks := pySplitWS tokens
  let grams := tokens_to_ngrams toks
  let scores := lexicon.filterMap fun cw =>
    let s := catScore grams cw.2
    if 0 < s then some (cw.1, s) else none
  if scores = [] then (pystr "", [])
  else
    let sorted := List.insertionSort byScoreDesc scores
    ((sorted.headD (pystr "", 0)).1, sorted.take 3)

/-! ## Derived predicates used by the proofs -/

/-- Failure of scheme extraction: either the string has no `:` or the part
before the first `:` is not a valid scheme prefix.  Equivalent to
`splitScheme s = ([], s)`. -/
def noScheme (s : PyStr) : Prop :=
  match splitFirst ':' s with
  | (_, none) => True
  | (a, some _) => ¬(a ≠ [] ∧ isAsciiAlpha (a.headD ' ') = true ∧ a.all schemeChar = true)

/-- A character that survives `removeUnsafe`: not tab, CR or LF. -/
def cleanChar (c : Char) : Prop := ¬(c = '\t' ∨ c = '\r' ∨ c = '\n')

/-- Shape of a scheme produced by `splitScheme`: empty, or a non-empty
lower-case-fixed string of scheme characters starting with an ASCII
letter. -/
def schemeOk (sch : PyStr) : Prop :=
  sch = [] ∨ (sch ≠ [] ∧ isAsciiAlpha (sch.headD ' ') = true ∧
    sch.all schemeChar = true ∧ pyLower sch = sch)

/-- Shape of a netloc accepted by `urlsplit`: no break characters, no
mismatched or invalid brackets, no NFKC offenders, and clean. -/
def netlocOk (nl : PyStr) : Prop :=
  (∀ c ∈ nl, netlocBreak c = false) ∧
  ¬(('[' ∈ nl ∧ ']' ∉ nl) ∨ (']' ∈ nl ∧ '[' ∉ nl)) ∧
  ¬('[' ∈ nl ∧ ']' ∈ nl ∧ ¬bracketedHostOk (bracketPart nl)) ∧
  nl.any nfkcOffender = false ∧
  (∀ c ∈ nl, cleanChar c)

/-- The last `/`-separated segment of the string contains no `;`, so
`_splitparams` leaves the string unchanged. -/
def lastSegNoSemi (s : PyStr) : Prop :=
  match splitLast '/' s with
  | some (_, b) => ';' ∉ b
  | none => ';' ∉ s

/-! # Theorems

Shared helper lemmas come first; the per-claim theorems (and their
witnesses/counterexamples) follow. -/

/-! ## Helper lemmas: `splitFirst` and `splitLast` -/

theorem splitFirst_eq_some {c : Char} :
    ∀ {s a b : PyStr}, splitFirst c s = (a, some b) → s = a ++ c :: b ∧ c ∉ a := by
  intro s
  induction s with
  | nil => intro a b h; simp [splitFirst] at h
  | cons x xs ih =>
      intro a b h
      by_cases hx : x = c
      · rw [splitFirst, if_pos hx] at h
        obtain ⟨ha, hb⟩ := Prod.mk.injEq .. ▸ h
        cases hb
        simp [← ha, hx]
      · rcases hp : splitFirst c xs with ⟨a', o⟩
        rw [splitFirst, if_neg hx, hp] at h
        obtain ⟨ha, hb⟩ := Prod.mk.injEq .. ▸ h
        cases hb
        obtain ⟨h1, h2⟩ := ih hp
        subst ha
        refine ⟨by simp [h1], ?_⟩
        simp only [List.mem_cons, not_or]
        exact ⟨fun hc => hx hc.symm, h2⟩

theorem splitFirst_eq_none {c : Char} :
    ∀ {s a : PyStr}, splitFirst c s = (a, none) → s = a ∧ c ∉ a := by
  intro s
  induction s with
  | nil =>
      intro a h
      rw [splitFirst] at h
      obtain ⟨ha, _⟩ := Prod.mk.injEq .. ▸ h
      simp [← ha]
  | cons x xs ih =>
      intro a h
      by_cases hx : x = c
      · rw [splitFirst, if_pos hx] at h
        obtain ⟨_, hb⟩ := Prod.mk.injEq .. ▸ h
        cases hb
      · rcases hp : splitFirst c xs with ⟨a', o⟩
        rw [splitFirst, if_neg hx, hp] at h
        obtain ⟨ha, hb⟩ := Prod.mk.injEq .. ▸ h
        cases hb
        obtain ⟨h1, h2⟩ := ih hp
        subst ha
        refine ⟨by simp [h1], ?_⟩
        simp only [List.mem_cons, not_or]
        exact ⟨fun hc => hx hc.symm, h2⟩

theorem splitFirst_not_mem {c : Char} {s : PyStr} (h : c ∉ s) :
    splitFirst c s = (s, none) := by
  induction s with
  | nil => rfl
  | cons x xs ih =>
      simp only [List.mem_cons, not_or] at h
      rw [splitFirst, if_neg (fun hx : x = c => h.1 hx.symm), ih h.2]

theorem splitFirst_append {c : Char} {a : PyStr} (b : PyStr) (h : c ∉ a) :
    splitFirst c (a ++ c :: b) = (a, some b) := by
  induction a with
  | nil => simp [splitFirst]
  | cons x xs ih =>
      simp only [List.mem_cons, not_or] at h
      rw [List.cons_append, splitFirst,
        if_neg (fun hx : x = c => h.1 hx.symm), ih h.2]

theorem splitLast_eq_none {c : Char} :
    ∀ {s : PyStr}, splitLast c s = none → c ∉ s := by
  intro s
  induction s with
  | nil => intro _; simp
  | cons x xs ih =>
      intro h
      rw [splitLast] at h
      rcases hxs : splitLast c xs with _ | p
      · rw [hxs] at h
        by_cases hx : x = c
        · rw [if_pos hx] at h; cases h
        · simp only [List.mem_cons, not_or]
          exact ⟨fun hc => hx hc.symm, ih hxs⟩
      · rw [hxs] at h; cases h

theorem splitLast_eq_some {c : Char} :
    ∀ {s a b : PyStr}, splitLast c s = some (a, b) → s = a ++ c :: b ∧ c ∉ b := by
  intro s
  induction s with
  | nil => intro a b h; simp [splitLast] at h
  | cons x xs ih =>
      intro a b h
      rw [splitLast] at h
      rcases hxs : splitLast c xs with _ | ⟨a', b'⟩
      · rw [hxs] at h
        by_cases hx : x = c
        · rw [if_pos hx] at h
          cases h
          exact ⟨by simp [hx], splitLast_eq_none hxs⟩
        · rw [if_neg hx] at h; cases h
      · rw [hxs] at h
        cases h
        obtain ⟨h1, h2⟩ := ih hxs
        exact ⟨by simp [h1], h2⟩

theorem splitLast_append {c : Char} {b : PyStr} (a : PyStr) (h : c ∉ b) :
    splitLast c (a ++ c :: b) = some (a, b) := by
  induction a with
  | nil =>
      rw [List.nil_append, splitLast]
      rcases hb : splitLast c b with _ | p
      · simp
      · exact absurd (splitLast_eq_some hb).1 (by
          intro he
          exact h (he ▸ List.mem_append_right _ (List.mem_cons_self _ _)))
  | cons x xs ih =>
      rw [List.cons_append, splitLast, ih]

/-! ## Claim C2: Retry-After floor (`src/crawler/downloader.py`) -/

/-- C2: the claim states that on a 429/503 with a parseable `Retry-After`
value `r` the next backoff sleep is at least `r`.  The code computes
`max(float(ra), backoff)` but immediately overwrites it with
`max(1.0, BACKOFF_BASE ** attempt)`: at the failing input — first attempt,
HTTP 429, `Retry-After: 100` — the sleep before the next attempt is
`1.8 < 100` seconds.  (The dead assignment shows the spec captures the
intent and the overwrite is the slip.) -/
theorem C2_retry_after_floor_violated :
    retriableCode 429 = true ∧
    retryAfterClamped (some 100) 0 = 100 ∧
    fetchRetryStep (some 100) 0 0 = (1, 9/5) ∧
    ((9 : ℚ)/5 < 100) := by
  refine ⟨rfl, by norm_num [retryAfterClamped], ?_, by norm_num⟩
  simp only [fetchRetryStep, BACKOFF_BASE]
  norm_num

/-! ## Claim C7: adaptive backoff direction (`src/utils/polite_fetch.py`) -/

/-- C7 counterexample: the claim asserts that after a 429 the
`effective_delay` of the origin STRICTLY increases versus its prior value,
for every rate-limiter state.  At the cap it does not: starting from a
fresh session, one `_effective_delay` call (caching the 3-second robots
delay) followed by five 429s drives `adaptive_extra` to the
`max_extra_delay` cap of 10; a sixth 429 leaves `effective_delay` at 13,
not strictly larger. -/
theorem C7_counterexample :
    (effectiveDelay (some 3)
        (politeOn429 (politeOn429 (politeOn429 (politeOn429 (politeOn429 (politeOn429
          (effectiveDelay (some 3) politeInit (pystr "h")).2
          (pystr "h")) (pystr "h")) (pystr "h")) (pystr "h")) (pystr "h")) (pystr "h"))
        (pystr "h")).1 =
      (effectiveDelay (some 3)
        (politeOn429 (politeOn429 (politeOn429 (politeOn429 (politeOn429
          (effectiveDelay (some 3) politeInit (pystr "h")).2
          (pystr "h")) (pystr "h")) (pystr "h")) (pystr "h")) (pystr "h"))
        (pystr "h")).1 := by
  norm_num [effectiveDelay, politeOn429, politeInit]

/-- C7 (amended): with the origin's crawl delay already cached and a
non-negative adaptive extra (an invariant: it starts at 0 and both updates
preserve non-negativity, also proved here), a 429 strictly increases
`effective_delay` when the prior adaptive extra is below
`max_extra_delay`, leaves it unchanged at or above the cap, and a success
never increases it. -/
theorem C7_amended (st : PoliteState) (o : PyStr) (cd : ℚ) (rt : Option ℚ)
    (hcd : st.domain_delay o = some cd) (hnn : 0 ≤ st.adaptive_extra o)
    (hmx : 0 ≤ st.max_extra_delay) :
    (st.adaptive_extra o < st.max_extra_delay →
      (effectiveDelay rt st o).1 < (effectiveDelay rt (politeOn429 st o) o).1) ∧
    (st.max_extra_delay ≤ st.adaptive_extra o →
      (effectiveDelay rt (politeOn429 st o) o).1 = (effectiveDelay rt st o).1) ∧
    (effectiveDelay rt (politeOnSuccess st o) o).1 ≤ (effectiveDelay rt st o).1 ∧
    0 ≤ (politeOn429 st o).adaptive_extra o ∧
    0 ≤ (politeOnSuccess st o).adaptive_extra o ∧
    politeInit.adaptive_extra o = 0 := by
  have h429 : (politeOn429 st o).adaptive_extra o =
      min st.max_extra_delay (st.adaptive_extra o + 2) := by
    simp [politeOn429]
  have hsuc : (politeOnSuccess st o).adaptive_extra o =
      max 0 (st.adaptive_extra o - 1/2) := by
    simp [politeOnSuccess]
  have hdd429 : (politeOn429 st o).domain_delay = st.domain_delay := rfl
  have hddsuc : (politeOnSuccess st o).domain_delay = st.domain_delay := rfl
  have hmax429 : (politeOn429 st o).max_extra_delay = st.max_extra_delay := rfl
  have hmaxsuc : (politeOnSuccess st o).max_extra_delay = st.max_extra_delay := rfl
  have hmin429 : (politeOn429 st o).min_interval = st.min_interval := rfl
  have hminsuc : (politeOnSuccess st o).min_interval = st.min_interval := rfl
  have heff : ∀ st' : PoliteState, st'.domain_delay o = some cd →
      (effectiveDelay rt st' o).1 =
        max st'.min_interval cd + min (st'.adaptive_extra o) st'.max_extra_delay := by
    intro st' h
    simp [effectiveDelay, h]
  rw [heff st hcd, heff _ (hdd429 ▸ hcd), heff _ (hddsuc ▸ hcd),
    h429, hsuc, hmax429, hmaxsuc, hmin429, hminsuc]
  refine ⟨?_, ?_, ?_, ?_, ?_, rfl⟩
  · intro hlt
    have h1 : min (st.adaptive_extra o) st.max_extra_delay = st.adaptive_extra o :=
      min_eq_left hlt.le
    rw [h1]
    have h2 : st.adaptive_extra o < min st.max_extra_delay (st.adaptive_extra o + 2) := by
      rcases le_or_lt st.max_extra_delay (st.adaptive_extra o + 2) with h | h
      · rw [min_eq_left h]; exact hlt
      · rw [min_eq_right h.le]; linarith
    have h3 : min (min st.max_extra_delay (st.adaptive_extra o + 2)) st.max_extra_delay
        = min st.max_extra_delay (st.adaptive_extra o + 2) :=
      min_eq_left (min_le_left _ _)
    rw [h3]
    linarith
  · intro hge
    have h1 : min (st.adaptive_extra o) st.max_extra_delay = st.max_extra_delay :=
      min_eq_right hge
    have h2 : min st.max_extra_delay (st.adaptive_extra o + 2) = st.max_extra_delay :=
      min_eq_left (by linarith)
    rw [h1, h2, min_self]
  · have h1 : max 0 (st.adaptive_extra o - 1/2) ≤ st.adaptive_extra o := by
      rcases le_or_lt (st.adaptive_extra o - 1/2) 0 with h | h
      · rw [max_eq_left h]; exact hnn
      · rw [max_eq_right h.le]; linarith
    have := min_le_min_right st.max_extra_delay h1
    gcongr
  · rcases le_or_lt st.max_extra_delay (st.adaptive_extra o + 2) with h | h
    · rw [min_eq_left h]; exact hmx
    · rw [min_eq_right h.le]; linarith
  · exact le_max_left _ _

/-- C7 witness: the amended theorem applied at a concrete cached state
(crawl delay 3 cached, adaptive extra 4, defaults otherwise). -/
theorem C7_amended_witness :
    (let st : PoliteState :=
      ⟨fun _ => 4, fun n => if n = pystr "h" then some 3 else none, 1, 10⟩
    st.domain_delay (pystr "h") = some 3 ∧ 0 ≤ st.adaptive_extra (pystr "h") ∧
      (st.adaptive_extra (pystr "h") < st.max_extra_delay →
        (effectiveDelay none st (pystr "h")).1 <
          (effectiveDelay none (politeOn429 st (pystr "h")) (pystr "h")).1)) := by
  refine ⟨by norm_num, by norm_num, ?_⟩
  exact (C7_amended _ (pystr "h") 3 none (by norm_num) (by norm_num) (by norm_num)).1

/-! ## Claim C9: token-overlap scoring (`src/classify/score_and_label.py`) -/

/-- C9: `score_row` returns the empty label and empty top-3 list exactly
when no category accrues a strictly positive sum of matched gram weights;
otherwise the top-3 list is non-empty and the predicted label is a
category whose (positive) sum is maximal over the lexicon. -/
theorem C9_score_empty_iff_no_positive (tokens : PyStr)
    (lexicon : List (PyStr × List (PyStr × ℚ))) :
    (score_row tokens lexicon = (pystr "", []) ↔
      ∀ cw ∈ lexicon, catScore (tokens_to_ngrams (pySplitWS tokens)) cw.2 ≤ 0) ∧
    ((∃ cw ∈ lexicon, 0 < catScore (tokens_to_ngrams (pySplitWS tokens)) cw.2) →
      (score_row tokens lexicon).2 ≠ [] ∧
      ∃ cw ∈ lexicon, cw.1 = (score_row tokens lexicon).1 ∧
        0 < catScore (tokens_to_ngrams (pySplitWS tokens)) cw.2 ∧
        ∀ cw' ∈ lexicon,
          catScore (tokens_to_ngrams (pySplitWS tokens)) cw'.2 ≤
            catScore (tokens_to_ngrams (pySplitWS tokens)) cw.2) := by
  set grams := tokens_to_ngrams (pySplitWS tokens) with hgrams
  set f : PyStr × List (PyStr × ℚ) → Option (PyStr × ℚ) := fun cw =>
    if 0 < catScore grams cw.2 then some (cw.1, catScore grams cw.2) else none with hf
  set scores := lexicon.filterMap f with hscores
  have hsrdef : score_row tokens lexicon =
      if scores = [] then (pystr "", [])
      else
        let sorted := List.insertionSort byScoreDesc scores
        ((sorted.headD (pystr "", 0)).1, sorted.take 3) := by
    rfl
  have hempty : scores = [] ↔ ∀ cw ∈ lexicon, catScore grams cw.2 ≤ 0 := by
    rw [hscores, List.filterMap_eq_nil_iff]
    constructor
    · intro h cw hcw
      have := h cw hcw
      rw [hf] at this
      by_contra hpos
      simp only [not_le] at hpos
      simp [hpos] at this
    · intro h cw hcw
      rw [hf]
      simp [not_lt.mpr (h cw hcw)]
  constructor
  · constructor
    · intro h
      rw [← hempty]
      by_contra hne
      rw [hsrdef, if_neg hne] at h
      have hlen : (List.insertionSort byScoreDesc scores).length = scores.length :=
        (List.perm_insertionSort _ _).length_eq
      have hne2 : List.insertionSort byScoreDesc scores ≠ [] := by
        intro hnil
        exact hne (List.length_eq_zero.mp (by rw [← hlen, hnil]; rfl))
      have : (List.insertionSort byScoreDesc scores).take 3 = [] := congrArg Prod.snd h
      rcases hs : List.insertionSort byScoreDesc scores with _ | ⟨a, l⟩
      · exact hne2 hs
      · rw [hs] at this; simp at this
    · intro h
      rw [hsrdef, if_pos (hempty.mpr h)]
  · intro ⟨cw, hcw, hpos⟩
    have hne : scores ≠ [] := by
      intro hnil
      exact absurd (hempty.mp hnil cw hcw) (not_le.mpr hpos)
    rw [hsrdef, if_neg hne]
    have hsorted := List.sorted_insertionSort byScoreDesc scores
    have hperm := List.perm_insertionSort byScoreDesc scores
    rcases hs : List.insertionSort byScoreDesc scores with _ | ⟨a, l⟩
    · exact absurd (List.length_eq_zero.mp (by rw [← hperm.length_eq, hs]; rfl)) hne
    · simp only [hs, List.headD_cons]
      refine ⟨by simp, ?_⟩
      have hamem : a ∈ scores := hperm.mem_iff.mp (hs ▸ List.mem_cons_self a l)
      obtain ⟨cwa, hcwa, hfa0⟩ := List.mem_filterMap.mp hamem
      have hfa : (if 0 < catScore grams cwa.2 then
          some (cwa.1, catScore grams cwa.2) else none) = some a := hfa0
      by_cases hp : 0 < catScore grams cwa.2
      · rw [if_pos hp] at hfa
        have ha : (cwa.1, catScore grams cwa.2) = a := Option.some.inj hfa
        have ha2 : a.2 = catScore grams cwa.2 := (congrArg Prod.snd ha).symm
        refine ⟨cwa, hcwa, (congrArg Prod.fst ha), hp, ?_⟩
        intro cw' hcw'
        by_cases hp' : 0 < catScore grams cw'.2
        · have hmem' : (cw'.1, catScore grams cw'.2) ∈ scores := by
            refine List.mem_filterMap.mpr ⟨cw', hcw', ?_⟩
            show (if 0 < catScore grams cw'.2 then
              some (cw'.1, catScore grams cw'.2) else none) = some (cw'.1, catScore grams cw'.2)
            rw [if_pos hp']
          have hmem2 : (cw'.1, catScore grams cw'.2) ∈ a :: l :=
            hs ▸ hperm.mem_iff.mpr hmem'
          rcases List.mem_cons.mp hmem2 with heq | hmem3
          · rw [← ha2, ← congrArg Prod.snd heq]
          · have hrel : byScoreDesc a (cw'.1, catScore grams cw'.2) :=
              (List.sorted_cons.mp (hs ▸ hsorted)).1 _ hmem3
            have : catScore grams cw'.2 ≤ a.2 := hrel
            linarith
        · have h0 : catScore grams cw'.2 ≤ 0 := not_lt.mp hp'
          linarith
      · rw [if_neg hp] at hfa; cases hfa

/-- C9 witness: the positive-score branch of the theorem applied at a
concrete tokens string and two-category lexicon. -/
theorem C9_score_witness :
    (∃ cw ∈ [(pystr "energy", [(pystr "oil", (3 : ℚ)/2)]),
        (pystr "farm", [(pystr "wheat", (1 : ℚ))])],
      0 < catScore (tokens_to_ngrams (pySplitWS (pystr "oil price"))) cw.2) ∧
    ((score_row (pystr "oil price")
        [(pystr "energy", [(pystr "oil", (3 : ℚ)/2)]),
         (pystr "farm", [(pystr "wheat", (1 : ℚ))])]).2 ≠ [] ∧
      ∃ cw ∈ [(pystr "energy", [(pystr "oil", (3 : ℚ)/2)]),
          (pystr "farm", [(pystr "wheat", (1 : ℚ))])],
        cw.1 = (score_row (pystr "oil price")
          [(pystr "energy", [(pystr "oil", (3 : ℚ)/2)]),
           (pystr "farm", [(pystr "wheat", (1 : ℚ))])]).1 ∧
        0 < catScore (tokens_to_ngrams (pySplitWS (pystr "oil price"))) cw.2 ∧
        ∀ cw' ∈ [(pystr "energy", [(pystr "oil", (3 : ℚ)/2)]),
            (pystr "farm", [(pystr "wheat", (1 : ℚ))])],
          catScore (tokens_to_ngrams (pySplitWS (pystr "oil price"))) cw'.2 ≤
            catScore (tokens_to_ngrams (pySplitWS (pystr "oil price"))) cw.2) := by
  have hyp : ∃ cw ∈ [(pystr "energy", [(pystr "oil", (3 : ℚ)/2)]),
      (pystr "farm", [(pystr "wheat", (1 : ℚ))])],
      0 < catScore (tokens_to_ngrams (pySplitWS (pystr "oil price"))) cw.2 := by
    refine ⟨(pystr "energy", [(pystr "oil", (3 : ℚ)/2)]), by simp, ?_⟩
    simp +decide [catScore, lookupW, tokens_to_ngrams, pySplitWS, pySplitP,
      isSpaceChar, pystr]
  exact ⟨hyp, (C9_score_empty_iff_no_positive _ _).2 hyp⟩

/-! ## Claim C8: lexicon category count filter -/

theorem mem_dedupFirstAux {x : PyStr} :
    ∀ {seen l : List PyStr}, x ∈ dedupFirstAux seen l ↔ (x ∈ l ∧ x ∉ seen) := by
  intro seen l
  induction l generalizing seen with
  | nil => simp [dedupFirstAux]
  | cons y ys ih =>
      rw [dedupFirstAux]
      by_cases hy : y ∈ seen
      · rw [if_pos hy, ih]
        constructor
        · exact fun ⟨h1, h2⟩ => ⟨List.mem_cons_of_mem _ h1, h2⟩
        · rintro ⟨h1, h2⟩
          rcases List.mem_cons.mp h1 with rfl | h1
          · exact absurd hy h2
          · exact ⟨h1, h2⟩
      · rw [if_neg hy]
        constructor
        · intro h
          rcases List.mem_cons.mp h with rfl | h
          · exact ⟨List.mem_cons_self _ _, hy⟩
          · obtain ⟨h1, h2⟩ := ih.mp h
            simp only [List.mem_cons, not_or] at h2
            exact ⟨List.mem_cons_of_mem _ h1, h2.2⟩
        · rintro ⟨h1, h2⟩
          rcases List.mem_cons.mp h1 with rfl | h1
          · exact List.mem_cons_self _ _
          · by_cases hxy : x = y
            · exact hxy ▸ List.mem_cons_self _ _
            · exact List.mem_cons_of_mem _ (ih.mpr ⟨h1, by
                simp only [List.mem_cons, not_or]
                exact ⟨hxy, h2⟩⟩)

theorem mem_dedupFirst {x : PyStr} {l : List PyStr} :
    x ∈ dedupFirst l ↔ x ∈ l := by
  rw [dedupFirst, mem_dedupFirstAux]
  simp

theorem sum_nonpos_of_forall :
    ∀ {l : List ℚ}, (∀ q ∈ l, q ≤ 0) → l.sum ≤ 0 := by
  intro l
  induction l with
  | nil => intro _; simp
  | cons q qs ih =>
      intro h
      have h1 := h q (List.mem_cons_self _ _)
      have h2 := ih fun x hx => h x (List.mem_cons_of_mem _ hx)
      simp only [List.sum_cons]
      linarith

theorem sum_pos_of_nonneg_ne_zero :
    ∀ {l : List ℚ}, (∀ q ∈ l, 0 ≤ q) → l ≠ List.replicate l.length 0 → 0 < l.sum := by
  intro l
  induction l with
  | nil => intro _ h; simp at h
  | cons q qs ih =>
      intro hnn hne
      have hq : 0 ≤ q := hnn q (List.mem_cons_self _ _)
      have hqs : 0 ≤ qs.sum := List.sum_nonneg fun x hx => hnn x (List.mem_cons_of_mem _ hx)
      rcases lt_or_eq_of_le hq with h | h
      · simp only [List.sum_cons]
        linarith
      · subst h
        have hqs' : qs ≠ List.replicate qs.length 0 := by
          intro heq
          exact hne (by rw [List.length_cons, List.replicate_succ, ← heq])
        have := ih (fun x hx => hnn x (List.mem_cons_of_mem _ hx)) hqs'
        simp only [List.sum_cons]
        linarith

/-- Membership in the keys of `build_lexicons`: every label occurring in
`y` yields an entry (there is no minimum-count filter). -/
theorem build_lexicons_mem_keys (xm : List (List ℚ)) (vm : List PyStr)
    (topkm : Nat) {y : List PyStr} {lab : PyStr} (hlab : lab ∈ y) :
    lab ∈ (build_lexicons xm y vm topkm).map Prod.fst := by
  have hsd : lab ∈ sortedDistinct y := by
    rw [sortedDistinct, List.mem_insertionSort]
    exact mem_dedupFirst.mpr hlab
  have hidx : ((y.enum.filter fun p => p.2 = lab).map Prod.fst) ≠ [] := by
    obtain ⟨i, hi, hget⟩ := List.mem_iff_getElem.mp hlab
    have henum : (i, lab) ∈ y.enum := by
      rw [List.mem_enum_iff_getElem?]
      simp [List.getElem?_eq_getElem hi, hget]
    have hmemf : (i, lab) ∈ y.enum.filter fun p => p.2 = lab :=
      List.mem_filter.mpr ⟨henum, by simp⟩
    intro hnil
    have : i ∈ (y.enum.filter fun p => p.2 = lab).map Prod.fst :=
      List.mem_map.mpr ⟨(i, lab), hmemf, rfl⟩
    rw [hnil] at this
    cases this
  rw [build_lexicons]
  refine List.mem_map.mpr ⟨(lab,
    List.insertionSort byScoreDesc
      (((if topkm < vm.length then
          (argsortDesc (centroidOf xm vm.length
            ((y.enum.filter fun p => p.2 = lab).map Prod.fst))).take topkm
        else (List.range (centroidOf xm vm.length
            ((y.enum.filter fun p => p.2 = lab).map Prod.fst)).length).filter
          fun i => 0 < (centroidOf xm vm.length
            ((y.enum.filter fun p => p.2 = lab).map Prod.fst)).getD i 0).filter
        fun i => 0 < (centroidOf xm vm.length
          ((y.enum.filter fun p => p.2 = lab).map Prod.fst)).getD i 0).map
        fun i => (vm.getD i [], (centroidOf xm vm.length
          ((y.enum.filter fun p => p.2 = lab).map Prod.fst)).getD i 0))),
    List.mem_filterMap.mpr ⟨lab, hsd, ?_⟩, rfl⟩
  show (if ((y.enum.filter fun p => p.2 = lab).map Prod.fst) = [] then none
    else
      let idx := (y.enum.filter fun p => p.2 = lab).map Prod.fst
      let arr := centroidOf xm vm.length idx
      let top_idx :=
        if topkm < vm.length then (argsortDesc arr).take topkm
        else (List.range arr.length).filter fun i => 0 < arr.getD i 0
      let pairs0 := (top_idx.filter fun i => 0 < arr.getD i 0).map
        fun i => (vm.getD i [], arr.getD i 0)
      some (lab, List.insertionSort byScoreDesc pairs0)) = _
  rw [if_neg hidx]

/-- C8 counterexample: `build_lexicons` in
`src/ml/tfidf_Lexicon_Classifier.py` has no minimum-count filter — a
category with exactly 4 member documents (here `cat`, with a one-term
vocabulary and all TF-IDF entries 1) appears in its built lexicon,
contradicting "a category with 4 member documents never appears". -/
theorem C8_counterexample :
    pystr "cat" ∈ (build_lexicons [[(1 : ℚ)], [1], [1], [1]]
        [pystr "cat", pystr "cat", pystr "cat", pystr "cat"]
        [pystr "t"] 500).map Prod.fst ∧
    [pystr "cat", pystr "cat", pystr "cat", pystr "cat"].count (pystr "cat") = 4 := by
  exact ⟨build_lexicons_mem_keys _ _ _ (by decide), by decide⟩

/-- C8 (amended): the two lexicon builders differ.  In
`classify/reuters_build_lexicon.build_lexicon` a category appears only if
it has at least 5 member documents — one with 4 never appears — and a
category with exactly 5 member documents whose centroid has non-negative
entries (TF-IDF values) and is not all-zero does appear whenever
`top_k ≥ 1`.  In `ml/tfidf_Lexicon_Classifier.build_lexicons` there is no
such threshold: every label occurring in `y` appears. -/
theorem C8_amended (x : List (List ℚ)) (labels : List (List PyStr))
    (vocab : List PyStr) (top_k : Nat) (c : PyStr)
    (y : List PyStr) (xm : List (List ℚ)) (vm : List PyStr) (topkm : Nat) :
    (c ∈ (build_lexicon x labels vocab top_k).map Prod.fst →
      5 ≤ (docsOf labels c).length) ∧
    ((docsOf labels c).length = 4 →
      c ∉ (build_lexicon x labels vocab top_k).map Prod.fst) ∧
    ((docsOf labels c).length = 5 →
      (∀ q ∈ centroidOf x vocab.length (docsOf labels c), 0 ≤ q) →
      centroidOf x vocab.length (docsOf labels c) ≠
        List.replicate vocab.length 0 →
      1 ≤ top_k →
      c ∈ (build_lexicon x labels vocab top_k).map Prod.fst) ∧
    (∀ lab ∈ y, lab ∈ (build_lexicons xm y vm topkm).map Prod.fst) := by
  have key : ∀ cc : PyStr, cc ∈ (build_lexicon x labels vocab top_k).map Prod.fst →
      5 ≤ (docsOf labels cc).length := by
    intro cc hmem
    rw [build_lexicon] at hmem
    obtain ⟨pr, hpr, hfst⟩ := List.mem_map.mp hmem
    obtain ⟨c0, _, hf⟩ := List.mem_filterMap.mp hpr
    dsimp only at hf
    split at hf
    · cases hf
    · split at hf
      · cases hf
      · split at hf
        · cases hf
        · cases hf
          simp only [← hfst]
          omega
  refine ⟨key c, ?_, ?_, ?_⟩
  · intro h4 hmem
    have := key c hmem
    omega
  · intro h5 hnn hnz htk
    set cen := centroidOf x vocab.length (docsOf labels c) with hcen
    have hlen : cen.length = vocab.length := by
      rw [hcen, centroidOf, List.length_map, List.length_range]
    have hsum : 0 < cen.sum :=
      sum_pos_of_nonneg_ne_zero hnn (by rw [hlen]; exact hnz)
    -- some centroid entry is strictly positive
    have hex : ∃ j, j < cen.length ∧ 0 < cen.getD j 0 := by
      by_contra hno
      push_neg at hno
      have : cen.sum ≤ 0 := by
        apply sum_nonpos_of_forall
        intro q hq
        obtain ⟨j, hj, hget⟩ := List.mem_iff_getElem.mp hq
        have := hno j hj
        rw [List.getD_eq_getElem _ _ hj] at this
        rw [← hget]
        exact this
      linarith
    obtain ⟨j, hj, hjpos⟩ := hex
    -- the head of argsortDesc attains the maximum
    have hperma := List.perm_insertionSort (byValDesc cen) (List.range cen.length)
    have hsorta := List.sorted_insertionSort (byValDesc cen) (List.range cen.length)
    have hanil : argsortDesc cen ≠ [] := by
      rw [argsortDesc]
      intro hn
      have := hperma.length_eq
      rw [hn] at this
      simp at this
      omega
    rcases hh : argsortDesc cen with _ | ⟨h0, tl⟩
    · exact absurd hh hanil
    · have hh0max : 0 < cen.getD h0 0 := by
        have hjmem : j ∈ argsortDesc cen := by
          rw [argsortDesc]
          exact hperma.mem_iff.mpr (List.mem_range.mpr hj)
        rw [hh] at hjmem
        rcases List.mem_cons.mp hjmem with rfl | hjtl
        · exact hjpos
        · have hsorta2 : List.Sorted (byValDesc cen) (h0 :: tl) := by
            rw [argsortDesc] at hh
            exact hh ▸ hsorta
          have hrel := (List.sorted_cons.mp hsorta2).1 j hjtl
          rcases hrel with hlt | ⟨heq, _⟩
          · linarith
          · rw [heq]; exact hjpos
      -- h0 survives the take and the positivity filter
      have hh0take : h0 ∈ (argsortDesc cen).take top_k := by
        rw [hh]
        rcases top_k with _ | k
        · omega
        · simp [List.take_succ_cons]
      have hterm : (vocab.getD h0 [], cen.getD h0 0) ∈
          (((argsortDesc cen).take top_k).filter fun i => 0 < cen.getD i 0).map
            fun i => (vocab.getD i [], cen.getD i 0) :=
        List.mem_map.mpr ⟨h0, List.mem_filter.mpr ⟨hh0take, by
          simp only [decide_eq_true_eq]
          exact hh0max⟩, rfl⟩
      -- c is one of the category keys
      have hcats : c ∈ lexCats labels := by
        have hdocs : docsOf labels c ≠ [] := by
          intro hnil
          rw [hnil] at h5
          simp at h5
        rw [docsOf] at hdocs
        have hfil : ((labelPairs labels).filter fun p => p.1 = c) ≠ [] := by
          intro hnil
          rw [hnil] at hdocs
          exact hdocs rfl
        obtain ⟨p, hp⟩ := List.exists_mem_of_ne_nil _ hfil
        have hp2 := List.mem_filter.mp hp
        rw [lexCats, mem_dedupFirst]
        refine List.mem_map.mpr ⟨p, hp2.1, ?_⟩
        simpa using hp2.2
      -- assemble the surviving lexicon entry
      rw [build_lexicon]
      refine List.mem_map.mpr ⟨(c,
        (((argsortDesc cen).take top_k).filter fun i => 0 < cen.getD i 0).map
          fun i => (vocab.getD i [], cen.getD i 0)),
        List.mem_filterMap.mpr ⟨c, hcats, ?_⟩, rfl⟩
      show (if (docsOf labels c).length < 5 then none
        else
          let centroid := centroidOf x vocab.length (docsOf labels c)
          if centroid.sum = 0 then none
          else
            let top := (argsortDesc centroid).take top_k
            let terms := (top.filter fun i => 0 < centroid.getD i 0).map
              fun i => (vocab.getD i [], centroid.getD i 0)
            if terms = [] then none else some (c, terms)) = _
      rw [if_neg (by omega)]
      simp only [← hcen]
      rw [if_neg (by intro hz; rw [hz] at hsum; exact lt_irrefl _ hsum)]
      rw [if_neg (List.ne_nil_of_mem hterm)]
  · intro lab hlab
    exact build_lexicons_mem_keys xm vm topkm hlab

/-- C8 witness: the amended theorem applied to five documents labelled
`grain` over the one-term vocabulary `wheat` (all TF-IDF entries 1,
`top_k = 200`): the category appears; and to a one-document label `m` for
the ml builder. -/
theorem C8_amended_witness :
    (docsOf [[pystr "grain"], [pystr "grain"], [pystr "grain"],
        [pystr "grain"], [pystr "grain"]] (pystr "grain")).length = 5 ∧
    pystr "m" ∈ [pystr "m"] ∧
    pystr "grain" ∈ (build_lexicon [[(1 : ℚ)], [1], [1], [1], [1]]
      [[pystr "grain"], [pystr "grain"], [pystr "grain"], [pystr "grain"],
        [pystr "grain"]] [pystr "wheat"] 200).map Prod.fst ∧
    pystr "m" ∈ (build_lexicons [[(1 : ℚ)]] [pystr "m"] [pystr "t"] 1).map Prod.fst := by
  have hidx : docsOf [[pystr "grain"], [pystr "grain"], [pystr "grain"],
      [pystr "grain"], [pystr "grain"]] (pystr "grain") = [0, 1, 2, 3, 4] := by
    decide
  have hc : centroidOf [[(1 : ℚ)], [1], [1], [1], [1]] 1
      (docsOf [[pystr "grain"], [pystr "grain"], [pystr "grain"],
        [pystr "grain"], [pystr "grain"]] (pystr "grain")) = [1] := by
    rw [hidx]
    show [colMean [[(1 : ℚ)], [1], [1], [1], [1]] [0, 1, 2, 3, 4] 0] = [1]
    rw [colMean]
    norm_num [List.getD]
  have h5 : (docsOf [[pystr "grain"], [pystr "grain"], [pystr "grain"],
      [pystr "grain"], [pystr "grain"]] (pystr "grain")).length = 5 := by
    rw [hidx]; rfl
  refine ⟨h5, List.mem_cons_self _ _, ?_, ?_⟩
  · refine (C8_amended [[(1 : ℚ)], [1], [1], [1], [1]]
      [[pystr "grain"], [pystr "grain"], [pystr "grain"], [pystr "grain"],
        [pystr "grain"]] [pystr "wheat"] 200 (pystr "grain")
      [] [] [] 0).2.2.1 h5 ?_ ?_ (by norm_num)
    · rw [show [pystr "wheat"].length = 1 from rfl, hc]
      intro q hq
      rcases List.mem_singleton.mp hq with rfl
      norm_num
    · rw [show [pystr "wheat"].length = 1 from rfl, hc]
      simp
  · exact ((C8_amended [] [] [] 0 (pystr "")
      [pystr "m"] [[(1 : ℚ)]] [pystr "t"] 1).2.2.2) (pystr "m")
        (List.mem_cons_self _ _)

/-! ## Claim C10: per-domain budget (`src/crawler/queue.py`) -/

theorem cqPush_ok {u : PyStr} {d : Nat} {s t : PyStr} {q q1 : CrawlQueue}
    (hp : cqPush u d s t q = .ok q1) :
    q1.domain_counts = q.domain_counts ∧
    (q1.db = q.db ∨ q1.db = dbPush u d s t q.db) := by
  rw [cqPush] at hp
  rcases hd : cqDomainE u with e | dom
  · rw [hd] at hp
    have hp' : (Except.error e : Except PyStr CrawlQueue) = .ok q1 := hp
    cases hp'
  · rw [hd] at hp
    have hp' : (if MAX_PAGES_PER_DOMAIN ≤ q.domain_counts dom then pure q
        else pure { q with db := dbPush u d s t q.db } : Except PyStr CrawlQueue)
        = .ok q1 := hp
    by_cases hm : MAX_PAGES_PER_DOMAIN ≤ q.domain_counts dom
    · rw [if_pos hm] at hp'
      have : q = q1 := Except.ok.inj hp'
      subst this
      exact ⟨rfl, Or.inl rfl⟩
    · rw [if_neg hm] at hp'
      have : ({ q with db := dbPush u d s t q.db } : CrawlQueue) = q1 :=
        Except.ok.inj hp'
      subst this
      exact ⟨rfl, Or.inr rfl⟩

theorem cqPop_ok {q : CrawlQueue} {o : Option QRow} {q1 : CrawlQueue}
    (hp : cqPop q = .ok (o, q1)) :
    (o = none ∧ q1 = q) ∨
    (∃ r dom, o = some r ∧ cqDomainE r.url = .ok dom ∧
      q1.domain_counts = (fun n =>
        if n = dom then q.domain_counts dom + 1 else q.domain_counts n)) := by
  rw [cqPop] at hp
  rcases hdb : dbPop q.db with ⟨ro, db'⟩
  rw [hdb] at hp
  rcases ro with _ | r
  · left
    have hp' : (Except.ok (none, q) : Except PyStr (Option QRow × CrawlQueue))
        = .ok (o, q1) := hp
    have := Except.ok.inj hp'
    exact ⟨(congrArg Prod.fst this).symm, (congrArg Prod.snd this).symm⟩
  · have hp2 : (cqDomainE r.url >>= fun dm2 => pure (some r, (⟨db', fun n =>
        if n = dm2 then q.domain_counts dm2 + 1 else q.domain_counts n⟩ : CrawlQueue)))
        = .ok (o, q1) := hp
    rcases hd : cqDomainE r.url with e | dom
    · rw [hd] at hp2
      have hp' : (Except.error e : Except PyStr (Option QRow × CrawlQueue))
          = .ok (o, q1) := hp2
      cases hp'
    · rw [hd] at hp2
      have hp' : (Except.ok (some r, (⟨db', fun n =>
          if n = dom then q.domain_counts dom + 1 else q.domain_counts n⟩ : CrawlQueue))
          : Except PyStr (Option QRow × CrawlQueue)) = .ok (o, q1) := hp2
      have hpair := Except.ok.inj hp'
      have h1 : (some r : Option QRow) = o := congrArg Prod.fst hpair
      have h2 : (⟨db', fun n =>
          if n = dom then q.domain_counts dom + 1 else q.domain_counts n⟩ : CrawlQueue)
          = q1 := congrArg Prod.snd hpair
      right
      exact ⟨r, dom, h1.symm, hd, by rw [← h2]⟩

theorem countDom_append (out : List QRow) (r : QRow) (dm : PyStr) :
    countDom (out ++ [r]) dm = countDom out dm +
      (match cqDomainE r.url with
        | .ok d' => if d' = dm then 1 else 0
        | .error _ => 0) := by
  rw [countDom, countDom, List.filter_append, List.length_append]
  congr 1
  rcases hd : cqDomainE r.url with e | d'
  · simp [hd]
  · by_cases h : d' = dm
    · simp [hd, h]
    · simp [hd, h]

theorem cqExec_counts : ∀ (ops : List CQOp) (q0 : CrawlQueue) (out0 : List QRow)
    (q : CrawlQueue) (out : List QRow),
    cqExecFrom q0 out0 ops = .ok (q, out) →
    ∀ dm, q.domain_counts dm + countDom out0 dm =
      q0.domain_counts dm + countDom out dm := by
  intro ops
  induction ops with
  | nil =>
      intro q0 out0 q out h dm
      rw [cqExecFrom] at h
      have hpair := Except.ok.inj h
      have h1 : q0 = q := congrArg Prod.fst hpair
      have h2 : out0 = out := congrArg Prod.snd hpair
      subst h1
      subst h2
      rfl
  | cons op rest ih =>
      intro q0 out0 q out h dm
      cases op with
      | seed u s t =>
          rw [cqExecFrom] at h
          have := ih _ _ _ _ h dm
          rw [this]
          rfl
      | push u d s t =>
          rw [cqExecFrom] at h
          rcases hp : cqPush u d s t q0 with e | q1
          · rw [hp] at h
            have h' : (Except.error e : Except PyStr (CrawlQueue × List QRow))
                = .ok (q, out) := h
            cases h'
          · rw [hp] at h
            have h' : cqExecFrom q1 out0 rest = .ok (q, out) := h
            have := ih _ _ _ _ h' dm
            rw [this, (cqPush_ok hp).1]
      | pop =>
          rw [cqExecFrom] at h
          rcases hp : cqPop q0 with e | ⟨o, q1⟩
          · rw [hp] at h
            have h' : (Except.error e : Except PyStr (CrawlQueue × List QRow))
                = .ok (q, out) := h
            cases h'
          · rw [hp] at h
            rcases cqPop_ok hp with ⟨rfl, rfl⟩ | ⟨r, dom, rfl, hd, hcounts⟩
            · exact ih _ _ _ _ h dm
            · have h' : cqExecFrom q1 (out0 ++ [r]) rest = .ok (q, out) := h
              have hih := ih _ _ _ _ h' dm
              simp only [hcounts] at hih
              have hcd := countDom_append out0 r dm
              simp only [hd] at hcd
              rw [hcd] at hih
              by_cases hdm : dom = dm
              · subst hdm
                rw [if_pos rfl, if_pos rfl] at hih
                omega
              · rw [if_neg hdm, if_neg (Ne.symm hdm)] at hih
                omega

/-- C10: `CrawlQueue.seed` always pushes into the store regardless of the
per-domain budget and never touches `domain_counts`; `CrawlQueue.push`
drops the URL exactly when its domain's counter has reached
`MAX_PAGES_PER_DOMAIN` (200) and never touches `domain_counts`;
`CrawlQueue.pop` increments exactly the popped URL's domain counter; and
over any trace from a fresh queue the counter of a domain equals the
number of pops that returned a URL of that domain — so `push` rejects a
domain only after at least `MAX_PAGES_PER_DOMAIN` pops of it. -/
theorem C10_budget_counted_only_by_pop :
    (∀ (u s t : PyStr) (q : CrawlQueue),
      (cqSeed u s t q).db = dbPush u 0 s t q.db ∧
      (cqSeed u s t q).domain_counts = q.domain_counts) ∧
    (∀ (u : PyStr) (d : Nat) (s t : PyStr) (q : CrawlQueue) (dom : PyStr),
      cqDomainE u = .ok dom →
      (MAX_PAGES_PER_DOMAIN ≤ q.domain_counts dom → cqPush u d s t q = .ok q) ∧
      (q.domain_counts dom < MAX_PAGES_PER_DOMAIN →
        cqPush u d s t q = .ok ⟨dbPush u d s t q.db, q.domain_counts⟩)) ∧
    (∀ (q : CrawlQueue) (r : QRow) (db' : QueueState) (dom : PyStr),
      dbPop q.db = (some r, db') → cqDomainE r.url = .ok dom →
      cqPop q = .ok (some r, ⟨db', fun n =>
        if n = dom then q.domain_counts dom + 1 else q.domain_counts n⟩)) ∧
    (∀ (ops : List CQOp) (q : CrawlQueue) (out : List QRow),
      cqExecFrom cqInit [] ops = .ok (q, out) →
      ∀ dm, q.domain_counts dm = countDom out dm) := by
  refine ⟨fun u s t q => ⟨rfl, rfl⟩, ?_, ?_, ?_⟩
  · intro u d s t q dom hd
    constructor
    · intro hm
      rw [cqPush, hd]
      show (if MAX_PAGES_PER_DOMAIN ≤ q.domain_counts dom then pure q
        else pure { q with db := dbPush u d s t q.db } : Except PyStr CrawlQueue) = _
      rw [if_pos hm]
      rfl
    · intro hm
      rw [cqPush, hd]
      show (if MAX_PAGES_PER_DOMAIN ≤ q.domain_counts dom then pure q
        else pure { q with db := dbPush u d s t q.db } : Except PyStr CrawlQueue) = _
      rw [if_neg (not_le.mpr hm)]
      rfl
  · intro q r db' dom hdb hd
    rw [cqPop, hdb]
    show (cqDomainE r.url >>= fun dm2 => pure (some r, (⟨db', fun n =>
      if n = dm2 then q.domain_counts dm2 + 1 else q.domain_counts n⟩ : CrawlQueue))) = _
    rw [hd]
    rfl
  · intro ops q out h dm
    have := cqExec_counts ops cqInit [] q out h dm
    simpa [cqInit, countDom] using this

/-- C10 witness: a concrete trace — seed, one pop, one push — on domain
`h.co`: the pop bumps the counter to 1 and equals the number of pops of
that domain. -/
theorem C10_witness :
    (cqDomainE (pystr "http://h.co/a") = .ok (pystr "h.co")) ∧
    (∀ q out, cqExecFrom cqInit []
        [CQOp.seed (pystr "http://h.co/a") (pystr "s") (pystr "news"),
         CQOp.pop,
         CQOp.push (pystr "http://h.co/b") 1 (pystr "s") (pystr "news")]
        = .ok (q, out) →
      ∀ dm, q.domain_counts dm = countDom out dm) := by
  refine ⟨by rfl, ?_⟩
  intro q out h dm
  exact (C10_budget_counted_only_by_pop.2.2.2) _ q out h dm

/-! ## Claims C3 and C4: the frontier store (`src/storage/state.py`) -/

theorem minIdRow_eq_foldl (rows : List QRow) :
    minIdRow rows = rows.foldl minStep none := rfl

theorem minStep_none_eq (r : QRow) : minStep none r = some r := rfl

theorem minStep_some_eq (m r : QRow) :
    minStep (some m) r = if r.id < m.id then some r else some m := rfl

theorem minStep_fold_spec :
    ∀ (rows : List QRow) (acc : Option QRow) (r : QRow),
    rows.foldl minStep acc = some r →
    (r ∈ rows ∨ acc = some r) ∧
    (∀ r2 ∈ rows, r.id ≤ r2.id) ∧
    (∀ m, acc = some m → r.id ≤ m.id) := by
  intro rows
  induction rows with
  | nil =>
      intro acc r h
      rw [List.foldl_nil] at h
      refine ⟨Or.inr h, by simp, ?_⟩
      intro m hm
      rw [hm] at h
      cases Option.some.inj h
      exact Nat.le_refl _
  | cons x xs ih =>
      intro acc r h
      rw [List.foldl_cons] at h
      obtain ⟨hmem, hbound, hacc⟩ := ih (minStep acc x) r h
      cases acc with
      | none =>
          have hax : r.id ≤ x.id := hacc x (minStep_none_eq x)
          refine ⟨?_, ?_, ?_⟩
          · rcases hmem with hm | hm
            · exact Or.inl (List.mem_cons_of_mem _ hm)
            · rw [minStep_none_eq] at hm
              exact Or.inl ((Option.some.inj hm) ▸ List.mem_cons_self x xs)
          · intro r2 hr2
            rcases List.mem_cons.mp hr2 with rfl | hr2
            · exact hax
            · exact hbound r2 hr2
          · intro m hm
            exact Option.noConfusion hm
      | some m0 =>
          by_cases hx : x.id < m0.id
          · have hstep : minStep (some m0) x = some x := by
              rw [minStep_some_eq, if_pos hx]
            have hax : r.id ≤ x.id := hacc x hstep
            refine ⟨?_, ?_, ?_⟩
            · rcases hmem with hm | hm
              · exact Or.inl (List.mem_cons_of_mem _ hm)
              · rw [hstep] at hm
                exact Or.inl ((Option.some.inj hm) ▸ List.mem_cons_self x xs)
            · intro r2 hr2
              rcases List.mem_cons.mp hr2 with rfl | hr2
              · exact hax
              · exact hbound r2 hr2
            · intro m hm
              have hm0 : m0 = m := Option.some.inj hm
              subst hm0
              exact Nat.le_trans hax (Nat.le_of_lt hx)
          · have hstep : minStep (some m0) x = some m0 := by
              rw [minStep_some_eq, if_neg hx]
            have ham : r.id ≤ m0.id := hacc m0 hstep
            refine ⟨?_, ?_, ?_⟩
            · rcases hmem with hm | hm
              · exact Or.inl (List.mem_cons_of_mem _ hm)
              · rw [hstep] at hm
                exact Or.inr hm
            · intro r2 hr2
              rcases List.mem_cons.mp hr2 with rfl | hr2
              · exact Nat.le_trans ham (Nat.le_of_not_lt hx)
              · exact hbound r2 hr2
            · intro m hm
              have hm0 : m0 = m := Option.some.inj hm
              subst hm0
              exact ham

theorem minIdRow_spec {rows : List QRow} {r : QRow} (h : minIdRow rows = some r) :
    r ∈ rows ∧ ∀ r2 ∈ rows, r.id ≤ r2.id := by
  obtain ⟨hmem, hbound, -⟩ :=
    minStep_fold_spec rows none r (by rw [← minIdRow_eq_foldl]; exact h)
  rcases hmem with hm | hm
  · exact ⟨hm, hbound⟩
  · exact Option.noConfusion hm

theorem minStep_fold_isSome :
    ∀ (rows : List QRow) (m : QRow),
    ∃ r, rows.foldl minStep (some m) = some r := by
  intro rows
  induction rows with
  | nil => intro m; exact ⟨m, rfl⟩
  | cons x xs ih =>
      intro m
      rw [List.foldl_cons]
      by_cases hx : x.id < m.id
      · rw [show minStep (some m) x = some x by rw [minStep_some_eq, if_pos hx]]
        exact ih x
      · rw [show minStep (some m) x = some m by rw [minStep_some_eq, if_neg hx]]
        exact ih m

theorem minIdRow_of_ne_nil {rows : List QRow} (h : rows ≠ []) :
    ∃ r, minIdRow rows = some r := by
  cases rows with
  | nil => exact absurd rfl h
  | cons x xs =>
      rw [minIdRow_eq_foldl, List.foldl_cons, minStep_none_eq]
      exact minStep_fold_isSome xs x

theorem dbPop_empty (st : QueueState) (h : st.rows = []) : dbPop st = (none, st) := by
  rw [dbPop, h]
  rfl

theorem dbPop_none_spec {st st' : QueueState} (h : dbPop st = (none, st')) :
    st' = st ∧ minIdRow st.rows = none := by
  rw [dbPop] at h
  rcases hm : minIdRow st.rows with _ | r0
  · rw [hm] at h
    have h' : ((none, st) : Option QRow × QueueState) = (none, st') := h
    have h2 : st = st' := congrArg Prod.snd h'
    exact ⟨h2.symm, rfl⟩
  · rw [hm] at h
    have h' : ((some r0, ⟨st.nextId, st.rows.filter fun r2 => r2.id ≠ r0.id⟩) :
        Option QRow × QueueState) = (none, st') := h
    have h1 : (some r0 : Option QRow) = none := congrArg Prod.fst h'
    exact Option.noConfusion h1

theorem dbPop_some_spec {st : QueueState} {r : QRow} {st' : QueueState}
    (h : dbPop st = (some r, st')) :
    minIdRow st.rows = some r ∧
    st' = ⟨st.nextId, st.rows.filter fun r2 => r2.id ≠ r.id⟩ := by
  rw [dbPop] at h
  rcases hm : minIdRow st.rows with _ | r0
  · rw [hm] at h
    have h' : ((none, st) : Option QRow × QueueState) = (some r, st') := h
    have h1 : (none : Option QRow) = some r := congrArg Prod.fst h'
    exact Option.noConfusion h1
  · rw [hm] at h
    have h' : ((some r0, ⟨st.nextId, st.rows.filter fun r2 => r2.id ≠ r0.id⟩) :
        Option QRow × QueueState) = (some r, st') := h
    have h1 : (some r0 : Option QRow) = some r := congrArg Prod.fst h'
    have h2 : (⟨st.nextId, st.rows.filter fun r2 => r2.id ≠ r0.id⟩ : QueueState)
        = st' := congrArg Prod.snd h'
    have hr : r0 = r := Option.some.inj h1
    subst hr
    exact ⟨rfl, h2.symm⟩

theorem qStep_push_eq (st : QueueState) (out : List QRow) (u : PyStr) (d : Nat)
    (s t : PyStr) :
    qStep (st, out) (QOp.push u d s t) = (dbPush u d s t st, out) := rfl

theorem qStep_pop_none {st st' : QueueState} (out : List QRow)
    (h : dbPop st = (none, st')) : qStep (st, out) QOp.pop = (st', out) := by
  have h0 : qStep (st, out) QOp.pop = match dbPop st with
    | (none, st2) => (st2, out)
    | (some r2, st2) => (st2, out ++ [r2]) := rfl
  rw [h0, h]

theorem qStep_pop_some {st st' : QueueState} {r : QRow} (out : List QRow)
    (h : dbPop st = (some r, st')) : qStep (st, out) QOp.pop = (st', out ++ [r]) := by
  have h0 : qStep (st, out) QOp.pop = match dbPop st with
    | (none, st2) => (st2, out)
    | (some r2, st2) => (st2, out ++ [r2]) := rfl
  rw [h0, h]

theorem filter_length_lt_of_mem {l : List QRow} {a : QRow} {p : QRow → Bool}
    (ha : a ∈ l) (hpa : p a = false) : (l.filter p).length < l.length := by
  induction l with
  | nil => cases ha
  | cons x xs ih =>
      rw [List.filter_cons]
      rcases List.mem_cons.mp ha with rfl | ha2
      · rw [hpa]
        simp only [Bool.false_eq_true, if_false, List.length_cons]
        exact Nat.lt_succ_of_le (List.length_filter_le _ _)
      · by_cases hp : p x = true
        · rw [if_pos hp]
          have := ih ha2
          simp only [List.length_cons]
          omega
        · rw [if_neg hp]
          have := ih ha2
          simp only [List.length_cons]
          omega

theorem countUrl_dbPop_le (st : QueueState) (u : PyStr) :
    countUrl (dbPop st).2 u ≤ countUrl st u := by
  rcases hdb : dbPop st with ⟨o, st'⟩
  cases o with
  | none =>
      obtain ⟨hst, -⟩ := dbPop_none_spec hdb
      subst hst
      exact Nat.le_refl _
  | some r =>
      obtain ⟨-, hst⟩ := dbPop_some_spec hdb
      subst hst
      show ((st.rows.filter fun r2 => r2.id ≠ r.id).filter
        fun r2 => r2.url = u).length ≤ (st.rows.filter fun r2 => r2.url = u).length
      exact (((List.filter_sublist st.rows).filter _)).length_le

theorem countUrl_dbPop_some_lt {st : QueueState} {r : QRow} {st' : QueueState}
    {u : PyStr} (h : dbPop st = (some r, st')) (hu : r.url = u) :
    countUrl st' u < countUrl st u := by
  obtain ⟨hmin, hst⟩ := dbPop_some_spec h
  obtain ⟨hmem, -⟩ := minIdRow_spec hmin
  subst hst
  show ((st.rows.filter fun r2 => r2.id ≠ r.id).filter
    fun r2 => r2.url = u).length < (st.rows.filter fun r2 => r2.url = u).length
  rw [List.filter_comm]
  refine filter_length_lt_of_mem (List.mem_filter.mpr ⟨hmem, ?_⟩) ?_
  · simp [hu]
  · simp

theorem countUrl_dbPush_bound (u' : PyStr) (d : Nat) (s t : PyStr)
    (st : QueueState) (u : PyStr) :
    countUrl (dbPush u' d s t st) u ≤ countUrl st u + (if u' = u then 1 else 0) := by
  rw [dbPush]
  by_cases hp : (st.rows.any fun r2 => r2.url = u') = true
  · rw [if_pos hp]
    exact Nat.le_add_right _ _
  · rw [if_neg hp]
    show ((st.rows ++ [(⟨st.nextId, u', d, s, t⟩ : QRow)]).filter
      fun r2 => r2.url = u).length ≤ _
    rw [List.filter_append, List.length_append]
    by_cases hu : u' = u
    · subst hu
      simp
      exact Nat.le_refl _
    · have hz : (([(⟨st.nextId, u', d, s, t⟩ : QRow)]).filter
          fun r2 => r2.url = u).length = 0 := by simp [hu]
      rw [hz, if_neg hu]
      exact Nat.le_refl _

theorem countUrl_dbPush_le (u' : PyStr) (d : Nat) (s t : PyStr)
    {st : QueueState} {u : PyStr} (h : countUrl st u ≤ 1) :
    countUrl (dbPush u' d s t st) u ≤ 1 := by
  rw [dbPush]
  by_cases hp : (st.rows.any fun r2 => r2.url = u') = true
  · rw [if_pos hp]
    exact h
  · rw [if_neg hp]
    show ((st.rows ++ [(⟨st.nextId, u', d, s, t⟩ : QRow)]).filter
      fun r2 => r2.url = u).length ≤ 1
    rw [List.filter_append, List.length_append]
    by_cases hu : u' = u
    · subst hu
      have hz : (st.rows.filter fun r2 => r2.url = u').length = 0 := by
        rw [List.length_eq_zero, List.filter_eq_nil_iff]
        intro a ha hq
        exact hp (List.any_eq_true.mpr ⟨a, ha, hq⟩)
      rw [hz]
      simp
    · have hz : (([(⟨st.nextId, u', d, s, t⟩ : QRow)]).filter
          fun r2 => r2.url = u).length = 0 := by simp [hu]
      rw [hz]
      exact h

theorem countUrl_foldl_le :
    ∀ (ops : List QOp) (st : QueueState) (out : List QRow) (u : PyStr),
    countUrl st u ≤ 1 → countUrl (ops.foldl qStep (st, out)).1 u ≤ 1 := by
  intro ops
  induction ops with
  | nil => intro st out u h; exact h
  | cons op rest ih =>
      intro st out u h
      rw [List.foldl_cons]
      cases op with
      | push u' d s t =>
          rw [qStep_push_eq]
          exact ih _ _ _ (countUrl_dbPush_le u' d s t h)
      | pop =>
          rcases hdb : dbPop st with ⟨o, st'⟩
          cases o with
          | none =>
              rw [qStep_pop_none out hdb]
              obtain ⟨hst, -⟩ := dbPop_none_spec hdb
              subst hst
              exact ih _ _ _ h
          | some r =>
              rw [qStep_pop_some out hdb]
              apply ih
              have h1 : countUrl st' u ≤ countUrl st u := by
                have h2 := countUrl_dbPop_le st u
                rw [hdb] at h2
                exact h2
              exact Nat.le_trans h1 h

theorem pushCount_cons_push (u' u : PyStr) (d : Nat) (s t : PyStr)
    (rest : List QOp) :
    pushCount (QOp.push u' d s t :: rest) u
      = (if u' = u then 1 else 0) + pushCount rest u := by
  by_cases hq : u' = u <;>
    simp [pushCount, List.filter_cons, hq, Nat.add_comm]

theorem pushCount_cons_pop (u : PyStr) (rest : List QOp) :
    pushCount (QOp.pop :: rest) u = pushCount rest u := by
  simp [pushCount, List.filter_cons]

theorem pops_pushes_fold :
    ∀ (ops : List QOp) (st : QueueState) (out : List QRow) (u : PyStr),
    ((ops.foldl qStep (st, out)).2.filter fun r2 => r2.url = u).length
      + countUrl (ops.foldl qStep (st, out)).1 u
    ≤ (out.filter fun r2 => r2.url = u).length + countUrl st u + pushCount ops u := by
  intro ops
  induction ops with
  | nil =>
      intro st out u
      exact Nat.le_add_right _ _
  | cons op rest ih =>
      intro st out u
      rw [List.foldl_cons]
      cases op with
      | push u' d s t =>
          rw [qStep_push_eq]
          have hih := ih (dbPush u' d s t st) out u
          have hpush := countUrl_dbPush_bound u' d s t st u
          have hpc := pushCount_cons_push u' u d s t rest
          omega
      | pop =>
          rcases hdb : dbPop st with ⟨o, st'⟩
          cases o with
          | none =>
              rw [qStep_pop_none out hdb]
              obtain ⟨hst, -⟩ := dbPop_none_spec hdb
              rw [hst]
              have hih := ih st out u
              have hpc := pushCount_cons_pop u rest
              omega
          | some r =>
              rw [qStep_pop_some out hdb]
              have hih := ih st' (out ++ [r]) u
              have hout : ((out ++ [r]).filter fun r2 => r2.url = u).length
                  = (out.filter fun r2 => r2.url = u).length
                    + (if r.url = u then 1 else 0) := by
                rw [List.filter_append, List.length_append]
                by_cases hr : r.url = u <;> simp [hr]
              have hpc := pushCount_cons_pop u rest
              by_cases hr : r.url = u
              · have hlt : countUrl st' u < countUrl st u :=
                  countUrl_dbPop_some_lt hdb hr
                rw [hout, if_pos hr] at hih
                omega
              · have hle : countUrl st' u ≤ countUrl st u := by
                  have h2 := countUrl_dbPop_le st u
                  rw [hdb] at h2
                  exact h2
                rw [hout, if_neg hr] at hih
                omega

/-- C3 counterexample: the trace push `u`, pop, push `u`, pop — an
interleaving of two pushes of the same URL with pops — dequeues `u` twice,
refuting "no URL is ever dequeued twice" for arbitrary interleavings: the
UNIQUE constraint stops coexisting duplicates but not re-enqueue after a
pop removed the row. -/
theorem C3_counterexample :
    pushCount
      [QOp.push (pystr "u") 0 (pystr "s") (pystr "t"), QOp.pop,
       QOp.push (pystr "u") 0 (pystr "s") (pystr "t"), QOp.pop] (pystr "u") = 2 ∧
    popCount
      [QOp.push (pystr "u") 0 (pystr "s") (pystr "t"), QOp.pop,
       QOp.push (pystr "u") 0 (pystr "s") (pystr "t"), QOp.pop] (pystr "u") = 2 := by
  constructor
  · decide
  · decide

/-- C3 amended: `StateDB.push` of a URL already present in the store is a
no-op (insert-or-ignore), at any point of any trace at most one
dequeue-able row carries a given URL, and a URL is dequeued at most as
many times as it was pushed — but a URL re-pushed after being popped can
be dequeued again, so "exactly one dequeue-able item / never dequeued
twice" holds only for the span while the first copy is still enqueued. -/
theorem C3_amended :
    (∀ (u : PyStr) (d : Nat) (s t : PyStr) (st : QueueState),
      (st.rows.any fun r2 => r2.url = u) = true → dbPush u d s t st = st) ∧
    (∀ (ops : List QOp) (u : PyStr), countUrl (qExec ops).1 u ≤ 1) ∧
    (∀ (ops : List QOp) (u : PyStr), popCount ops u ≤ pushCount ops u) := by
  refine ⟨?_, ?_, ?_⟩
  · intro u d s t st h
    rw [dbPush, if_pos h]
  · intro ops u
    have h0 : countUrl qInit u ≤ 1 := by
      show (([] : List QRow).filter fun r2 => r2.url = u).length ≤ 1
      simp
    exact countUrl_foldl_le ops qInit [] u h0
  · intro ops u
    have h := pops_pushes_fold ops qInit [] u
    have h3 : popCount ops u + countUrl (qExec ops).1 u
        ≤ 0 + 0 + pushCount ops u := h
    omega

/-- C3 amended witness: a second push of `u` onto a store already holding
`u` is the identity; a double-push trace leaves one dequeue-able copy; and
a push-pop trace pops `u` at most as often as it pushed it. -/
theorem C3_amended_witness :
    ((⟨2, [⟨1, pystr "u", 0, pystr "s", pystr "t"⟩]⟩ : QueueState).rows.any
        fun r2 => r2.url = pystr "u") = true ∧
    dbPush (pystr "u") 1 (pystr "s") (pystr "t")
        ⟨2, [⟨1, pystr "u", 0, pystr "s", pystr "t"⟩]⟩
      = ⟨2, [⟨1, pystr "u", 0, pystr "s", pystr "t"⟩]⟩ ∧
    countUrl (qExec [QOp.push (pystr "u") 0 (pystr "s") (pystr "t"),
        QOp.push (pystr "u") 0 (pystr "s") (pystr "t")]).1 (pystr "u") ≤ 1 ∧
    popCount [QOp.push (pystr "u") 0 (pystr "s") (pystr "t"), QOp.pop] (pystr "u")
      ≤ pushCount [QOp.push (pystr "u") 0 (pystr "s") (pystr "t"), QOp.pop]
          (pystr "u") :=
  ⟨by decide,
   C3_amended.1 (pystr "u") 1 (pystr "s") (pystr "t") _ (by decide),
   C3_amended.2.1 _ _,
   C3_amended.2.2 _ _⟩

theorem map_id_filter (rows : List QRow) (k : Nat) :
    (rows.filter fun r2 => r2.id ≠ k).map QRow.id
      = (rows.map QRow.id).filter fun i => i ≠ k := by
  induction rows with
  | nil => rfl
  | cons x xs ih =>
      rw [List.map_cons, List.filter_cons, List.filter_cons]
      by_cases hx : x.id = k
      · rw [if_neg (by simp [hx]), if_neg (by simp [hx])]
        exact ih
      · rw [if_pos (by simp [hx]), if_pos (by simp [hx]), List.map_cons, ih]

theorem nodup_perm_filter_ne {l : List Nat} {a : Nat}
    (hnd : l.Nodup) (ha : a ∈ l) :
    l.Perm (a :: l.filter fun i => i ≠ a) := by
  induction l with
  | nil => cases ha
  | cons x xs ih =>
      rcases List.mem_cons.mp ha with rfl | ha2
      · have hax : a ∉ xs := (List.nodup_cons.mp hnd).1
        have hself : (xs.filter fun i => i ≠ a) = xs := by
          rw [List.filter_eq_self]
          intro b hb
          simp only [ne_eq, decide_eq_true_eq]
          exact fun hba => hax (hba ▸ hb)
        rw [List.filter_cons, if_neg (by simp), hself]
      · have hx : x ∉ xs := (List.nodup_cons.mp hnd).1
        have hxa : x ≠ a := fun h2 => hx (h2 ▸ ha2)
        have hperm := ih (List.nodup_cons.mp hnd).2 ha2
        rw [List.filter_cons, if_pos (by simp [hxa])]
        exact (hperm.cons x).trans (List.Perm.swap a x _)

theorem qids_nodup_fold :
    ∀ (ops : List QOp) (st : QueueState) (out : List QRow),
    ((out ++ st.rows).map QRow.id).Nodup →
    (∀ r2 ∈ out ++ st.rows, r2.id < st.nextId) →
    (((ops.foldl qStep (st, out)).2
        ++ (ops.foldl qStep (st, out)).1.rows).map QRow.id).Nodup := by
  intro ops
  induction ops with
  | nil => intro st out h1 _; exact h1
  | cons op rest ih =>
      intro st out h1 h2
      rw [List.foldl_cons]
      cases op with
      | push u' d s t =>
          rw [qStep_push_eq]
          rw [dbPush]
          by_cases hp : (st.rows.any fun r2 => r2.url = u') = true
          · rw [if_pos hp]
            exact ih st out h1 h2
          · rw [if_neg hp]
            apply ih
            · show ((out ++ (st.rows ++ [(⟨st.nextId, u', d, s, t⟩ : QRow)])).map
                QRow.id).Nodup
              rw [← List.append_assoc, List.map_append, List.nodup_append]
              refine ⟨h1, by simp, ?_⟩
              intro a ha hb
              have hb' : a = st.nextId := by simpa using hb
              obtain ⟨r2, hr2, hid⟩ := List.mem_map.mp ha
              have hlt := h2 r2 hr2
              omega
            · intro r2 hr2
              show r2.id < st.nextId + 1
              have hr2' : r2 ∈ (out ++ st.rows)
                  ++ [(⟨st.nextId, u', d, s, t⟩ : QRow)] := by
                have hmem : r2 ∈ out
                    ++ (st.rows ++ [(⟨st.nextId, u', d, s, t⟩ : QRow)]) := hr2
                rw [← List.append_assoc] at hmem
                exact hmem
              rcases List.mem_append.mp hr2' with hmem | hmem
              · exact Nat.lt_succ_of_lt (h2 r2 hmem)
              · rw [List.mem_singleton.mp hmem]
                exact Nat.lt_succ_self _
      | pop =>
          rcases hdb : dbPop st with ⟨o, st'⟩
          cases o with
          | none =>
              rw [qStep_pop_none out hdb]
              obtain ⟨hst, -⟩ := dbPop_none_spec hdb
              subst hst
              exact ih _ _ h1 h2
          | some r =>
              rw [qStep_pop_some out hdb]
              obtain ⟨hmin, hstruct⟩ := dbPop_some_spec hdb
              obtain ⟨hmem, -⟩ := minIdRow_spec hmin
              subst hstruct
              apply ih
              · show (((out ++ [r])
                  ++ st.rows.filter fun r2 => r2.id ≠ r.id).map QRow.id).Nodup
                have hN : ((out ++ [r])
                    ++ st.rows.filter fun r2 => r2.id ≠ r.id).map QRow.id
                    = (out.map QRow.id ++ [r.id])
                      ++ (st.rows.map QRow.id).filter (fun i => i ≠ r.id) := by
                  rw [List.map_append, List.map_append, map_id_filter,
                    List.map_singleton]
                rw [hN]
                have hmemId : r.id ∈ st.rows.map QRow.id :=
                  List.mem_map.mpr ⟨r, hmem, rfl⟩
                have hnd : (st.rows.map QRow.id).Nodup := by
                  rw [List.map_append] at h1
                  exact h1.of_append_right
                have hperm1 : (st.rows.map QRow.id).Perm
                    (r.id :: (st.rows.map QRow.id).filter fun i => i ≠ r.id) :=
                  nodup_perm_filter_ne hnd hmemId
                have hmid : (out.map QRow.id ++ [r.id])
                    ++ (st.rows.map QRow.id).filter (fun i => i ≠ r.id)
                    = out.map QRow.id
                      ++ (r.id :: (st.rows.map QRow.id).filter fun i => i ≠ r.id) := by
                  rw [List.append_assoc]
                  rfl
                have hperm0 : ((out ++ st.rows).map QRow.id).Perm
                    ((out.map QRow.id ++ [r.id])
                      ++ (st.rows.map QRow.id).filter fun i => i ≠ r.id) := by
                  rw [List.map_append, hmid]
                  exact List.Perm.append_left _ hperm1
                exact hperm0.nodup h1
              · intro r2 hr2
                show r2.id < st.nextId
                rcases List.mem_append.mp hr2 with hmem2 | hmem2
                · rcases List.mem_append.mp hmem2 with h3 | h3
                  · exact h2 r2 (List.mem_append.mpr (Or.inl h3))
                  · rw [List.mem_singleton.mp h3]
                    exact h2 r (List.mem_append.mpr (Or.inr hmem))
                · have h3 : r2 ∈ st.rows := List.mem_of_mem_filter hmem2
                  exact h2 r2 (List.mem_append.mpr (Or.inr h3))

/-- C4: `StateDB.pop` on an empty store returns `None`; on a non-empty
store it returns some row — the one with the smallest insertion id
(oldest first, since `AUTOINCREMENT` ids grow monotonically) — and the new
store is exactly the old one with that id deleted (`DELETE … WHERE id = ?`);
across any single-process trace the popped rows have pairwise-distinct ids,
so each enqueued item is delivered at most once. -/
theorem C4_pop_oldest_exact_once :
    (∀ st : QueueState, st.rows = [] → dbPop st = (none, st)) ∧
    (∀ (st : QueueState) (r : QRow) (st' : QueueState),
      dbPop st = (some r, st') →
      r ∈ st.rows ∧ (∀ r2 ∈ st.rows, r.id ≤ r2.id) ∧
      st'.nextId = st.nextId ∧
      st'.rows = st.rows.filter fun r2 => r2.id ≠ r.id) ∧
    (∀ st : QueueState, st.rows ≠ [] → ∃ r st', dbPop st = (some r, st')) ∧
    (∀ ops : List QOp, (((qExec ops).2).map QRow.id).Nodup) := by
  refine ⟨dbPop_empty, ?_, ?_, ?_⟩
  · intro st r st' h
    obtain ⟨hmin, hstruct⟩ := dbPop_some_spec h
    obtain ⟨hmem, hbound⟩ := minIdRow_spec hmin
    subst hstruct
    exact ⟨hmem, hbound, rfl, rfl⟩
  · intro st h
    obtain ⟨r, hr⟩ := minIdRow_of_ne_nil h
    refine ⟨r, ⟨st.nextId, st.rows.filter fun r2 => r2.id ≠ r.id⟩, ?_⟩
    rw [dbPop, hr]
  · intro ops
    have h := qids_nodup_fold ops qInit [] (by simp [qInit]) (by simp [qInit])
    rw [List.map_append] at h
    exact h.of_append_left

/-- C4 witness: pop of an empty store is `None`; on a two-row store pop
returns the row with id 3 (the minimum) and deletes exactly it; the
re-push trace's popped ids are pairwise distinct. -/
theorem C4_witness :
    dbPop ⟨7, []⟩ = (none, (⟨7, []⟩ : QueueState)) ∧
    ((⟨3, pystr "b", 0, pystr "s", pystr "t"⟩ : QRow)
        ∈ (⟨6, [⟨3, pystr "b", 0, pystr "s", pystr "t"⟩,
                ⟨5, pystr "c", 0, pystr "s", pystr "t"⟩]⟩ : QueueState).rows ∧
      (∀ r2 ∈ (⟨6, [⟨3, pystr "b", 0, pystr "s", pystr "t"⟩,
                ⟨5, pystr "c", 0, pystr "s", pystr "t"⟩]⟩ : QueueState).rows,
        (⟨3, pystr "b", 0, pystr "s", pystr "t"⟩ : QRow).id ≤ r2.id) ∧
      (⟨6, [⟨5, pystr "c", 0, pystr "s", pystr "t"⟩]⟩ : QueueState).nextId
        = (⟨6, [⟨3, pystr "b", 0, pystr "s", pystr "t"⟩,
                ⟨5, pystr "c", 0, pystr "s", pystr "t"⟩]⟩ : QueueState).nextId ∧
      (⟨6, [⟨5, pystr "c", 0, pystr "s", pystr "t"⟩]⟩ : QueueState).rows
        = (⟨6, [⟨3, pystr "b", 0, pystr "s", pystr "t"⟩,
                ⟨5, pystr "c", 0, pystr "s", pystr "t"⟩]⟩ : QueueState).rows.filter
            fun r2 => r2.id ≠ (⟨3, pystr "b", 0, pystr "s", pystr "t"⟩ : QRow).id) ∧
    (((qExec [QOp.push (pystr "a") 0 (pystr "s") (pystr "t"), QOp.pop,
        QOp.push (pystr "a") 0 (pystr "s") (pystr "t"), QOp.pop]).2).map
      QRow.id).Nodup :=
  ⟨C4_pop_oldest_exact_once.1 _ rfl,
   C4_pop_oldest_exact_once.2.1 _ _ _ (by decide),
   C4_pop_oldest_exact_once.2.2.2 _⟩

/-! ## Claim C1: the robots authority (`src/crawler/robots.py`) -/

theorem exceptBind_ok {α β : Type} (a : α) (f : α → Except PyStr β) :
    (Except.ok a >>= f) = f a := rfl

theorem exceptBind_err {α β : Type} (e : PyStr) (f : α → Except PyStr β) :
    ((Except.error e : Except PyStr α) >>= f) = Except.error e := rfl

theorem addEntry_last (st : RobotFileParser) (e : Entry) :
    (addEntry st e).last_checked = st.last_checked := by
  rw [addEntry]
  by_cases h1 : pystr "*" ∈ e.useragents
  · rw [if_pos h1]
    by_cases h2 : st.default_entry = none
    · rw [if_pos h2]
    · rw [if_neg h2]
  · rw [if_neg h1]

theorem addEntry_disallow (st : RobotFileParser) (e : Entry) :
    (addEntry st e).disallow_all = st.disallow_all := by
  rw [addEntry]
  by_cases h1 : pystr "*" ∈ e.useragents
  · rw [if_pos h1]
    by_cases h2 : st.default_entry = none
    · rw [if_pos h2]
    · rw [if_neg h2]
  · rw [if_neg h1]

theorem addEntry_allow (st : RobotFileParser) (e : Entry) :
    (addEntry st e).allow_all = st.allow_all := by
  rw [addEntry]
  by_cases h1 : pystr "*" ∈ e.useragents
  · rw [if_pos h1]
    by_cases h2 : st.default_entry = none
    · rw [if_pos h2]
    · rw [if_neg h2]
  · rw [if_neg h1]

set_option maxHeartbeats 2000000 in
theorem parseLoop_last :
    ∀ (lines : List PyStr) (st : RobotFileParser) (state : Nat) (entry : Entry),
    (parseLoop st state entry lines).last_checked = st.last_checked := by
  intro lines
  induction lines with
  | nil =>
      intro st state entry
      rw [parseLoop]
      split
      · exact addEntry_last st entry
      · rfl
  | cons line rest ih =>
      intro st state entry
      rw [parseLoop]
      repeat'
        first
        | omega
        | simp [ih, addEntry_last]
        | split

set_option maxHeartbeats 2000000 in
theorem parseLoop_disallow :
    ∀ (lines : List PyStr) (st : RobotFileParser) (state : Nat) (entry : Entry),
    (parseLoop st state entry lines).disallow_all = st.disallow_all := by
  intro lines
  induction lines with
  | nil =>
      intro st state entry
      rw [parseLoop]
      split
      · exact addEntry_disallow st entry
      · rfl
  | cons line rest ih =>
      intro st state entry
      rw [parseLoop]
      repeat'
        first
        | omega
        | simp [ih, addEntry_disallow]
        | split

set_option maxHeartbeats 2000000 in
theorem parseLoop_allow :
    ∀ (lines : List PyStr) (st : RobotFileParser) (state : Nat) (entry : Entry),
    (parseLoop st state entry lines).allow_all = st.allow_all := by
  intro lines
  induction lines with
  | nil =>
      intro st state entry
      rw [parseLoop]
      split
      · exact addEntry_allow st entry
      · rfl
  | cons line rest ih =>
      intro st state entry
      rw [parseLoop]
      repeat'
        first
        | omega
        | simp [ih, addEntry_allow]
        | split

theorem allowedModel_reduce {url root : PyStr} {pr : ParseResult}
    (hroot : rootsiteE url = .ok root)
    (hpr : urlparseE (root ++ pystr "/robots.txt") = .ok pr)
    (o : FetchOutcome) (ua : PyStr) :
    allowedModel o ua url
      = match canFetchE (getParserOutcome o) ua url with
        | .ok b => .ok b
        | .error _ => .ok true := by
  rw [allowedModel, hroot, exceptBind_ok]
  show (urlparseE (root ++ pystr "/robots.txt") >>= fun _ =>
    match canFetchE (getParserOutcome o) ua url with
    | .ok b => pure b
    | .error _ => pure true) = _
  rw [hpr, exceptBind_ok]
  rfl

theorem crawlDelayModel_reduce {url root : PyStr} {pr : ParseResult}
    (hroot : rootsiteE url = .ok root)
    (hpr : urlparseE (root ++ pystr "/robots.txt") = .ok pr)
    (o : FetchOutcome) (ua : PyStr) :
    crawlDelayModel o ua url = .ok (rfpCrawlDelay (getParserOutcome o) ua) := by
  rw [crawlDelayModel, hroot, exceptBind_ok]
  show (urlparseE (root ++ pystr "/robots.txt") >>= fun _ =>
    pure (rfpCrawlDelay (getParserOutcome o) ua)) = _
  rw [hpr, exceptBind_ok]
  rfl

/-- C1 counterexample: when fetching `robots.txt` fails with a network
error, `allowed` returns `False`, not `True`: `_get_parser` swallows the
exception and hands back a parser that was never fed (`last_checked`
unset), and `RobotFileParser.can_fetch` returns `False` for such a
parser — the authority fails closed, refuting the claimed fail-open. -/
theorem C1_counterexample :
    allowedModel FetchOutcome.netError (pystr "Bot")
      (pystr "http://example.com/page") = .ok false := by
  rfl

/-- C1 amended: on a network error `allowed` is `False` (fail closed) and
`crawl_delay` is `None`; on HTTP 401/403 `allowed` is `False`; on any
other 4xx `allowed` is `True`; on a non-4xx `HTTPError` (e.g. 5xx)
`allowed` is `False`; `crawl_delay` is `None` for every `HTTPError`; and
for fetched content that yields no entries (malformed or empty robots.txt)
`allowed` is `True` — so the claimed universal fail-open holds only for
the other-4xx and unparseable-content cases. -/
theorem C1_amended (ua url root : PyStr) (pr : ParseResult)
    (hroot : rootsiteE url = .ok root)
    (hpr : urlparseE (root ++ pystr "/robots.txt") = .ok pr) :
    (allowedModel FetchOutcome.netError ua url = .ok false ∧
     crawlDelayModel FetchOutcome.netError ua url = .ok none) ∧
    (∀ code : Nat,
      (code = 401 ∨ code = 403 →
        allowedModel (FetchOutcome.httpError code) ua url = .ok false) ∧
      (¬(code = 401 ∨ code = 403) → 400 ≤ code → code < 500 →
        allowedModel (FetchOutcome.httpError code) ua url = .ok true) ∧
      (¬(400 ≤ code ∧ code < 500) →
        allowedModel (FetchOutcome.httpError code) ua url = .ok false) ∧
      crawlDelayModel (FetchOutcome.httpError code) ua url = .ok none) ∧
    (∀ lines : List PyStr,
      (rfpParse lines freshRFP).entries = [] →
      (rfpParse lines freshRFP).default_entry = none →
      allowedModel (FetchOutcome.success lines) ua url = .ok true) := by
  refine ⟨⟨?_, ?_⟩, ?_, ?_⟩
  · rw [allowedModel_reduce hroot hpr]
    rfl
  · rw [crawlDelayModel_reduce hroot hpr]
    rfl
  · intro code
    refine ⟨?_, ?_, ?_, ?_⟩
    · intro h401
      rw [allowedModel_reduce hroot hpr, getParserOutcome, readOutcome,
        if_pos h401]
      rfl
    · intro hn h4 h5
      rw [allowedModel_reduce hroot hpr, getParserOutcome, readOutcome,
        if_neg hn, if_pos ⟨h4, h5⟩]
      rfl
    · intro hno
      have hn2 : ¬(code = 401 ∨ code = 403) := by omega
      rw [allowedModel_reduce hroot hpr, getParserOutcome, readOutcome,
        if_neg hn2, if_neg hno]
      rfl
    · rw [crawlDelayModel_reduce hroot hpr, getParserOutcome, readOutcome]
      by_cases h1 : code = 401 ∨ code = 403
      · rw [if_pos h1]
        rfl
      · rw [if_neg h1]
        by_cases h2 : 400 ≤ code ∧ code < 500
        · rw [if_pos h2]
          rfl
        · rw [if_neg h2]
          rfl
  · intro lines hent hdef
    rw [allowedModel_reduce hroot hpr]
    have hgp : getParserOutcome (FetchOutcome.success lines)
        = rfpParse lines freshRFP := rfl
    rw [hgp]
    have hdis : (rfpParse lines freshRFP).disallow_all = false := by
      rw [rfpParse]
      exact parseLoop_disallow lines _ 0 emptyEntry
    have hal : (rfpParse lines freshRFP).allow_all = false := by
      rw [rfpParse]
      exact parseLoop_allow lines _ 0 emptyEntry
    have hlast : (rfpParse lines freshRFP).last_checked = true := by
      rw [rfpParse]
      exact parseLoop_last lines _ 0 emptyEntry
    rcases hq : urlparseE (pyUnquote url) with e | p
    · have hcf : canFetchE (rfpParse lines freshRFP) ua url = .error e := by
        rw [canFetchE, if_neg (by simp [hdis]), if_neg (by simp [hal]),
          if_neg (by simp [hlast]), hq, exceptBind_err]
      rw [hcf]
    · have hcf : canFetchE (rfpParse lines freshRFP) ua url = .ok true := by
        rw [canFetchE, if_neg (by simp [hdis]), if_neg (by simp [hal]),
          if_neg (by simp [hlast]), hq, exceptBind_ok]
        simp only [hent, hdef, List.find?_nil]
      rw [hcf]

/-- C1 amended witness: at `http://e.com/p` with agent `Bot`, a 404 gives
allowed, a 503 gives disallowed, the 404 crawl delay is `None`, and a
robots body with no parseable rule group gives allowed. -/
theorem C1_amended_witness :
    allowedModel (FetchOutcome.httpError 404) (pystr "Bot")
        (pystr "http://e.com/p") = .ok true ∧
    allowedModel (FetchOutcome.httpError 503) (pystr "Bot")
        (pystr "http://e.com/p") = .ok false ∧
    crawlDelayModel (FetchOutcome.httpError 404) (pystr "Bot")
        (pystr "http://e.com/p") = .ok none ∧
    allowedModel (FetchOutcome.success [pystr "garbage line"]) (pystr "Bot")
        (pystr "http://e.com/p") = .ok true :=
  ⟨((C1_amended (pystr "Bot") (pystr "http://e.com/p") (pystr "http://e.com")
      _ rfl rfl).2.1 404).2.1 (by omega) (by omega) (by omega),
   ((C1_amended (pystr "Bot") (pystr "http://e.com/p") (pystr "http://e.com")
      _ rfl rfl).2.1 503).2.2.1 (by omega),
   ((C1_amended (pystr "Bot") (pystr "http://e.com/p") (pystr "http://e.com")
      _ rfl rfl).2.1 404).2.2.2,
   (C1_amended (pystr "Bot") (pystr "http://e.com/p") (pystr "http://e.com")
      _ rfl rfl).2.2 [pystr "garbage line"] (by rfl) (by rfl)⟩

/-! ## Claim C6: canonicalization equivalence (`src/crawler/canonicalize.py`) -/

theorem canonicalize_reduce {url : PyStr} {p : ParseResult}
    (h : urlparseE url = .ok p) :
    canonicalize_url url = .ok (urlunparse (pyLower p.scheme) (pyLower p.netloc)
      (collapseSlashes (if p.path = [] then pystr "/" else p.path)) []
      (pyUrlencode (sortPairs
        ((parseQsl p.query).filter fun kv => kv.1 ∉ TRACKING_KEYS))) []) := by
  rw [canonicalize_url, h, exceptBind_ok]
  rfl

/-- C6: two URLs canonicalize identically whenever their parses agree on
scheme and netloc up to letter case and on the path, and their queries
contain the same non-tracking pairs up to order (fragment and params are
unconstrained — they are dropped); in particular the spec's concrete pair
`http://EX.com/a?utm_source=x&b=2#frag` and `http://ex.com/a?b=2`
canonicalize to the same string. -/
theorem C6_canonical_equiv :
    (∀ (u1 u2 : PyStr) (p1 p2 : ParseResult),
      urlparseE u1 = .ok p1 → urlparseE u2 = .ok p2 →
      pyLower p1.scheme = pyLower p2.scheme →
      pyLower p1.netloc = pyLower p2.netloc →
      p1.path = p2.path →
      ((parseQsl p1.query).filter fun kv => kv.1 ∉ TRACKING_KEYS).Perm
        ((parseQsl p2.query).filter fun kv => kv.1 ∉ TRACKING_KEYS) →
      canonicalize_url u1 = canonicalize_url u2) ∧
    canonicalize_url (pystr "http://EX.com/a?utm_source=x&b=2#frag")
      = canonicalize_url (pystr "http://ex.com/a?b=2") := by
  constructor
  · intro u1 u2 p1 p2 h1 h2 hsch hnet hpath hperm
    rw [canonicalize_reduce h1, canonicalize_reduce h2]
    have hsort : sortPairs ((parseQsl p1.query).filter fun kv => kv.1 ∉ TRACKING_KEYS)
        = sortPairs ((parseQsl p2.query).filter fun kv => kv.1 ∉ TRACKING_KEYS) :=
      List.eq_of_perm_of_sorted
        (((List.perm_insertionSort pairLe _).trans hperm).trans
          (List.perm_insertionSort pairLe _).symm)
        (List.sorted_insertionSort pairLe _)
        (List.sorted_insertionSort pairLe _)
    rw [hsch, hnet, hpath, hsort]
  · rfl

/-- C6 witness: a pair differing in host case, query order, a tracking
key and a fragment, fed to the equivalence — and both halves checked on
concrete URLs. -/
theorem C6_witness :
    canonicalize_url (pystr "http://A.com/p?x=1&y=2")
      = canonicalize_url (pystr "http://a.com/p?y=2&x=1&gclid=z#f") :=
  C6_canonical_equiv.1 _ _ _ _ rfl rfl rfl rfl rfl (by decide)

/-! ## Claim C5: canonicalization idempotence — character and string
helper lemmas -/

theorem toNat_ofNat_lt {n : Nat} (h : n < 0xD800) : (Char.ofNat n).toNat = n := by
  have hv : n.isValidChar := Or.inl h
  rw [Char.ofNat, dif_pos hv]
  rfl

theorem charLe_iff (a b : Char) : a ≤ b ↔ a.toNat ≤ b.toNat := Iff.rfl

theorem charEq_iff (a b : Char) : a = b ↔ a.toNat = b.toNat := by
  constructor
  · exact fun h => h ▸ rfl
  · intro h
    have := congrArg Char.ofNat h
    rwa [Char.ofNat_toNat, Char.ofNat_toNat] at this

theorem pyLowerChar_fix {c : Char} (h : ¬('A' ≤ c ∧ c ≤ 'Z')) :
    pyLowerChar c = c := by
  rw [pyLowerChar, if_neg h]

theorem pyLowerChar_toNat (c : Char) :
    (pyLowerChar c).toNat
      = if 65 ≤ c.toNat ∧ c.toNat ≤ 90 then c.toNat + 32
        else c.toNat := by
  rw [pyLowerChar]
  by_cases h : 'A' ≤ c ∧ c ≤ 'Z'
  · rw [if_pos h, if_pos ⟨h.1, h.2⟩]
    refine toNat_ofNat_lt ?_
    have h2 : c.toNat ≤ 90 := h.2
    omega
  · rw [if_neg h, if_neg (fun h2 => h ⟨h2.1, h2.2⟩)]

theorem pyLowerChar_idem (c : Char) : pyLowerChar (pyLowerChar c) = pyLowerChar c := by
  rw [charEq_iff]
  simp only [pyLowerChar_toNat]
  split_ifs <;> omega

theorem pyLower_idem (s : PyStr) : pyLower (pyLower s) = pyLower s := by
  simp only [pyLower, List.map_map]
  exact List.map_congr_left fun c _ => pyLowerChar_idem c

theorem pyLower_nil_iff (s : PyStr) : pyLower s = [] ↔ s = [] := by
  rw [pyLower, List.map_eq_nil_iff]

theorem pyLowerChar_eq_fixed {c k : Char}
    (h1 : ¬(65 ≤ k.toNat ∧ k.toNat ≤ 90))
    (h2 : ¬(97 ≤ k.toNat ∧ k.toNat ≤ 122)) :
    pyLowerChar c = k ↔ c = k := by
  rw [charEq_iff, charEq_iff, pyLowerChar_toNat]
  by_cases h : 65 ≤ c.toNat ∧ c.toNat ≤ 90
  · rw [if_pos h]
    constructor
    · intro he
      exact absurd ⟨by omega, by omega⟩ h2
    · intro he
      exact absurd ⟨by omega, by omega⟩ h1
  · rw [if_neg h]

theorem pyLower_mem_fixed {s : PyStr} {k : Char}
    (h1 : ¬(65 ≤ k.toNat ∧ k.toNat ≤ 90))
    (h2 : ¬(97 ≤ k.toNat ∧ k.toNat ≤ 122)) :
    k ∈ pyLower s ↔ k ∈ s := by
  rw [pyLower, List.mem_map]
  constructor
  · rintro ⟨c, hc, he⟩
    rwa [(pyLowerChar_eq_fixed h1 h2).mp he] at hc
  · intro hk
    exact ⟨k, hk, (pyLowerChar_eq_fixed h1 h2).mpr rfl⟩

theorem pyLower_head {s : PyStr} (d : Char) :
    (pyLower s).headD (pyLowerChar d) = pyLowerChar (s.headD d) := by
  cases s with
  | nil => rfl
  | cons x xs => rfl

/-! Collapse lemmas. -/

theorem collapse_subset {c : Char} :
    ∀ {s : PyStr} {b : Bool}, c ∈ collapseAux b s → c ∈ s := by
  intro s
  induction s with
  | nil => intro b h; cases h
  | cons x xs ih =>
      intro b h
      rw [collapseAux] at h
      by_cases hx : x = '/'
      · rw [if_pos hx] at h
        cases hb : b
        · rw [hb] at h
          simp only [Bool.false_eq_true, if_false] at h
          rcases List.mem_cons.mp h with rfl | h2
          · exact hx ▸ List.mem_cons_self _ _
          · exact List.mem_cons_of_mem _ (ih h2)
        · rw [hb] at h
          simp only [if_true] at h
          exact List.mem_cons_of_mem _ (ih h)
      · rw [if_neg hx] at h
        rcases List.mem_cons.mp h with rfl | h2
        · exact List.mem_cons_self _ _
        · exact List.mem_cons_of_mem _ (ih h2)

theorem collapse_false_cons (x : PyStr) : ∀ (c : Char),
    collapseAux false (c :: x)
      = c :: collapseAux (c = '/') x := by
  intro c
  rw [collapseAux]
  by_cases hx : c = '/'
  · rw [if_pos hx]
    simp only [Bool.false_eq_true, if_false]
    rw [hx]
    simp
  · rw [if_neg hx]
    simp [hx]

theorem collapse_ne_nil {s : PyStr} (h : s ≠ []) : collapseAux false s ≠ [] := by
  cases s with
  | nil => exact absurd rfl h
  | cons x xs =>
      rw [collapse_false_cons]
      exact List.cons_ne_nil _ _

theorem collapse_head (s : PyStr) (d : Char) :
    (collapseAux false s).headD d = s.headD d := by
  cases s with
  | nil => rfl
  | cons x xs => rw [collapse_false_cons]; rfl

theorem collapse_noslash : ∀ {s : PyStr}, '/' ∉ s → ∀ b, collapseAux b s = s := by
  intro s
  induction s with
  | nil => intro _ b; rfl
  | cons x xs ih =>
      intro h b
      simp only [List.mem_cons, not_or] at h
      rw [collapseAux, if_neg (fun hx => h.1 hx.symm), ih h.2]

theorem collapse_append : ∀ (xs ys : PyStr) (b : Bool),
    collapseAux b (xs ++ ys) = collapseAux b xs ++ collapseAux (flagEnd b xs) ys := by
  intro xs
  induction xs with
  | nil => intro ys b; rfl
  | cons x xs ih =>
      intro ys b
      rw [List.cons_append, collapseAux, collapseAux, flagEnd]
      by_cases hx : x = '/'
      · rw [if_pos hx, if_pos hx, decide_eq_true hx]
        cases b
        · simp only [Bool.false_eq_true, if_false]
          rw [List.cons_append, ih]
        · simp only [if_true]
          rw [ih]
      · rw [if_neg hx, if_neg hx, decide_eq_false hx, List.cons_append, ih]

theorem flagEnd_slash_end : ∀ (xs : PyStr) (b : Bool), flagEnd b xs = true →
    (collapseAux b xs = [] ∧ b = true) ∨
    ∃ a2, collapseAux b xs = a2 ++ ['/'] := by
  intro xs
  induction xs with
  | nil =>
      intro b h
      exact Or.inl ⟨rfl, h⟩
  | cons c r ih =>
      intro b h
      rw [flagEnd] at h
      rcases ih (c = '/') h with ⟨h1, h2⟩ | ⟨a2, h1⟩
      · have hc : c = '/' := by
          by_contra hc
          rw [decide_eq_false hc] at h2
          cases h2
        subst hc
        rw [collapseAux, if_pos rfl]
        cases b
        · simp only [Bool.false_eq_true, if_false]
          rw [show (decide ('/' = '/')) = true from rfl] at h1
          rw [h1]
          exact Or.inr ⟨[], rfl⟩
        · simp only [if_true]
          rw [show (decide ('/' = '/')) = true from rfl] at h1
          rw [h1]
          exact Or.inl ⟨rfl, by simp⟩
      · rw [collapseAux]
        by_cases hc : c = '/'
        · rw [if_pos hc]
          subst hc
          rw [show (decide ('/' = '/')) = true from rfl] at h1
          cases b
          · simp only [Bool.false_eq_true, if_false]
            rw [h1]
            exact Or.inr ⟨'/' :: a2, rfl⟩
          · simp only [if_true]
            rw [h1]
            exact Or.inr ⟨a2, rfl⟩
        · rw [if_neg hc]
          rw [decide_eq_false hc] at h1
          rw [h1]
          exact Or.inr ⟨c :: a2, rfl⟩

theorem collapse_idem : ∀ (s : PyStr) (b : Bool),
    collapseAux b (collapseAux b s) = collapseAux b s := by
  intro s
  induction s with
  | nil => intro b; rfl
  | cons c r ih =>
      intro b
      by_cases hc : c = '/'
      · subst hc
        rw [collapseAux, if_pos rfl]
        cases b
        · simp only [Bool.false_eq_true, if_false]
          rw [collapseAux, if_pos rfl]
          simp only [Bool.false_eq_true, if_false]
          rw [ih true]
        · simp only [if_true]
          exact ih true
      · rw [collapseAux, if_neg hc, collapseAux, if_neg hc, ih false]

theorem collapse_true_head : ∀ (t : PyStr) (y : Char) (ys : PyStr),
    collapseAux true t = y :: ys → y ≠ '/' := by
  intro t
  induction t with
  | nil => intro y ys h; cases h
  | cons z zs ih =>
      intro y ys h
      rw [collapseAux] at h
      by_cases hz : z = '/'
      · rw [if_pos hz] at h
        simp only [if_true] at h
        exact ih y ys h
      · rw [if_neg hz] at h
        have := (List.cons.injEq .. ▸ h).1
        exact this ▸ hz

theorem collapse_take2 (s : PyStr) :
    (collapseAux false s).take 2 ≠ ['/', '/'] := by
  cases s with
  | nil => simp [collapseAux]
  | cons c r =>
      rw [collapse_false_cons, List.take_succ_cons]
      by_cases hc : c = '/'
      · subst hc
        intro hcontra
        have h1 : (collapseAux (decide ('/' = '/')) r).take 1 = ['/'] :=
          (List.cons.injEq .. ▸ hcontra).2
        rw [show (decide ('/' = '/')) = true from rfl] at h1
        rcases hX : collapseAux true r with _ | ⟨y, ys⟩
        · rw [hX] at h1
          cases h1
        · rw [hX, List.take_succ_cons] at h1
          exact collapse_true_head r y ys hX (List.cons.injEq .. ▸ h1).1
      · intro hcontra
        exact hc (List.cons.injEq .. ▸ hcontra).1

/-! UTF-8 roundtrip. -/

theorem char_valid (c : Char) :
    c.toNat < 0xD800 ∨ (0xE000 ≤ c.toNat ∧ c.toNat < 0x110000) := c.valid

theorem decode_one {b : Nat} (bs : List Nat) (h : b < 0x80) :
    utf8DecodeReplace (b :: bs) = Char.ofNat b :: utf8DecodeReplace bs := by
  rw [utf8DecodeReplace.eq_def]
  simp only []
  rw [if_pos h]

theorem decode_two {b1 b2 : Nat} (bs : List Nat)
    (h1 : 0xC2 ≤ b1 ∧ b1 ≤ 0xDF) (h2 : utf8Cont b2 = true) :
    utf8DecodeReplace (b1 :: b2 :: bs)
      = Char.ofNat ((b1 - 0xC0) * 64 + (b2 - 0x80)) :: utf8DecodeReplace bs := by
  rw [utf8DecodeReplace.eq_def]
  simp only []
  rw [if_neg (by omega), if_pos h1, if_pos h2]

theorem decode_three {b1 b2 b3 : Nat} (bs : List Nat)
    (h1 : 0xE0 ≤ b1 ∧ b1 ≤ 0xEF) (h2 : utf8Cont2 b1 b2 = true)
    (h3 : utf8Cont b3 = true) :
    utf8DecodeReplace (b1 :: b2 :: b3 :: bs)
      = Char.ofNat ((b1 - 0xE0) * 4096 + (b2 - 0x80) * 64 + (b3 - 0x80))
        :: utf8DecodeReplace bs := by
  rw [utf8DecodeReplace.eq_def]
  simp only []
  rw [if_neg (by omega), if_neg (by omega), if_pos h1, if_pos h2, if_pos h3]

theorem decode_four {b1 b2 b3 b4 : Nat} (bs : List Nat)
    (h1 : 0xF0 ≤ b1 ∧ b1 ≤ 0xF4) (h2 : utf8Cont2 b1 b2 = true)
    (h3 : utf8Cont b3 = true) (h4 : utf8Cont b4 = true) :
    utf8DecodeReplace (b1 :: b2 :: b3 :: b4 :: bs)
      = Char.ofNat ((b1 - 0xF0) * 262144 + (b2 - 0x80) * 4096
          + (b3 - 0x80) * 64 + (b4 - 0x80)) :: utf8DecodeReplace bs := by
  rw [utf8DecodeReplace.eq_def]
  simp only []
  rw [if_neg (by omega), if_neg (by omega), if_neg (by omega), if_pos h1,
    if_pos h2, if_pos h3, if_pos h4]

theorem utf8_decode_char (c : Char) (bs : List Nat) :
    utf8DecodeReplace (utf8EncodeChar c ++ bs) = c :: utf8DecodeReplace bs := by
  have hval := char_valid c
  rw [utf8EncodeChar]
  by_cases h1 : c.toNat < 0x80
  · rw [if_pos h1, List.cons_append, List.nil_append, decode_one bs h1,
      Char.ofNat_toNat]
  · rw [if_neg h1]
    by_cases h2 : c.toNat < 0x800
    · rw [if_pos h2, List.cons_append, List.cons_append, List.nil_append]
      rw [decode_two bs (by omega) (by rw [utf8Cont]; simp; omega)]
      have he : (0xC0 + c.toNat / 64 - 0xC0) * 64 + (0x80 + c.toNat % 64 - 0x80)
          = c.toNat := by omega
      rw [he, Char.ofNat_toNat]
    · rw [if_neg h2]
      by_cases h3 : c.toNat < 0x10000
      · rw [if_pos h3, List.cons_append, List.cons_append, List.cons_append,
          List.nil_append]
        rw [decode_three bs (by omega) ?hc2 (by rw [utf8Cont]; simp; omega)]
        case hc2 =>
          rw [utf8Cont2]
          by_cases he0 : (0xE0 + c.toNat / 4096 : Nat) = 0xE0
          · rw [if_pos he0]
            simp only [decide_eq_true_eq]
            constructor <;> omega
          · rw [if_neg he0]
            by_cases hed : (0xE0 + c.toNat / 4096 : Nat) = 0xED
            · rw [if_pos hed]
              simp only [decide_eq_true_eq]
              have hn : c.toNat / 4096 = 13 := by omega
              have hlt : c.toNat < 0xD800 := by
                rcases hval with h | h
                · exact h
                · omega
              constructor <;> omega
            · rw [if_neg hed]
              by_cases hef : (0xE0 + c.toNat / 4096 : Nat) = 0xF0
              · omega
              · rw [if_neg hef]
                by_cases heg : (0xE0 + c.toNat / 4096 : Nat) = 0xF4
                · omega
                · rw [if_neg heg, utf8Cont]
                  simp only [decide_eq_true_eq]
                  constructor <;> omega
        have he : (0xE0 + c.toNat / 4096 - 0xE0) * 4096
            + (0x80 + c.toNat / 64 % 64 - 0x80) * 64
            + (0x80 + c.toNat % 64 - 0x80) = c.toNat := by omega
        rw [he, Char.ofNat_toNat]
      · rw [if_neg h3, List.cons_append, List.cons_append, List.cons_append,
          List.cons_append, List.nil_append]
        have hup : c.toNat < 0x110000 := by
          rcases hval with h | h
          · omega
          · exact h.2
        rw [decode_four bs (by omega) ?hc2 (by rw [utf8Cont]; simp; omega)
          (by rw [utf8Cont]; simp; omega)]
        case hc2 =>
          rw [utf8Cont2]
          by_cases he0 : (0xF0 + c.toNat / 262144 : Nat) = 0xE0
          · omega
          · rw [if_neg he0]
            by_cases hed : (0xF0 + c.toNat / 262144 : Nat) = 0xED
            · omega
            · rw [if_neg hed]
              by_cases hef : (0xF0 + c.toNat / 262144 : Nat) = 0xF0
              · rw [if_pos hef]
                simp only [decide_eq_true_eq]
                constructor <;> omega
              · rw [if_neg hef]
                by_cases heg : (0xF0 + c.toNat / 262144 : Nat) = 0xF4
                · rw [if_pos heg]
                  simp only [decide_eq_true_eq]
                  constructor <;> omega
                · rw [if_neg heg, utf8Cont]
                  simp only [decide_eq_true_eq]
                  constructor <;> omega
        have he : (0xF0 + c.toNat / 262144 - 0xF0) * 262144
            + (0x80 + c.toNat / 4096 % 64 - 0x80) * 4096
            + (0x80 + c.toNat / 64 % 64 - 0x80) * 64
            + (0x80 + c.toNat % 64 - 0x80) = c.toNat := by omega
        rw [he, Char.ofNat_toNat]

theorem utf8_roundtrip : ∀ (s : PyStr),
    utf8DecodeReplace (utf8Encode s) = s := by
  intro s
  induction s with
  | nil => rfl
  | cons c r ih =>
      rw [utf8Encode, List.flatMap_cons, utf8_decode_char]
      rw [show (r.flatMap utf8EncodeChar) = utf8Encode r from rfl, ih]

/-! `quote_plus` / `unquote_plus` roundtrip. -/

theorem hexChar_toNat {n : Nat} (h : n < 16) :
    (hexChar n).toNat = if n < 10 then 48 + n else 55 + n := by
  rw [hexChar]
  by_cases h2 : n < 10
  · rw [if_pos h2, if_pos h2]
    show (Char.ofNat (48 + n)).toNat = 48 + n
    exact toNat_ofNat_lt (by omega)
  · rw [if_neg h2, if_neg h2]
    show (Char.ofNat (65 + n - 10)).toNat = 55 + n
    rw [toNat_ofNat_lt (by omega)]
    omega

theorem hexVal_hexChar {n : Nat} (h : n < 16) : hexVal (hexChar n) = some n := by
  have hc := hexChar_toNat h
  rw [hexVal]
  by_cases h2 : n < 10
  · rw [if_pos h2] at hc
    have h0 : '0' ≤ hexChar n ∧ hexChar n ≤ '9' := by
      constructor
      · show (48 : Nat) ≤ (hexChar n).toNat
        omega
      · show (hexChar n).toNat ≤ 57
        omega
    rw [if_pos h0]
    congr 1
    show (hexChar n).toNat - 48 = n
    omega
  · rw [if_neg h2] at hc
    have h0 : ¬('0' ≤ hexChar n ∧ hexChar n ≤ '9') := by
      intro hcontra
      have h3 : (hexChar n).toNat ≤ 57 := hcontra.2
      omega
    rw [if_neg h0]
    have h1 : ¬('a' ≤ hexChar n ∧ hexChar n ≤ 'f') := by
      intro hcontra
      have h3 : (97 : Nat) ≤ (hexChar n).toNat := hcontra.1
      omega
    rw [if_neg h1]
    have h3 : 'A' ≤ hexChar n ∧ hexChar n ≤ 'F' := by
      constructor
      · show (65 : Nat) ≤ (hexChar n).toNat
        omega
      · show (hexChar n).toNat ≤ 70
        omega
    rw [if_pos h3]
    congr 1
    show (hexChar n).toNat - 65 + 10 = n
    omega

theorem alwaysSafe_range {b : Nat} (h : alwaysSafe b = true) :
    (97 ≤ b ∧ b ≤ 122) ∨ (65 ≤ b ∧ b ≤ 90) ∨ (48 ≤ b ∧ b ≤ 57) ∨
      b = 95 ∨ b = 46 ∨ b = 45 ∨ b = 126 := by
  rw [alwaysSafe] at h
  simp only [decide_eq_true_eq] at h
  exact h

theorem utf8EncodeChar_lt (c : Char) : ∀ b ∈ utf8EncodeChar c, b < 256 := by
  intro b hb
  rw [utf8EncodeChar] at hb
  by_cases h1 : c.toNat < 0x80
  · rw [if_pos h1] at hb
    have := List.mem_singleton.mp hb
    omega
  · rw [if_neg h1] at hb
    have hval := char_valid c
    have hup : c.toNat < 0x110000 := by rcases hval with h | h; omega; exact h.2
    by_cases h2 : c.toNat < 0x800
    · rw [if_pos h2] at hb
      simp only [List.mem_cons, List.not_mem_nil, or_false] at hb
      rcases hb with rfl | rfl <;> omega
    · rw [if_neg h2] at hb
      by_cases h3 : c.toNat < 0x10000
      · rw [if_pos h3] at hb
        simp only [List.mem_cons, List.not_mem_nil, or_false] at hb
        rcases hb with rfl | rfl | rfl <;> omega
      · rw [if_neg h3] at hb
        simp only [List.mem_cons, List.not_mem_nil, or_false] at hb
        rcases hb with rfl | rfl | rfl | rfl <;> omega

theorem utf8Encode_lt (s : PyStr) : ∀ b ∈ utf8Encode s, b < 256 := by
  intro b hb
  rw [utf8Encode] at hb
  obtain ⟨c, -, hbc⟩ := List.mem_flatMap.mp hb
  exact utf8EncodeChar_lt c b hbc

theorem unquoteTokens_notpct {c : Char} (rest : PyStr) (h : c ≠ '%')
    (hlt : c.toNat < 0x80) :
    unquoteTokens (c :: rest) = Sum.inl c.toNat :: unquoteTokens rest := by
  rw [unquoteTokens.eq_def]
  split
  · rename_i heq
    cases heq
  · rename_i c1 c2 r2 heq
    have h1 := (List.cons.injEq .. ▸ heq).1
    exact absurd h1 h
  · rename_i c' r' heq
    have h1 := (List.cons.injEq .. ▸ heq).1
    have h2 := (List.cons.injEq .. ▸ heq).2
    subst h1
    subst h2
    rw [if_pos hlt]

theorem alwaysSafe_ne {b k : Nat} (h : alwaysSafe b = true)
    (hk : alwaysSafe k = false) : b ≠ k := by
  intro he
  rw [he, hk] at h
  cases h

theorem charOfNat_ne {b : Nat} (hb : b < 0xD800) {k : Char}
    (hk : b ≠ k.toNat) : Char.ofNat b ≠ k := by
  intro he
  have := congrArg Char.toNat he
  rw [toNat_ofNat_lt hb] at this
  exact hk this

theorem tokens_quote : ∀ (bs : List Nat), (∀ b ∈ bs, b < 256) →
    unquoteTokens ((bs.flatMap (fun b =>
        if b = 32 then ['+']
        else if alwaysSafe b then [Char.ofNat b]
        else '%' :: hexPair b)).map (fun c => if c = '+' then ' ' else c))
      = bs.map Sum.inl := by
  intro bs
  induction bs with
  | nil => intro _; rfl
  | cons b r ih =>
      intro hbound
      have hb : b < 256 := hbound b (List.mem_cons_self _ _)
      have hr : ∀ b2 ∈ r, b2 < 256 := fun b2 h2 =>
        hbound b2 (List.mem_cons_of_mem _ h2)
      rw [List.flatMap_cons, List.map_append, List.map_cons]
      by_cases h32 : b = 32
      · rw [if_pos h32, List.map_cons, List.map_nil, if_pos rfl,
          List.singleton_append]
        rw [unquoteTokens_notpct _ (by decide) (by decide)]
        rw [ih hr, h32]
        rfl
      · rw [if_neg h32]
        by_cases hsafe : alwaysSafe b = true
        · rw [if_pos hsafe, List.map_cons, List.map_nil]
          have hrange := alwaysSafe_range hsafe
          have hplus : Char.ofNat b ≠ '+' := charOfNat_ne (by omega) (by
            show b ≠ 43
            omega)
          rw [if_neg hplus, List.singleton_append]
          rw [unquoteTokens_notpct _ (charOfNat_ne (by omega) (by
            show b ≠ 37
            omega)) (by rw [toNat_ofNat_lt (by omega)]; omega)]
          rw [toNat_ofNat_lt (by omega), ih hr]
        · rw [if_neg hsafe, hexPair]
          have hd : b / 16 < 16 := by omega
          have hm : b % 16 < 16 := by omega
          have hcd := hexChar_toNat hd
          have hcm := hexChar_toNat hm
          rw [List.map_cons, List.map_cons, List.map_cons, List.map_nil]
          rw [if_neg (by decide)]
          rw [if_neg (show hexChar (b / 16) ≠ '+' by
            intro hcontra
            have h2 : (hexChar (b / 16)).toNat = 43 := by rw [hcontra]; rfl
            rw [hcd] at h2
            split at h2 <;> omega)]
          rw [if_neg (show hexChar (b % 16) ≠ '+' by
            intro hcontra
            have h2 : (hexChar (b % 16)).toNat = 43 := by rw [hcontra]; rfl
            rw [hcm] at h2
            split at h2 <;> omega)]
          rw [List.cons_append, List.cons_append, List.cons_append,
            List.nil_append]
          rw [unquoteTokens, hexVal_hexChar hd, hexVal_hexChar hm, ih hr]
          show Sum.inl (16 * (b / 16) + b % 16) :: List.map Sum.inl r
            = List.map Sum.inl (b :: r)
          rw [List.map_cons]
          congr 2
          omega

theorem decodeTokens_inl : ∀ (bs acc : List Nat),
    decodeTokensAux acc (bs.map Sum.inl) = utf8DecodeReplace (acc.reverse ++ bs) := by
  intro bs
  induction bs with
  | nil =>
      intro acc
      rw [List.map_nil, decodeTokensAux, List.append_nil]
  | cons b r ih =>
      intro acc
      rw [List.map_cons, decodeTokensAux, ih]
      congr 1
      rw [List.reverse_cons, List.append_assoc]
      rfl

theorem quotePlus_roundtrip (s : PyStr) : pyUnquotePlus (quotePlus s) = s := by
  rw [pyUnquotePlus, quotePlus, pyUnquote,
    tokens_quote (utf8Encode s) (utf8Encode_lt s), decodeTokens_inl,
    List.reverse_nil, List.nil_append, utf8_roundtrip]

/-! `parse_qsl` of `urlencode` output. -/

theorem intercalate_cons2 {α : Type} (s a b : List α) (l : List (List α)) :
    List.intercalate s (a :: b :: l) = a ++ s ++ List.intercalate s (b :: l) := by
  simp [List.intercalate, List.intersperse]

theorem intercalate_one {α : Type} (s a : List α) : List.intercalate s [a] = a := by
  simp [List.intercalate, List.intersperse]

theorem mem_quotePlus {ch : Char} {s : PyStr} (h : ch ∈ quotePlus s) :
    ch = '+' ∨ ch = '%' ∨ (∃ n, n < 16 ∧ ch = hexChar n) ∨
      ∃ b, alwaysSafe b = true ∧ ch = Char.ofNat b := by
  rw [quotePlus] at h
  obtain ⟨b, hb, hc⟩ := List.mem_flatMap.mp h
  have hblt : b < 256 := utf8Encode_lt s b hb
  by_cases h32 : b = 32
  · rw [if_pos h32] at hc
    left
    exact List.mem_singleton.mp hc
  · rw [if_neg h32] at hc
    by_cases hsafe : alwaysSafe b = true
    · rw [if_pos hsafe] at hc
      right; right; right
      exact ⟨b, hsafe, List.mem_singleton.mp hc⟩
    · rw [if_neg hsafe] at hc
      rcases List.mem_cons.mp hc with rfl | hc2
      · right; left; rfl
      · rw [hexPair] at hc2
        rcases List.mem_cons.mp hc2 with rfl | hc3
        · right; right; left
          exact ⟨b / 16, by omega, rfl⟩
        · right; right; left
          exact ⟨b % 16, by omega, List.mem_singleton.mp hc3⟩

theorem quotePlus_toNat {ch : Char} {s : PyStr} (h : ch ∈ quotePlus s) :
    ch.toNat = 43 ∨ ch.toNat = 37 ∨ (48 ≤ ch.toNat ∧ ch.toNat ≤ 57) ∨
      (65 ≤ ch.toNat ∧ ch.toNat ≤ 90) ∨ (97 ≤ ch.toNat ∧ ch.toNat ≤ 122) ∨
      ch.toNat = 95 ∨ ch.toNat = 46 ∨ ch.toNat = 45 ∨ ch.toNat = 126 := by
  rcases mem_quotePlus h with rfl | rfl | ⟨n, hn, rfl⟩ | ⟨b, hb, rfl⟩
  · left; rfl
  · right; left; rfl
  · have := hexChar_toNat hn
    rw [this]
    split <;> omega
  · have hr := alwaysSafe_range hb
    rw [toNat_ofNat_lt (by omega)]
    omega

theorem quotePlus_avoid {s : PyStr} {k : Char}
    (hk : k.toNat = 38 ∨ k.toNat = 61 ∨ k.toNat = 35 ∨ k.toNat = 9 ∨
      k.toNat = 13 ∨ k.toNat = 10 ∨ k.toNat = 58) : k ∉ quotePlus s := by
  intro h
  have h2 := quotePlus_toNat h
  rcases hk with h1 | h1 | h1 | h1 | h1 | h1 | h1 <;>
    rcases h2 with h2 | h2 | h2 | h2 | h2 | h2 | h2 | h2 | h2 <;> omega

theorem pySplitChar_not_mem {c : Char} :
    ∀ {f : PyStr}, c ∉ f → pySplitChar c f = [f] := by
  intro f
  induction f with
  | nil => intro _; rfl
  | cons x r ih =>
      intro h
      simp only [List.mem_cons, not_or] at h
      rw [pySplitChar, if_neg (fun hx => h.1 hx.symm), ih h.2]

theorem pySplitChar_append {c : Char} {f : PyStr} (t : PyStr) (h : c ∉ f) :
    pySplitChar c (f ++ c :: t) = f :: pySplitChar c t := by
  induction f with
  | nil =>
      rw [List.nil_append, pySplitChar, if_pos rfl]
  | cons x r ih =>
      simp only [List.mem_cons, not_or] at h
      rw [List.cons_append, pySplitChar, if_neg (fun hx => h.1 hx.symm),
        ih h.2]

theorem pySplit_intercalate {c : Char} :
    ∀ (fields : List PyStr), fields ≠ [] → (∀ f ∈ fields, c ∉ f) →
    pySplitChar c (List.intercalate [c] fields) = fields := by
  intro fields
  induction fields with
  | nil => intro h _; exact absurd rfl h
  | cons f rest ih =>
      intro _ hmem
      cases rest with
      | nil =>
          rw [intercalate_one]
          exact pySplitChar_not_mem (hmem f (List.mem_cons_self _ _))
      | cons f2 rest2 =>
          rw [intercalate_cons2, List.append_assoc]
          rw [show ([c] ++ List.intercalate [c] (f2 :: rest2))
            = c :: List.intercalate [c] (f2 :: rest2) from rfl]
          rw [pySplitChar_append _ (hmem f (List.mem_cons_self _ _))]
          rw [ih (List.cons_ne_nil _ _)
            (fun g hg => hmem g (List.mem_cons_of_mem _ hg))]

theorem encodePair_ne_nil (p : PyStr × PyStr) :
    quotePlus p.1 ++ '=' :: quotePlus p.2 ≠ [] := by
  intro h
  have := (List.append_eq_nil.mp h).2
  cases this

theorem encodePair_no_amp (p : PyStr × PyStr) :
    '&' ∉ quotePlus p.1 ++ '=' :: quotePlus p.2 := by
  intro h
  rcases List.mem_append.mp h with h2 | h2
  · exact @quotePlus_avoid p.1 '&' (Or.inl rfl) h2
  · rcases List.mem_cons.mp h2 with h3 | h3
    · cases h3
    · exact @quotePlus_avoid p.2 '&' (Or.inl rfl) h3

theorem parseQsl_fields : ∀ (pairs : List (PyStr × PyStr)),
    ((pairs.map fun p => quotePlus p.1 ++ '=' :: quotePlus p.2).filterMap fun nv =>
      if nv = [] then none
      else
        match splitFirst '=' nv with
        | (n, some v) => some (pyUnquotePlus n, pyUnquotePlus v)
        | (n, none) => some (pyUnquotePlus n, [])) = pairs := by
  intro pairs
  induction pairs with
  | nil => rfl
  | cons p ps ih =>
      rw [List.map_cons, List.filterMap_cons, if_neg (encodePair_ne_nil p)]
      rw [splitFirst_append (quotePlus p.2)
        (@quotePlus_avoid p.1 '=' (Or.inr (Or.inl rfl)))]
      rw [show (match (quotePlus p.1, some (quotePlus p.2)) with
        | (n, some v) => some (pyUnquotePlus n, pyUnquotePlus v)
        | (n, none) => some (pyUnquotePlus n, ([] : PyStr)))
        = some (pyUnquotePlus (quotePlus p.1), pyUnquotePlus (quotePlus p.2))
        from rfl]
      rw [quotePlus_roundtrip, quotePlus_roundtrip, ih]

theorem parseQsl_urlencode (pairs : List (PyStr × PyStr)) :
    parseQsl (pyUrlencode pairs) = pairs := by
  cases pairs with
  | nil => rfl
  | cons p ps =>
      have hne : List.intercalate ['&']
          ((p :: ps).map fun p => quotePlus p.1 ++ '=' :: quotePlus p.2) ≠ [] := by
        rw [List.map_cons]
        cases hps : ps.map fun p => quotePlus p.1 ++ '=' :: quotePlus p.2 with
        | nil =>
            rw [intercalate_one]
            exact encodePair_ne_nil p
        | cons g gs =>
            rw [intercalate_cons2]
            intro hcontra
            exact encodePair_ne_nil p
              ((List.append_eq_nil.mp ((List.append_eq_nil.mp hcontra).1)).1)
      rw [pyUrlencode, parseQsl, if_neg hne]
      rw [pySplit_intercalate _ (by rw [List.map_cons]; exact List.cons_ne_nil _ _)
        (fun f hf => by
          obtain ⟨p2, -, hp2⟩ := List.mem_map.mp hf
          rw [← hp2]
          exact encodePair_no_amp p2)]
      exact parseQsl_fields (p :: ps)

theorem mem_intersperse_or {α : Type} (sep : α) :
    ∀ (l : List α) (a : α), a ∈ l.intersperse sep → a = sep ∨ a ∈ l := by
  intro l
  induction l with
  | nil => intro a h; cases h
  | cons x xs ih =>
      intro a h
      cases xs with
      | nil =>
          right
          simpa using h
      | cons y r =>
          rw [show (x :: y :: r).intersperse sep
            = x :: sep :: (y :: r).intersperse sep from rfl] at h
          rcases List.mem_cons.mp h with rfl | h2
          · right
            exact List.mem_cons_self _ _
          · rcases List.mem_cons.mp h2 with rfl | h3
            · left
              rfl
            · rcases ih a h3 with h4 | h4
              · left
                exact h4
              · right
                exact List.mem_cons_of_mem _ h4

theorem mem_urlencode {ch : Char} {pairs : List (PyStr × PyStr)}
    (h : ch ∈ pyUrlencode pairs) :
    ch = '&' ∨ ch = '=' ∨ ∃ p ∈ pairs, ch ∈ quotePlus p.1 ∨ ch ∈ quotePlus p.2 := by
  rw [pyUrlencode, List.intercalate, List.mem_flatten] at h
  obtain ⟨l, hl, hcl⟩ := h
  rcases mem_intersperse_or _ _ _ hl with rfl | hl2
  · left
    exact List.mem_singleton.mp hcl
  · obtain ⟨p, hp, hpl⟩ := List.mem_map.mp hl2
    rw [← hpl] at hcl
    rcases List.mem_append.mp hcl with h2 | h2
    · exact Or.inr (Or.inr ⟨p, hp, Or.inl h2⟩)
    · rcases List.mem_cons.mp h2 with rfl | h3
      · right; left; rfl
      · exact Or.inr (Or.inr ⟨p, hp, Or.inr h3⟩)

/-! Sorting and tracking-filter fixed points. -/

theorem sortPairs_filter_id (l : List (PyStr × PyStr)) :
    (sortPairs (l.filter fun kv => kv.1 ∉ TRACKING_KEYS)).filter
      (fun kv => kv.1 ∉ TRACKING_KEYS)
      = sortPairs (l.filter fun kv => kv.1 ∉ TRACKING_KEYS) := by
  rw [List.filter_eq_self]
  intro a ha
  rw [sortPairs] at ha
  have h2 : a ∈ l.filter fun kv => kv.1 ∉ TRACKING_KEYS :=
    (List.mem_insertionSort pairLe).mp ha
  have h3 := List.of_mem_filter h2
  exact h3

theorem sortPairs_idem (l : List (PyStr × PyStr)) :
    sortPairs (sortPairs l) = sortPairs l :=
  List.Sorted.insertionSort_eq (List.sorted_insertionSort pairLe l)

/-! `splitScheme` and `noScheme`. -/

theorem splitScheme_noScheme {s : PyStr} (h : noScheme s) :
    splitScheme s = ([], s) := by
  rcases hsp : splitFirst ':' s with ⟨a, o⟩
  cases o with
  | none => rw [splitScheme, hsp]
  | some b =>
      rw [noScheme, hsp] at h
      have h2 : ¬(a ≠ [] ∧ isAsciiAlpha (a.headD ' ') = true
          ∧ a.all schemeChar = true) := h
      rw [splitScheme, hsp]
      show (if a ≠ [] ∧ isAsciiAlpha (a.headD ' ') = true
          ∧ a.all schemeChar = true
        then (pyLower a, b) else ([], s)) = ([], s)
      rw [if_neg h2]

theorem noScheme_none {s : PyStr} (h : ':' ∉ s) : noScheme s := by
  rw [noScheme, splitFirst_not_mem h]
  exact trivial

theorem noScheme_of_cond {s a b : PyStr} (hsp : splitFirst ':' s = (a, some b))
    (h : ¬(a ≠ [] ∧ isAsciiAlpha (a.headD ' ') = true ∧ a.all schemeChar = true)) :
    noScheme s := by
  rw [noScheme, hsp]
  exact h

theorem noScheme_prefix {xs ys : PyStr} (h : noScheme (xs ++ ys)) : noScheme xs := by
  rcases hsp : splitFirst ':' xs with ⟨a, o⟩
  cases o with
  | none =>
      obtain ⟨he, hn⟩ := splitFirst_eq_none hsp
      exact noScheme_none (he ▸ hn)
  | some b =>
      obtain ⟨hdec, hna⟩ := splitFirst_eq_some hsp
      have hsp2 : splitFirst ':' (xs ++ ys) = (a, some (b ++ ys)) := by
        rw [hdec, List.append_assoc]
        exact splitFirst_append _ hna
      rw [noScheme, hsp2] at h
      have h2 : ¬(a ≠ [] ∧ isAsciiAlpha (a.headD ' ') = true
          ∧ a.all schemeChar = true) := h
      exact noScheme_of_cond hsp h2

theorem mem_left_of_first_split {c k : Char} (hck : c ≠ k) :
    ∀ (pa a2 q b2 : PyStr), pa ++ c :: q = a2 ++ k :: b2 → k ∉ pa → c ∈ a2 := by
  intro pa
  induction pa with
  | nil =>
      intro a2 q b2 he hk
      cases a2 with
      | nil =>
          rw [List.nil_append, List.nil_append] at he
          exact absurd (List.cons.injEq .. ▸ he).1 hck
      | cons x a2' =>
          rw [List.nil_append, List.cons_append] at he
          have : c = x := (List.cons.injEq .. ▸ he).1
          rw [this]
          exact List.mem_cons_self _ _
  | cons x pa' ih =>
      intro a2 q b2 he hk
      simp only [List.mem_cons, not_or] at hk
      cases a2 with
      | nil =>
          rw [List.nil_append, List.cons_append] at he
          exact absurd (List.cons.injEq .. ▸ he).1.symm hk.1
      | cons y a2' =>
          rw [List.cons_append, List.cons_append] at he
          have h2 := (List.cons.injEq .. ▸ he).2
          exact List.mem_cons_of_mem _ (ih a2' q b2 h2 hk.2)

theorem noScheme_qmark (pa q : PyStr) (h : noScheme pa) :
    noScheme (pa ++ '?' :: q) := by
  rcases hsp : splitFirst ':' pa with ⟨a, o⟩
  cases o with
  | some b =>
      obtain ⟨hdec, hna⟩ := splitFirst_eq_some hsp
      have hsp2 : splitFirst ':' (pa ++ '?' :: q) = (a, some (b ++ '?' :: q)) := by
        rw [hdec, List.append_assoc]
        exact splitFirst_append _ hna
      refine noScheme_of_cond hsp2 ?_
      rw [noScheme, hsp] at h
      exact h
  | none =>
      obtain ⟨hpaeq, hnc⟩ := splitFirst_eq_none hsp
      rcases hsp2 : splitFirst ':' (pa ++ '?' :: q) with ⟨a2, o2⟩
      cases o2 with
      | none =>
          obtain ⟨he, hn⟩ := splitFirst_eq_none hsp2
          exact noScheme_none (he ▸ hn)
      | some b2 =>
          obtain ⟨hdec2, hna2⟩ := splitFirst_eq_some hsp2
          refine noScheme_of_cond hsp2 ?_
          rintro ⟨hne, hal, hall⟩
          have hqm : '?' ∈ a2 := by
            refine mem_left_of_first_split (by decide) pa a2 q b2 hdec2 ?_
            rw [hpaeq]
            exact hnc
          have := List.all_eq_true.mp hall '?' hqm
          cases this

theorem schemeChar_pyLower {c : Char} (h : schemeChar c = true) :
    schemeChar (pyLowerChar c) = true := by
  rw [schemeChar] at h ⊢
  simp only [decide_eq_true_eq] at h ⊢
  have h2 : (97 ≤ c.toNat ∧ c.toNat ≤ 122) ∨ (65 ≤ c.toNat ∧ c.toNat ≤ 90) ∨
      (48 ≤ c.toNat ∧ c.toNat ≤ 57) ∨ c.toNat = 43 ∨ c.toNat = 45 ∨
      c.toNat = 46 := by
    rcases h with h | h | h | h | h | h
    · exact Or.inl ⟨h.1, h.2⟩
    · exact Or.inr (Or.inl ⟨h.1, h.2⟩)
    · exact Or.inr (Or.inr (Or.inl ⟨h.1, h.2⟩))
    · exact Or.inr (Or.inr (Or.inr (Or.inl (by rw [h]; rfl))))
    · exact Or.inr (Or.inr (Or.inr (Or.inr (Or.inl (by rw [h]; rfl)))))
    · exact Or.inr (Or.inr (Or.inr (Or.inr (Or.inr (by rw [h]; rfl)))))
  have h4 := pyLowerChar_toNat c
  have h5 : (97 ≤ (pyLowerChar c).toNat ∧ (pyLowerChar c).toNat ≤ 122) ∨
      (65 ≤ (pyLowerChar c).toNat ∧ (pyLowerChar c).toNat ≤ 90) ∨
      (48 ≤ (pyLowerChar c).toNat ∧ (pyLowerChar c).toNat ≤ 57) ∨
      (pyLowerChar c).toNat = 43 ∨ (pyLowerChar c).toNat = 45 ∨
      (pyLowerChar c).toNat = 46 := by
    rcases h2 with h2 | h2 | h2 | h2 | h2 | h2 <;> (rw [h4]; split_ifs <;> omega)
  rcases h5 with h5 | h5 | h5 | h5 | h5 | h5
  · exact Or.inl ⟨h5.1, h5.2⟩
  · exact Or.inr (Or.inl ⟨h5.1, h5.2⟩)
  · exact Or.inr (Or.inr (Or.inl ⟨h5.1, h5.2⟩))
  · exact Or.inr (Or.inr (Or.inr (Or.inl ((charEq_iff _ _).mpr (by rw [h5]; rfl)))))
  · exact Or.inr (Or.inr (Or.inr (Or.inr (Or.inl
      ((charEq_iff _ _).mpr (by rw [h5]; rfl))))))
  · exact Or.inr (Or.inr (Or.inr (Or.inr (Or.inr
      ((charEq_iff _ _).mpr (by rw [h5]; rfl))))))

theorem isAsciiAlpha_pyLower {c : Char} (h : isAsciiAlpha c = true) :
    isAsciiAlpha (pyLowerChar c) = true := by
  rw [isAsciiAlpha] at h ⊢
  simp only [decide_eq_true_eq] at h ⊢
  have h2 : (97 ≤ c.toNat ∧ c.toNat ≤ 122) ∨ (65 ≤ c.toNat ∧ c.toNat ≤ 90) := h
  show (97 ≤ (pyLowerChar c).toNat ∧ (pyLowerChar c).toNat ≤ 122) ∨
      (65 ≤ (pyLowerChar c).toNat ∧ (pyLowerChar c).toNat ≤ 90)
  have h3 := pyLowerChar_toNat c
  rcases h2 with h2 | h2 <;> (rw [h3]; split_ifs <;> omega)

theorem schemeChar_ne_colon {c : Char} (h : schemeChar c = true) : c ≠ ':' := by
  intro he
  subst he
  cases h

theorem splitScheme_valid {sch : PyStr} (tail : PyStr) (hne : sch ≠ [])
    (hal : isAsciiAlpha (sch.headD ' ') = true) (hall : sch.all schemeChar = true)
    (hlow : pyLower sch = sch) :
    splitScheme (sch ++ ':' :: tail) = (sch, tail) := by
  have hnc : ':' ∉ sch := fun hmem =>
    schemeChar_ne_colon (List.all_eq_true.mp hall ':' hmem) rfl
  rw [splitScheme, splitFirst_append tail hnc]
  show (if sch ≠ [] ∧ isAsciiAlpha (sch.headD ' ') = true
      ∧ sch.all schemeChar = true
    then (pyLower sch, tail) else ([], sch ++ ':' :: tail)) = (sch, tail)
  rw [if_pos ⟨hne, hal, hall⟩, hlow]

/-! List plumbing for the `urlsplit` inverse. -/

theorem dropWhile_shape {α : Type} (p : α → Bool) :
    ∀ (l : List α), l.dropWhile p = [] ∨
      ∃ x xs, l.dropWhile p = x :: xs ∧ p x = false := by
  intro l
  induction l with
  | nil => exact Or.inl rfl
  | cons x xs ih =>
      rw [List.dropWhile_cons]
      by_cases hx : p x = true
      · rw [if_pos hx]
        exact ih
      · rw [if_neg hx]
        exact Or.inr ⟨x, xs, rfl, by
          cases hpx : p x
          · rfl
          · exact absurd hpx hx⟩

theorem takeWhile_all_append {α : Type} (p : α → Bool) :
    ∀ (l1 l2 : List α), (∀ c ∈ l1, p c = true) →
    (l1 ++ l2).takeWhile p = l1 ++ l2.takeWhile p ∧
    (l1 ++ l2).dropWhile p = l2.dropWhile p := by
  intro l1
  induction l1 with
  | nil => intro l2 _; exact ⟨rfl, rfl⟩
  | cons x xs ih =>
      intro l2 h
      rw [List.cons_append, List.takeWhile_cons, List.dropWhile_cons,
        if_pos (h x (List.mem_cons_self _ _)), if_pos (h x (List.mem_cons_self _ _))]
      obtain ⟨h1, h2⟩ := ih l2 (fun c hc => h c (List.mem_cons_of_mem _ hc))
      rw [h1, h2, List.cons_append]
      exact ⟨rfl, rfl⟩

theorem takeWhile_head_false {α : Type} (p : α → Bool) (x : α) (xs : List α)
    (h : p x = false) :
    (x :: xs).takeWhile p = [] ∧ (x :: xs).dropWhile p = x :: xs := by
  rw [List.takeWhile_cons, List.dropWhile_cons, if_neg (by rw [h]; exact
    Bool.false_ne_true), if_neg (by rw [h]; exact Bool.false_ne_true)]
  exact ⟨rfl, rfl⟩

theorem head_of_prefix {a t : PyStr} (d : Char) (h : a ≠ []) :
    (a ++ t).headD d = a.headD d := by
  cases a with
  | nil => exact absurd rfl h
  | cons x xs => rfl

theorem splitFirst_decomp (c : Char) (s : PyStr) :
    ∃ t, s = (splitFirst c s).1 ++ t ∧ c ∉ (splitFirst c s).1 := by
  rcases hsp : splitFirst c s with ⟨a, o⟩
  cases o with
  | none =>
      obtain ⟨he, hn⟩ := splitFirst_eq_none hsp
      exact ⟨[], by rw [List.append_nil]; exact he, hn⟩
  | some b =>
      obtain ⟨he, hn⟩ := splitFirst_eq_some hsp
      exact ⟨c :: b, he, hn⟩

theorem take2_append_q {pa : PyStr} (q : PyStr)
    (hne : pa ≠ []) (h : pa.take 2 ≠ ['/', '/']) :
    (pa ++ '?' :: q).take 2 ≠ ['/', '/'] := by
  cases pa with
  | nil => exact absurd rfl hne
  | cons c1 rest =>
      cases rest with
      | nil =>
          rw [List.cons_append, List.nil_append, List.take_succ_cons,
            List.take_succ_cons]
          intro hcontra
          have h2 := (List.cons.injEq .. ▸ hcontra).2
          have h3 := (List.cons.injEq .. ▸ h2).1
          cases h3
      | cons c2 rest2 =>
          rw [List.cons_append, List.cons_append, List.take_succ_cons,
            List.take_succ_cons, List.take_zero]
          rw [List.take_succ_cons, List.take_succ_cons, List.take_zero] at h
          exact h

theorem mem_take {α : Type} {x : α} : ∀ {n : Nat} {l : List α},
    x ∈ l.take n → x ∈ l := by
  intro n
  induction n with
  | zero => intro l h; cases h
  | succ m ih =>
      intro l h
      cases l with
      | nil => cases h
      | cons y ys =>
          rw [List.take_succ_cons] at h
          rcases List.mem_cons.mp h with rfl | h2
          · exact List.mem_cons_self _ _
          · exact List.mem_cons_of_mem _ (ih h2)

theorem removeUnsafe_not_bad {c : Char} {s : PyStr} (h : c ∈ removeUnsafe s) :
    ¬(c = '\t' ∨ c = '\r' ∨ c = '\n') := by
  rw [removeUnsafe] at h
  have h2 := List.of_mem_filter h
  simp only [decide_eq_true_eq] at h2
  exact h2

theorem removeUnsafe_id {s : PyStr} (h : ∀ c ∈ s, ¬(c = '\t' ∨ c = '\r' ∨ c = '\n')) :
    removeUnsafe s = s := by
  rw [removeUnsafe, List.filter_eq_self]
  intro a ha
  simp only [decide_eq_true_eq]
  exact h a ha

theorem lstripC0_id {s : PyStr} (h : s = [] ∨ 0x20 < (s.headD ' ').toNat) :
    lstripC0 s = s := by
  cases s with
  | nil => rfl
  | cons x xs =>
      rcases h with h | h
      · cases h
      · rw [lstripC0, List.dropWhile_cons, if_neg (by
          simp only [decide_eq_true_eq]
          intro hcontra
          have h2 : (x :: xs).headD ' ' = x := rfl
          rw [h2] at h
          omega)]

theorem noScheme_head_nonalpha {x : Char} (s : PyStr)
    (h : isAsciiAlpha x = false) : noScheme (x :: s) := by
  by_cases hx : x = ':'
  · subst hx
    refine noScheme_of_cond (show splitFirst ':' (':' :: s)
        = (([] : PyStr), some s) from by rw [splitFirst, if_pos rfl]) ?_
    rintro ⟨hne, -, -⟩
    exact hne rfl
  · rcases hsp : splitFirst ':' s with ⟨a, o⟩
    cases o with
    | none =>
        refine noScheme_none ?_
        obtain ⟨he, hn⟩ := splitFirst_eq_none hsp
        simp only [List.mem_cons, not_or]
        exact ⟨fun hc => hx hc.symm, he ▸ hn⟩
    | some b =>
        have hsp2 : splitFirst ':' (x :: s) = (x :: a, some b) := by
          rw [splitFirst, if_neg hx, hsp]
        refine noScheme_of_cond hsp2 ?_
        rintro ⟨-, hal, -⟩
        rw [show (x :: a).headD ' ' = x from rfl] at hal
        rw [h] at hal
        cases hal

/-! Facts established by a successful `urlsplit`. -/

theorem bool_eq_false {b : Bool} (h : ¬b = true) : b = false := by
  cases b
  · rfl
  · exact absurd rfl h

theorem splitFirst_cons_ne {x c : Char} (t : PyStr) (h : x ≠ c) :
    splitFirst c (x :: t) = (x :: (splitFirst c t).1, (splitFirst c t).2) := by
  rw [splitFirst, if_neg h]

theorem splitFirst_fst_not_mem (c : Char) (s : PyStr) :
    c ∉ (splitFirst c s).1 := by
  obtain ⟨t, -, h⟩ := splitFirst_decomp c s
  exact h

theorem mem_splitFirst_fst {a c : Char} {s : PyStr}
    (h : a ∈ (splitFirst c s).1) : a ∈ s := by
  obtain ⟨t, he, -⟩ := splitFirst_decomp c s
  rw [he]
  exact List.mem_append_left _ h

theorem mem_path_of_rest {c : Char} {rest : PyStr}
    (h : c ∈ (splitFirst '?' (splitFirst '#' rest).1).1) : c ∈ rest :=
  mem_splitFirst_fst (mem_splitFirst_fst h)

theorem splitScheme_shape (s : PyStr) :
    (splitScheme s = ([], s) ∧ noScheme s) ∨
    (∃ before after, before ≠ [] ∧ isAsciiAlpha (before.headD ' ') = true ∧
      before.all schemeChar = true ∧
      splitScheme s = (pyLower before, after) ∧ s = before ++ ':' :: after) := by
  rcases hsp : splitFirst ':' s with ⟨a, o⟩
  cases o with
  | none =>
      obtain ⟨he, hn⟩ := splitFirst_eq_none hsp
      have hns : noScheme s := noScheme_none (he ▸ hn)
      exact Or.inl ⟨splitScheme_noScheme hns, hns⟩
  | some b =>
      by_cases hc : a ≠ [] ∧ isAsciiAlpha (a.headD ' ') = true
          ∧ a.all schemeChar = true
      · refine Or.inr ⟨a, b, hc.1, hc.2.1, hc.2.2, ?_, (splitFirst_eq_some hsp).1⟩
        rw [splitScheme, hsp]
        show (if a ≠ [] ∧ isAsciiAlpha (a.headD ' ') = true
            ∧ a.all schemeChar = true
          then (pyLower a, b) else ([], s)) = (pyLower a, b)
        rw [if_pos hc]
      · have hns : noScheme s := noScheme_of_cond hsp hc
        exact Or.inl ⟨splitScheme_noScheme hns, hns⟩

theorem pyLower_scheme_props {b : PyStr} (hne : b ≠ [])
    (hal : isAsciiAlpha (b.headD ' ') = true) (hall : b.all schemeChar = true) :
    pyLower b ≠ [] ∧ isAsciiAlpha ((pyLower b).headD ' ') = true ∧
    (pyLower b).all schemeChar = true ∧ pyLower (pyLower b) = pyLower b := by
  refine ⟨fun hc => hne ((pyLower_nil_iff b).mp hc), ?_, ?_, pyLower_idem b⟩
  · cases b with
    | nil => exact absurd rfl hne
    | cons x xs =>
        show isAsciiAlpha (pyLowerChar x) = true
        exact isAsciiAlpha_pyLower hal
  · rw [pyLower, List.all_map]
    rw [List.all_eq_true] at hall ⊢
    intro c hc
    exact schemeChar_pyLower (hall c hc)

theorem schemeOk_splitScheme (s : PyStr) : schemeOk (splitScheme s).1 := by
  rcases splitScheme_shape s with ⟨he, -⟩ | ⟨b, aft, h1, h2, h3, he, -⟩
  · rw [he]
    exact Or.inl rfl
  · rw [he]
    obtain ⟨p1, p2, p3, p4⟩ := pyLower_scheme_props h1 h2 h3
    exact Or.inr ⟨p1, p2, p3, p4⟩

theorem mem_splitScheme_snd {c : Char} {s : PyStr}
    (h : c ∈ (splitScheme s).2) : c ∈ s := by
  rcases splitScheme_shape s with ⟨he, -⟩ | ⟨b, aft, -, -, -, he, hdec⟩
  · rw [he] at h
    exact h
  · rw [he] at h
    rw [hdec]
    exact List.mem_append_right _ (List.mem_cons_of_mem _ h)

theorem splitNetloc_break (rest : PyStr) :
    ∀ c ∈ (splitNetloc rest).1, netlocBreak c = false := by
  intro c hc
  rw [splitNetloc] at hc
  have h2 := List.mem_takeWhile_imp hc
  simp only [decide_eq_true_eq] at h2
  exact bool_eq_false h2

theorem mem_splitNetloc_fst {c : Char} {rest : PyStr}
    (h : c ∈ (splitNetloc rest).1) : c ∈ rest := by
  rw [splitNetloc] at h
  exact List.Sublist.mem h (List.takeWhile_sublist _)

theorem mem_splitNetloc_snd {c : Char} {rest : PyStr}
    (h : c ∈ (splitNetloc rest).2) : c ∈ rest := by
  rw [splitNetloc] at h
  exact List.Sublist.mem h (List.dropWhile_sublist _)

theorem take_two_eq {l : List Char} {a b : Char} (h : l.take 2 = [a, b]) :
    ∃ t, l = a :: b :: t := by
  cases l with
  | nil => cases h
  | cons x xs =>
      cases xs with
      | nil =>
          rw [List.take_succ_cons, List.take_nil] at h
          simp at h
      | cons y ys =>
          rw [List.take_succ_cons, List.take_succ_cons, List.take_zero] at h
          have h1 := (List.cons.injEq .. ▸ h).1
          have h2 := (List.cons.injEq .. ▸ (List.cons.injEq .. ▸ h).2).1
          exact ⟨ys, by rw [h1, h2]⟩

theorem u0_head_gt (url : PyStr) (h : removeUnsafe (lstripC0 url) ≠ []) :
    0x20 < ((removeUnsafe (lstripC0 url)).headD ' ').toNat := by
  rcases dropWhile_shape (fun c => c.toNat ≤ 0x20) url with h1 | ⟨x, xs, h1, h2⟩
  · have h3 : lstripC0 url = [] := h1
    rw [h3] at h
    exact absurd rfl h
  · have h3 : lstripC0 url = x :: xs := h1
    simp only [decide_eq_false_iff_not] at h2
    have h4 : 0x20 < x.toNat := by omega
    rw [h3, removeUnsafe, List.filter_cons, if_pos (by
      simp only [decide_eq_true_eq]
      rintro (hc | hc | hc) <;> (subst hc; exact h2 (by decide)))]
    exact h4

theorem urlsplit_facts {url : PyStr} {r : SplitResult}
    (h : urlsplitE url = Except.ok r) :
    schemeOk r.scheme ∧ netlocOk r.netloc ∧
    '#' ∉ r.path ∧ '?' ∉ r.path ∧ (∀ c ∈ r.path, cleanChar c) ∧
    (r.netloc ≠ [] → r.path = [] ∨ r.path.headD ' ' = '/') ∧
    (noScheme r.path ∨ r.scheme ≠ [] ∨ r.netloc ≠ []) ∧
    (r.path ≠ [] → r.netloc = [] →
      0x20 < (r.path.headD ' ').toNat ∨ r.scheme ≠ []) := by
  rw [urlsplitE] at h
  simp only [] at h
  split at h
  · rename_i htake
    split at h
    · exact Except.noConfusion h
    rename_i hbr1
    split at h
    · exact Except.noConfusion h
    rename_i hbr2
    split at h
    · exact Except.noConfusion h
    rename_i hnfkc
    have h3 := Except.ok.inj h
    subst h3
    refine ⟨schemeOk_splitScheme _, ⟨splitNetloc_break _, hbr1, hbr2,
      bool_eq_false hnfkc, ?_⟩, ?_, ?_, ?_, ?_, ?_, ?_⟩
    · intro c hc
      exact removeUnsafe_not_bad
        (mem_splitScheme_snd (List.Sublist.mem
          (mem_splitNetloc_fst hc) (List.drop_sublist 2 _)))
    · exact fun hc => splitFirst_fst_not_mem '#' _ (mem_splitFirst_fst hc)
    · exact splitFirst_fst_not_mem '?' _
    · intro c hc
      exact removeUnsafe_not_bad
        (mem_splitScheme_snd (List.Sublist.mem
          (mem_splitNetloc_snd (mem_path_of_rest hc)) (List.drop_sublist 2 _)))
    · intro hne
      rcases dropWhile_shape (fun c => ¬netlocBreak c)
          (((splitScheme (removeUnsafe (lstripC0 url))).2).drop 2)
          with hsh | ⟨x, xs, hsh, hpx⟩
      · have hr1 : (splitNetloc (((splitScheme
            (removeUnsafe (lstripC0 url))).2).drop 2)).2 = [] := hsh
        rw [hr1]
        exact Or.inl rfl
      · have hr1 : (splitNetloc (((splitScheme
            (removeUnsafe (lstripC0 url))).2).drop 2)).2 = x :: xs := hsh
        rw [hr1]
        simp only [decide_eq_false_iff_not, not_not] at hpx
        rw [netlocBreak] at hpx
        simp only [decide_eq_true_eq] at hpx
        rcases hpx with rfl | rfl | rfl
        · rw [splitFirst_cons_ne _ (by decide), splitFirst_cons_ne _ (by decide)]
          exact Or.inr rfl
        · rw [splitFirst_cons_ne _ (by decide)]
          rw [show splitFirst '?' ('?' :: (splitFirst '#' xs).1)
            = ([], some (splitFirst '#' xs).1) from by rw [splitFirst, if_pos rfl]]
          exact Or.inl rfl
        · rw [show splitFirst '#' ('#' :: xs) = ([], some xs)
            from by rw [splitFirst, if_pos rfl]]
          exact Or.inl rfl
    · rcases dropWhile_shape (fun c => ¬netlocBreak c)
          (((splitScheme (removeUnsafe (lstripC0 url))).2).drop 2)
          with hsh | ⟨x, xs, hsh, hpx⟩
      · have hr1 : (splitNetloc (((splitScheme
            (removeUnsafe (lstripC0 url))).2).drop 2)).2 = [] := hsh
        rw [hr1]
        exact Or.inl (noScheme_none (show (':') ∉ ([] : PyStr) from by decide))
      · have hr1 : (splitNetloc (((splitScheme
            (removeUnsafe (lstripC0 url))).2).drop 2)).2 = x :: xs := hsh
        rw [hr1]
        simp only [decide_eq_false_iff_not, not_not] at hpx
        rw [netlocBreak] at hpx
        simp only [decide_eq_true_eq] at hpx
        rcases hpx with rfl | rfl | rfl
        · rw [splitFirst_cons_ne _ (by decide), splitFirst_cons_ne _ (by decide)]
          exact Or.inl (noScheme_head_nonalpha _ (by decide))
        · rw [splitFirst_cons_ne _ (by decide)]
          rw [show splitFirst '?' ('?' :: (splitFirst '#' xs).1)
            = ([], some (splitFirst '#' xs).1) from by rw [splitFirst, if_pos rfl]]
          exact Or.inl (noScheme_none (show (':') ∉ ([] : PyStr) from by decide))
        · rw [show splitFirst '#' ('#' :: xs) = ([], some xs)
            from by rw [splitFirst, if_pos rfl]]
          exact Or.inl (noScheme_none (show (':') ∉ ([] : PyStr) from by decide))
    · intro hne hnl
      rcases dropWhile_shape (fun c => ¬netlocBreak c)
          (((splitScheme (removeUnsafe (lstripC0 url))).2).drop 2)
          with hsh | ⟨x, xs, hsh, hpx⟩
      · have hr1 : (splitNetloc (((splitScheme
            (removeUnsafe (lstripC0 url))).2).drop 2)).2 = [] := hsh
        rw [hr1] at hne
        exact absurd rfl hne
      · have hr1 : (splitNetloc (((splitScheme
            (removeUnsafe (lstripC0 url))).2).drop 2)).2 = x :: xs := hsh
        rw [hr1] at hne ⊢
        simp only [decide_eq_false_iff_not, not_not] at hpx
        rw [netlocBreak] at hpx
        simp only [decide_eq_true_eq] at hpx
        rcases hpx with rfl | rfl | rfl
        · rw [splitFirst_cons_ne _ (by decide), splitFirst_cons_ne _ (by decide)]
          exact Or.inl (by
            show (0x20 : Nat) < Char.toNat '/'
            decide)
        · rw [splitFirst_cons_ne _ (by decide)] at hne
          rw [show splitFirst '?' ('?' :: (splitFirst '#' xs).1)
            = ([], some (splitFirst '#' xs).1)
              from by rw [splitFirst, if_pos rfl]] at hne
          exact absurd rfl hne
        · rw [show splitFirst '#' ('#' :: xs) = ([], some xs)
            from by rw [splitFirst, if_pos rfl]] at hne
          exact absurd rfl hne
  · rename_i htake
    have h3 := Except.ok.inj h
    subst h3
    refine ⟨schemeOk_splitScheme _, ⟨fun c hc => absurd hc (by simp),
      by simp, by simp, rfl, fun c hc => absurd hc (by simp)⟩,
      ?_, ?_, ?_, ?_, ?_, ?_⟩
    · exact fun hc => splitFirst_fst_not_mem '#' _ (mem_splitFirst_fst hc)
    · exact splitFirst_fst_not_mem '?' _
    · intro c hc
      exact removeUnsafe_not_bad (mem_splitScheme_snd (mem_path_of_rest hc))
    · intro hne
      exact absurd rfl hne
    · rcases splitScheme_shape (removeUnsafe (lstripC0 url))
          with ⟨he, hns⟩ | ⟨b, aft, hb1, hb2, hb3, he, hdec⟩
      · have hsnd : (splitScheme (removeUnsafe (lstripC0 url))).2
            = removeUnsafe (lstripC0 url) := by rw [he]
        rw [hsnd]
        obtain ⟨t1, hd1, -⟩ := splitFirst_decomp '#' (removeUnsafe (lstripC0 url))
        obtain ⟨t2, hd2, -⟩ :=
          splitFirst_decomp '?' (splitFirst '#' (removeUnsafe (lstripC0 url))).1
        have hns2 : noScheme ((splitFirst '?'
            (splitFirst '#' (removeUnsafe (lstripC0 url))).1).1 ++ (t2 ++ t1)) := by
          rw [← List.append_assoc, ← hd2, ← hd1]
          exact hns
        exact Or.inl ( noScheme_prefix hns2)
      · have hfst : (splitScheme (removeUnsafe (lstripC0 url))).1 = pyLower b := by
          rw [he]
        rw [hfst]
        refine Or.inr (Or.inl ?_)
        intro hc
        exact hb1 ((pyLower_nil_iff b).mp hc)
    · intro hne hnl
      rcases splitScheme_shape (removeUnsafe (lstripC0 url))
          with ⟨he, hns⟩ | ⟨b, aft, hb1, hb2, hb3, he, hdec⟩
      · have hsnd : (splitScheme (removeUnsafe (lstripC0 url))).2
            = removeUnsafe (lstripC0 url) := by rw [he]
        rw [hsnd] at hne ⊢
        obtain ⟨t1, hd1, -⟩ := splitFirst_decomp '#' (removeUnsafe (lstripC0 url))
        obtain ⟨t2, hd2, -⟩ :=
          splitFirst_decomp '?' (splitFirst '#' (removeUnsafe (lstripC0 url))).1
        have hne2 : (splitFirst '?'
            (splitFirst '#' (removeUnsafe (lstripC0 url))).1).1 ≠ [] := hne
        have hu0 : removeUnsafe (lstripC0 url)
            = (splitFirst '?' (splitFirst '#' (removeUnsafe (lstripC0 url))).1).1
              ++ (t2 ++ t1) := by
          rw [← List.append_assoc, ← hd2, ← hd1]
        have hne0 : removeUnsafe (lstripC0 url) ≠ [] := by
          rw [hu0]
          intro hc
          exact hne2 (List.append_eq_nil.mp hc).1
        have hh := u0_head_gt url hne0
        rw [hu0, head_of_prefix ' ' hne2] at hh
        exact Or.inl hh
      · have hfst : (splitScheme (removeUnsafe (lstripC0 url))).1 = pyLower b := by
          rw [he]
        rw [hfst]
        refine Or.inr ?_
        intro hc
        exact hb1 ((pyLower_nil_iff b).mp hc)

/-! Lower-casing preserves every `urlsplit` netloc check. -/

theorem netlocBreak_pyLower {c : Char} (h : netlocBreak c = false) :
    netlocBreak (pyLowerChar c) = false := by
  cases hq : netlocBreak (pyLowerChar c)
  · rfl
  · exfalso
    rw [netlocBreak] at hq
    simp only [decide_eq_true_eq] at hq
    rcases hq with hc | hc | hc <;>
      (rw [pyLowerChar_eq_fixed (by decide) (by decide)] at hc
       rw [hc] at h
       exact absurd h (by decide))

theorem nat_notin_offenders {n : Nat} (h : n ≤ 0x7B) :
    (decide (n ∈ ([0x2047, 0x2048, 0x2049, 0x2100, 0x2101, 0x2105, 0x2106,
      0x2A74, 0xFE13, 0xFE16, 0xFE55, 0xFE56, 0xFE5F, 0xFE6B, 0xFF03,
      0xFF0F, 0xFF1A, 0xFF1F, 0xFF20] : List Nat))) = false := by
  rw [decide_eq_false_iff_not]
  intro hm
  simp only [List.mem_cons, List.not_mem_nil, or_false] at hm
  rcases hm with h1 | h1 | h1 | h1 | h1 | h1 | h1 | h1 | h1 | h1 | h1 | h1
    | h1 | h1 | h1 | h1 | h1 | h1 | h1 <;> omega

theorem nfkcOffender_pyLower (c : Char) :
    nfkcOffender (pyLowerChar c) = nfkcOffender c := by
  rw [nfkcOffender, nfkcOffender, pyLowerChar_toNat]
  by_cases h : 65 ≤ c.toNat ∧ c.toNat ≤ 90
  · rw [if_pos h, nat_notin_offenders (by omega), nat_notin_offenders (by omega)]
  · rw [if_neg h]

theorem any_nfkc_pyLower (l : PyStr) :
    (pyLower l).any nfkcOffender = l.any nfkcOffender := by
  rw [pyLower, List.any_map]
  induction l with
  | nil => rfl
  | cons x xs ih =>
      rw [List.any_cons, List.any_cons, ih,
        show (nfkcOffender ∘ pyLowerChar) x = nfkcOffender (pyLowerChar x) from rfl,
        nfkcOffender_pyLower]

theorem splitFirst_pyLower {k : Char}
    (h1 : ¬(65 ≤ k.toNat ∧ k.toNat ≤ 90))
    (h2 : ¬(97 ≤ k.toNat ∧ k.toNat ≤ 122)) :
    ∀ (s : PyStr), splitFirst k (pyLower s)
      = (pyLower (splitFirst k s).1, ((splitFirst k s).2).map pyLower) := by
  intro s
  induction s with
  | nil => rfl
  | cons x xs ih =>
      have hmap : pyLower (x :: xs) = pyLowerChar x :: pyLower xs := rfl
      by_cases hx : x = k
      · subst hx
        have hpk : pyLowerChar x = x := (pyLowerChar_eq_fixed h1 h2).mpr rfl
        rw [hmap, hpk, splitFirst, if_pos rfl, splitFirst, if_pos rfl]
        rfl
      · have hpx : pyLowerChar x ≠ k :=
          fun hc => hx ((pyLowerChar_eq_fixed h1 h2).mp hc)
        rw [hmap, splitFirst, if_neg hpx, splitFirst, if_neg hx, ih]
        rfl

theorem bracketPart_pyLower (nl : PyStr) :
    bracketPart (pyLower nl) = pyLower (bracketPart nl) := by
  rcases hsp : splitFirst '[' nl with ⟨a, o⟩
  rw [bracketPart, bracketPart, splitFirst_pyLower (by decide) (by decide) nl, hsp]
  cases o with
  | none => rfl
  | some aft =>
      show (splitFirst ']' (pyLower aft)).1 = pyLower (splitFirst ']' aft).1
      rw [splitFirst_pyLower (by decide) (by decide) aft]

theorem isHexDigit_pyLowerChar (c : Char) :
    isHexDigit (pyLowerChar c) = isHexDigit c := by
  rw [isHexDigit, isHexDigit, decide_eq_decide]
  have ht := pyLowerChar_toNat c
  constructor
  · intro hp
    have hp2 : (48 ≤ (pyLowerChar c).toNat ∧ (pyLowerChar c).toNat ≤ 57) ∨
        (97 ≤ (pyLowerChar c).toNat ∧ (pyLowerChar c).toNat ≤ 102) ∨
        (65 ≤ (pyLowerChar c).toNat ∧ (pyLowerChar c).toNat ≤ 70) := by
      rcases hp with hh | hh | hh
      · exact Or.inl ⟨hh.1, hh.2⟩
      · exact Or.inr (Or.inl ⟨hh.1, hh.2⟩)
      · exact Or.inr (Or.inr ⟨hh.1, hh.2⟩)
    have hc2 : (48 ≤ c.toNat ∧ c.toNat ≤ 57) ∨ (97 ≤ c.toNat ∧ c.toNat ≤ 102) ∨
        (65 ≤ c.toNat ∧ c.toNat ≤ 70) := by
      rw [ht] at hp2
      rcases hp2 with hh | hh | hh <;> (split_ifs at hh <;> omega)
    rcases hc2 with hh | hh | hh
    · exact Or.inl ⟨hh.1, hh.2⟩
    · exact Or.inr (Or.inl ⟨hh.1, hh.2⟩)
    · exact Or.inr (Or.inr ⟨hh.1, hh.2⟩)
  · intro hp
    have hp2 : (48 ≤ c.toNat ∧ c.toNat ≤ 57) ∨ (97 ≤ c.toNat ∧ c.toNat ≤ 102) ∨
        (65 ≤ c.toNat ∧ c.toNat ≤ 70) := by
      rcases hp with hh | hh | hh
      · exact Or.inl ⟨hh.1, hh.2⟩
      · exact Or.inr (Or.inl ⟨hh.1, hh.2⟩)
      · exact Or.inr (Or.inr ⟨hh.1, hh.2⟩)
    have hc2 : (48 ≤ (pyLowerChar c).toNat ∧ (pyLowerChar c).toNat ≤ 57) ∨
        (97 ≤ (pyLowerChar c).toNat ∧ (pyLowerChar c).toNat ≤ 102) ∨
        (65 ≤ (pyLowerChar c).toNat ∧ (pyLowerChar c).toNat ≤ 70) := by
      rw [ht]
      rcases hp2 with hh | hh | hh <;> (split_ifs <;> omega)
    rcases hc2 with hh | hh | hh
    · exact Or.inl ⟨hh.1, hh.2⟩
    · exact Or.inr (Or.inl ⟨hh.1, hh.2⟩)
    · exact Or.inr (Or.inr ⟨hh.1, hh.2⟩)

theorem isHextet_pyLower (p : PyStr) : isHextet (pyLower p) = isHextet p := by
  rw [isHextet, isHextet, decide_eq_decide]
  rw [pyLower, List.length_map, List.all_map]
  constructor
  · rintro ⟨hn1, hn2, hn3⟩
    refine ⟨fun hc => hn1 (by rw [hc]; rfl), hn2, ?_⟩
    rw [List.all_eq_true] at hn3 ⊢
    intro x hx
    have hh : isHexDigit (pyLowerChar x) = true := hn3 x hx
    rw [← isHexDigit_pyLowerChar x]
    exact hh
  · rintro ⟨hn1, hn2, hn3⟩
    refine ⟨fun hc => hn1 (List.map_eq_nil_iff.mp hc), hn2, ?_⟩
    rw [List.all_eq_true] at hn3 ⊢
    intro x hx
    show isHexDigit (pyLowerChar x) = true
    rw [isHexDigit_pyLowerChar]
    exact hn3 x hx

theorem all_pyLower_hextet (l : List PyStr) :
    (l.map pyLower).all isHextet = l.all isHextet := by
  induction l with
  | nil => rfl
  | cons x xs ih =>
      rw [List.map_cons, List.all_cons, List.all_cons, ih, isHextet_pyLower]

theorem decide_pyLower_nil (p : PyStr) :
    (decide (pyLower p = [])) = (decide (p = [])) := by
  cases p <;> rfl

theorem headD_map_pyLower (l : List PyStr) :
    (l.map pyLower).headD [] = pyLower (l.headD []) := by
  cases l <;> rfl

theorem getLastD_map_pyLower :
    ∀ (l : List PyStr) (d : PyStr),
      (l.map pyLower).getLastD (pyLower d) = pyLower (l.getLastD d) := by
  intro l
  induction l with
  | nil => intro d; rfl
  | cons a t ih =>
      intro d
      rw [List.map_cons, List.getLastD_cons, List.getLastD_cons, ih]

theorem getLastD_map_pyLower_nil (l : List PyStr) :
    (l.map pyLower).getLastD [] = pyLower (l.getLastD []) :=
  getLastD_map_pyLower l []

theorem indexOf_nil_map_pyLower :
    ∀ (l : List PyStr), (l.map pyLower).indexOf [] = l.indexOf [] := by
  intro l
  induction l with
  | nil => rfl
  | cons p ps ih =>
      rw [List.map_cons, List.indexOf_cons, List.indexOf_cons]
      have hb : (pyLower p == ([] : PyStr)) = (p == ([] : PyStr)) := by
        cases p <;> rfl
      rw [hb, ih]

theorem pySplitChar_cons_ne {x c : Char} (h : x ≠ c) (rest : PyStr) :
    ∃ t ts, pySplitChar c (x :: rest) = (x :: t) :: ts := by
  rw [pySplitChar, if_neg h]
  rcases hps : pySplitChar c rest with _ | ⟨t, ts⟩
  · exact ⟨[], [], rfl⟩
  · exact ⟨t, ts, rfl⟩

theorem pySplitChar_pyLower {k : Char}
    (h1 : ¬(65 ≤ k.toNat ∧ k.toNat ≤ 90))
    (h2 : ¬(97 ≤ k.toNat ∧ k.toNat ≤ 122)) :
    ∀ (s : PyStr), pySplitChar k (pyLower s) = (pySplitChar k s).map pyLower := by
  intro s
  induction s with
  | nil => rfl
  | cons x xs ih =>
      have hmap : pyLower (x :: xs) = pyLowerChar x :: pyLower xs := rfl
      by_cases hx : x = k
      · subst hx
        have hpk : pyLowerChar x = x := (pyLowerChar_eq_fixed h1 h2).mpr rfl
        rw [hmap, hpk, pySplitChar, if_pos rfl, pySplitChar, if_pos rfl, ih,
          List.map_cons]
        rfl
      · have hpx : pyLowerChar x ≠ k :=
          fun hc => hx ((pyLowerChar_eq_fixed h1 h2).mp hc)
        rw [hmap, pySplitChar, if_neg hpx, pySplitChar, if_neg hx, ih]
        rcases hps : pySplitChar k xs with _ | ⟨t, ts⟩
        · rfl
        · rfl

theorem mem_pySplitChar {ch sep : Char} :
    ∀ {s : PyStr}, ch ∈ s → ch = sep ∨ ∃ p ∈ pySplitChar sep s, ch ∈ p := by
  intro s
  induction s with
  | nil => intro h; cases h
  | cons x rest ih =>
      intro h
      by_cases hx : x = sep
      · rcases List.mem_cons.mp h with heq | h2
        · exact Or.inl (heq.trans hx)
        · rcases ih h2 with h3 | ⟨p, hp, hcp⟩
          · exact Or.inl h3
          · refine Or.inr ⟨p, ?_, hcp⟩
            rw [pySplitChar, if_pos hx]
            exact List.mem_cons_of_mem _ hp
      · rcases List.mem_cons.mp h with heq | h2
        · rcases hps : pySplitChar sep rest with _ | ⟨t, ts⟩
          · refine Or.inr ⟨[x], ?_, ?_⟩
            · rw [pySplitChar, if_neg hx, hps]
              exact List.mem_singleton.mpr rfl
            · rw [heq]
              exact List.mem_singleton.mpr rfl
          · refine Or.inr ⟨x :: t, ?_, ?_⟩
            · rw [pySplitChar, if_neg hx, hps]
              exact List.mem_cons_self _ _
            · rw [heq]
              exact List.mem_cons_self _ _
        · rcases ih h2 with h3 | ⟨p, hp, hcp⟩
          · exact Or.inl h3
          · rcases hps : pySplitChar sep rest with _ | ⟨t, ts⟩
            · rw [hps] at hp
              cases hp
            · rw [hps] at hp
              rcases List.mem_cons.mp hp with heq2 | h4
              · refine Or.inr ⟨x :: t, ?_, ?_⟩
                · rw [pySplitChar, if_neg hx, hps]
                  exact List.mem_cons_self _ _
                · rw [heq2] at hcp
                  exact List.mem_cons_of_mem _ hcp
              · refine Or.inr ⟨p, ?_, hcp⟩
                rw [pySplitChar, if_neg hx, hps]
                exact List.mem_cons_of_mem _ h4

theorem pyLower_fix_of {s : PyStr}
    (h : ∀ c ∈ s, ¬(65 ≤ c.toNat ∧ c.toNat ≤ 90)) : pyLower s = s := by
  induction s with
  | nil => rfl
  | cons x xs ih =>
      have hmap : pyLower (x :: xs) = pyLowerChar x :: pyLower xs := rfl
      rw [hmap, pyLowerChar_fix (fun hc =>
          h x (List.mem_cons_self _ _) ⟨hc.1, hc.2⟩),
        ih (fun c hc => h c (List.mem_cons_of_mem _ hc))]

theorem validIPv4_fix {s : PyStr} (h : validIPv4 s = true) : pyLower s = s := by
  rw [validIPv4] at h
  simp only [decide_eq_true_eq] at h
  obtain ⟨hne, hlen, hall⟩ := h
  refine pyLower_fix_of ?_
  intro c hc
  rcases @mem_pySplitChar c (Char.ofNat 46) s hc with heq | ⟨p, hp, hcp⟩
  · rw [heq]
    decide
  · have ho := List.all_eq_true.mp hall p hp
    rw [isOctet] at ho
    simp only [decide_eq_true_eq] at ho
    have hd := List.all_eq_true.mp ho.2.1 c hcp
    rw [isDecDigit] at hd
    simp only [decide_eq_true_eq] at hd
    have hd2 : 48 ≤ c.toNat ∧ c.toNat ≤ 57 := hd
    omega

/-! `_check_bracketed_host` under lower-casing. -/

theorem pyLower_ne_nil_iff (s : PyStr) : pyLower s ≠ [] ↔ s ≠ [] :=
  not_congr (pyLower_nil_iff s)

theorem v6parts_pyLower {parts : List PyStr} (h : v6parts parts = true) :
    v6parts (parts.map pyLower) = true := by
  have hI : ((parts.map pyLower).drop 1).dropLast
      = ((parts.drop 1).dropLast).map pyLower := by
    rw [← List.map_drop, ← List.map_dropLast]
  have hF : List.filter (fun p => decide (p = []))
        (((parts.drop 1).dropLast).map pyLower)
      = (List.filter (fun p => decide (p = []))
          ((parts.drop 1).dropLast)).map pyLower := by
    rw [List.filter_map]
    exact congrArg (List.map pyLower)
      (List.filter_congr (fun a _ => decide_pyLower_nil a))
  rw [v6parts] at h ⊢
  simp only [decide_eq_true_eq] at h ⊢
  obtain ⟨hlen, h2⟩ := h
  refine ⟨by rw [List.length_map]; exact hlen, ?_⟩
  rw [hI, hF, List.length_map, List.length_map, indexOf_nil_map_pyLower,
    headD_map_pyLower, getLastD_map_pyLower_nil]
  simp only [pyLower_nil_iff, pyLower_ne_nil_iff, ← List.map_take,
    ← List.map_drop, all_pyLower_hextet]
  exact h2

theorem v6parts_bad_head {p0 : PyStr} {ps : List PyStr}
    (h0 : isHextet p0 = false) (hne : p0 ≠ []) : v6parts (p0 :: ps) = false := by
  apply bool_eq_false
  intro h
  rw [v6parts] at h
  simp only [decide_eq_true_eq] at h
  obtain ⟨-, h2⟩ := h
  split at h2
  · exact Bool.noConfusion h2
  · split at h2
    · simp only [decide_eq_true_eq] at h2
      obtain ⟨-, -, -, htake, -⟩ := h2
      rw [if_neg (show ¬(p0 :: ps).headD [] = [] from hne)] at htake
      rw [Nat.add_comm 1 (List.indexOf [] (List.drop 1 (p0 :: ps)).dropLast),
        List.take_succ_cons] at htake
      have hx := List.all_eq_true.mp htake p0 (List.mem_cons_self _ _)
      rw [h0] at hx
      exact Bool.noConfusion hx
    · simp only [decide_eq_true_eq] at h2
      obtain ⟨-, -, -, hall⟩ := h2
      have hx := List.all_eq_true.mp hall p0 (List.mem_cons_self _ _)
      rw [h0] at hx
      exact Bool.noConfusion hx

theorem v6core_pyLower {addr : PyStr} (h : v6core addr = true) :
    v6core (pyLower addr) = true := by
  rw [v6core] at h ⊢
  simp only [decide_eq_true_eq] at h ⊢
  obtain ⟨h1, h2, h3⟩ := h
  rw [pySplitChar_pyLower (by decide) (by decide) addr]
  refine ⟨fun hc => h1 ((pyLower_nil_iff addr).mp hc), ?_, ?_⟩
  · rw [List.length_map]
    exact h2
  · have hL : ((pySplitChar ':' addr).map pyLower).getLastD []
        = pyLower ((pySplitChar ':' addr).getLastD []) := getLastD_map_pyLower_nil _
    by_cases hdot : '.' ∈ (pySplitChar ':' addr).getLastD []
    · rw [if_pos hdot] at h3
      rw [if_pos (show '.' ∈ ((pySplitChar ':' addr).map pyLower).getLastD []
          from by
        rw [hL]
        exact (pyLower_mem_fixed (by decide) (by decide)).mpr hdot)]
      obtain ⟨h4, h5⟩ := h3
      constructor
      · rw [hL, validIPv4_fix h4]
        exact h4
      · rw [← List.map_dropLast,
          show ([['0'], ['0']] : List PyStr)
            = ([['0'], ['0']] : List PyStr).map pyLower from rfl,
          ← List.map_append]
        exact v6parts_pyLower h5
    · rw [if_neg hdot] at h3
      rw [if_neg (show ¬('.' ∈ ((pySplitChar ':' addr).map pyLower).getLastD [])
          from by
        rw [hL]
        exact fun hc => hdot ((pyLower_mem_fixed (by decide) (by decide)).mp hc))]
      exact v6parts_pyLower h3

theorem v6core_upperV (a : PyStr) : v6core ('V' :: a) = false := by
  apply bool_eq_false
  intro h
  rw [v6core] at h
  simp only [decide_eq_true_eq] at h
  obtain ⟨-, hlen, h3⟩ := h
  obtain ⟨t, ts, hps⟩ := pySplitChar_cons_ne (show ('V' : Char) ≠ ':' from by decide) a
  rw [hps] at hlen h3
  have hhex : isHextet ('V' :: t) = false := by
    apply bool_eq_false
    intro hc
    rw [isHextet] at hc
    simp only [decide_eq_true_eq] at hc
    have hv := List.all_eq_true.mp hc.2.2 'V' (List.mem_cons_self _ _)
    exact absurd hv (by decide)
  have hts : ts ≠ [] := by
    intro hc
    rw [hc] at hlen
    simp at hlen
  split at h3
  · obtain ⟨-, hv6⟩ := h3
    rw [List.dropLast_cons_of_ne_nil hts, List.cons_append,
      v6parts_bad_head hhex (List.cons_ne_nil _ _)] at hv6
    exact Bool.noConfusion hv6
  · rw [v6parts_bad_head hhex (List.cons_ne_nil _ _)] at h3
    exact Bool.noConfusion h3

theorem validIPv6_pyLower {h0 : PyStr} (h : validIPv6 h0 = true) :
    validIPv6 (pyLower h0) = true := by
  rw [validIPv6] at h ⊢
  rw [splitFirst_pyLower (by decide) (by decide) h0]
  rcases hsp : splitFirst '%' h0 with ⟨a, o⟩
  rw [hsp] at h
  cases o with
  | none =>
      have h2 : v6core a = true := h
      exact v6core_pyLower h2
  | some sc =>
      have h2 : decide (sc ≠ [] ∧ '%' ∉ sc ∧ v6core a = true) = true := h
      simp only [decide_eq_true_eq] at h2
      obtain ⟨hs1, hs2, hs3⟩ := h2
      show decide (pyLower sc ≠ [] ∧ '%' ∉ pyLower sc
        ∧ v6core (pyLower a) = true) = true
      simp only [decide_eq_true_eq]
      exact ⟨fun hc => hs1 ((pyLower_nil_iff sc).mp hc),
        fun hc => hs2 ((pyLower_mem_fixed (by decide) (by decide)).mp hc),
        v6core_pyLower hs3⟩

theorem validIPv6_upperV (rest : PyStr) : validIPv6 ('V' :: rest) = false := by
  apply bool_eq_false
  intro h
  rw [validIPv6] at h
  rw [splitFirst_cons_ne rest (by decide)] at h
  rcases hsp : (splitFirst '%' rest).2 with _ | sc
  · rw [hsp] at h
    have h2 : v6core ('V' :: (splitFirst '%' rest).1) = true := h
    rw [v6core_upperV] at h2
    exact Bool.noConfusion h2
  · rw [hsp] at h
    have h2 : decide (sc ≠ [] ∧ '%' ∉ sc
        ∧ v6core ('V' :: (splitFirst '%' rest).1) = true) = true := h
    simp only [decide_eq_true_eq] at h2
    have h3 := h2.2.2
    rw [v6core_upperV] at h3
    exact Bool.noConfusion h3

theorem bracketedHostOk_v_eq (rest : PyStr) : bracketedHostOk ('v' :: rest)
    = match splitFirst '.' rest with
      | (hexs, some tail) =>
          decide (hexs ≠ [] ∧ hexs.all isHexDigit = true ∧ tail ≠ [])
      | (_, none) => false := rfl

theorem bracketedHostOk_not_v {x : Char} (rest : PyStr) (hx : x ≠ 'v') :
    bracketedHostOk (x :: rest) = validIPv6 (x :: rest) := by
  rw [bracketedHostOk.eq_def]
  split
  · rename_i r2 heq
    exact absurd (List.cons.injEq .. ▸ heq).1 hx
  · rfl

theorem bracketedHostOk_pyLower {h0 : PyStr} (h : bracketedHostOk h0 = true) :
    bracketedHostOk (pyLower h0) = true := by
  cases h0 with
  | nil => exact h
  | cons x rest =>
      have hmap : pyLower (x :: rest) = pyLowerChar x :: pyLower rest := rfl
      by_cases hx : x = 'v'
      · subst hx
        have hpv : pyLowerChar 'v' = 'v' := by decide
        rw [hmap, hpv, bracketedHostOk_v_eq,
          splitFirst_pyLower (by decide) (by decide) rest]
        rw [bracketedHostOk_v_eq] at h
        rcases hsp : splitFirst '.' rest with ⟨hexs, o⟩
        rw [hsp] at h
        cases o with
        | none =>
            have h2 : (false : Bool) = true := h
            exact Bool.noConfusion h2
        | some tail =>
            have h2 : decide (hexs ≠ [] ∧ hexs.all isHexDigit = true
              ∧ tail ≠ []) = true := h
            simp only [decide_eq_true_eq] at h2
            obtain ⟨hh1, hh2, hh3⟩ := h2
            show decide (pyLower hexs ≠ [] ∧ (pyLower hexs).all isHexDigit = true
              ∧ pyLower tail ≠ []) = true
            simp only [decide_eq_true_eq]
            refine ⟨fun hc => hh1 ((pyLower_nil_iff hexs).mp hc), ?_,
              fun hc => hh3 ((pyLower_nil_iff tail).mp hc)⟩
            rw [pyLower, List.all_map]
            rw [List.all_eq_true] at hh2 ⊢
            intro cc hcc
            show isHexDigit (pyLowerChar cc) = true
            rw [isHexDigit_pyLowerChar]
            exact hh2 cc hcc
      · rw [hmap]
        by_cases hxV : x = 'V'
        · subst hxV
          rw [bracketedHostOk_not_v rest (by decide)] at h
          rw [validIPv6_upperV] at h
          exact Bool.noConfusion h
        · have hnv : pyLowerChar x ≠ 'v' := by
            intro hc
            have ht := pyLowerChar_toNat x
            rw [hc] at ht
            have ht2 : (118 : Nat)
                = if 65 ≤ x.toNat ∧ x.toNat ≤ 90 then x.toNat + 32
                  else x.toNat := ht
            by_cases hcase : 65 ≤ x.toNat ∧ x.toNat ≤ 90
            · rw [if_pos hcase] at ht2
              refine hxV ?_
              rw [charEq_iff]
              show x.toNat = 86
              omega
            · rw [if_neg hcase] at ht2
              refine hx ?_
              rw [charEq_iff]
              show x.toNat = 118
              omega
          rw [bracketedHostOk_not_v (pyLower rest) hnv]
          rw [bracketedHostOk_not_v rest hx] at h
          have hv := validIPv6_pyLower h
          rw [hmap] at hv
          exact hv

theorem netlocOk_pyLower {nl : PyStr} (h : netlocOk nl) : netlocOk (pyLower nl) := by
  obtain ⟨h1, h2, h3, h4, h5⟩ := h
  have hmL : ('[' ∈ pyLower nl) ↔ ('[' ∈ nl) :=
    pyLower_mem_fixed (by decide) (by decide)
  have hmR : (']' ∈ pyLower nl) ↔ (']' ∈ nl) :=
    pyLower_mem_fixed (by decide) (by decide)
  refine ⟨?_, ?_, ?_, ?_, ?_⟩
  · intro c hc
    rw [pyLower, List.mem_map] at hc
    obtain ⟨c0, hc0, rfl⟩ := hc
    exact netlocBreak_pyLower (h1 c0 hc0)
  · intro hcon
    refine h2 ?_
    rcases hcon with ⟨ha, hb⟩ | ⟨ha, hb⟩
    · exact Or.inl ⟨hmL.mp ha, fun hc => hb (hmR.mpr hc)⟩
    · exact Or.inr ⟨hmR.mp ha, fun hc => hb (hmL.mpr hc)⟩
  · intro hcon
    obtain ⟨ha, hb, hc⟩ := hcon
    refine h3 ⟨hmL.mp ha, hmR.mp hb, ?_⟩
    intro hok
    refine hc ?_
    rw [bracketPart_pyLower]
    exact bracketedHostOk_pyLower hok
  · rw [any_nfkc_pyLower]
    exact h4
  · intro c hc
    rw [pyLower, List.mem_map] at hc
    obtain ⟨c0, hc0, rfl⟩ := hc
    have hcl := h5 c0 hc0
    intro hbad
    refine hcl ?_
    rcases hbad with hb | hb | hb <;>
      rw [pyLowerChar_eq_fixed (by decide) (by decide)] at hb
    · exact Or.inl hb
    · exact Or.inr (Or.inl hb)
    · exact Or.inr (Or.inr hb)

/-! Slash collapsing preserves scheme-freedom and a `;`-free last
segment; `_splitparams` is a no-op on such paths. -/

theorem mem_collapse_ne {c : Char} (hc : c ≠ '/') :
    ∀ (b : Bool) (s : PyStr), c ∈ s → c ∈ collapseAux b s := by
  intro b s
  induction s generalizing b with
  | nil => intro h; cases h
  | cons x xs ih =>
      intro h
      rw [collapseAux]
      by_cases hx : x = '/'
      · rw [if_pos hx]
        rcases List.mem_cons.mp h with heq | h2
        · exact absurd (heq.trans hx) hc
        · cases b
          · simp only [Bool.false_eq_true, if_false]
            exact List.mem_cons_of_mem _ (ih true h2)
          · simp only [if_true]
            exact ih true h2
      · rw [if_neg hx]
        rcases List.mem_cons.mp h with heq | h2
        · rw [heq]
          exact List.mem_cons_self _ _
        · exact List.mem_cons_of_mem _ (ih false h2)

theorem mem_collapse_false {c : Char} :
    ∀ {s : PyStr}, c ∈ s → c ∈ collapseAux false s := by
  intro s
  by_cases hc : c = '/'
  · subst hc
    induction s with
    | nil => intro h; cases h
    | cons x xs ih =>
        intro h
        rw [collapseAux]
        by_cases hx : x = '/'
        · rw [if_pos hx]
          simp only [Bool.false_eq_true, if_false]
          exact List.mem_cons_self _ _
        · rw [if_neg hx]
          rcases List.mem_cons.mp h with heq | h2
          · exact absurd heq.symm hx
          · exact List.mem_cons_of_mem _ (ih h2)
  · intro h
    exact mem_collapse_ne hc false s h

theorem collapse_colon_cons (b : Bool) (t : PyStr) :
    collapseAux b (':' :: t) = ':' :: collapseAux false t := by
  rw [collapseAux, if_neg (by decide)]

theorem noScheme_collapse {s : PyStr} (h : noScheme s) :
    noScheme (collapseAux false s) := by
  by_cases hmem : ':' ∈ collapseAux false s
  · rcases hsp : splitFirst ':' s with ⟨a, o⟩
    cases o with
    | none =>
        obtain ⟨he, hn⟩ := splitFirst_eq_none hsp
        exact absurd (collapse_subset hmem) (he ▸ hn)
    | some b =>
        obtain ⟨hdec, hna⟩ := splitFirst_eq_some hsp
        rw [noScheme, hsp] at h
        have hns : ¬(a ≠ [] ∧ isAsciiAlpha (a.headD ' ') = true
            ∧ a.all schemeChar = true) := h
        have hcoll : collapseAux false s
            = collapseAux false a ++ ':' :: collapseAux false b := by
          rw [hdec, collapse_append, collapse_colon_cons]
        have hnA : ':' ∉ collapseAux false a :=
          fun hmem2 => hna (collapse_subset hmem2)
        have hsp2 : splitFirst ':' (collapseAux false s)
            = (collapseAux false a, some (collapseAux false b)) := by
          rw [hcoll]
          exact splitFirst_append _ hnA
        refine noScheme_of_cond hsp2 ?_
        rintro ⟨hA1, hA2, hA3⟩
        refine hns ⟨?_, ?_, ?_⟩
        · intro hc
          rw [hc] at hA1
          exact hA1 rfl
        · rw [← collapse_head a ' ']
          exact hA2
        · rw [List.all_eq_true] at hA3 ⊢
          intro c hcm
          exact hA3 c (mem_collapse_false hcm)
  · exact noScheme_none hmem

theorem splitLast_not_mem {c : Char} :
    ∀ {s : PyStr}, c ∉ s → splitLast c s = none := by
  intro s
  induction s with
  | nil => intro _; rfl
  | cons x xs ih =>
      intro h
      simp only [List.mem_cons, not_or] at h
      rw [splitLast, ih h.2]
      show (if x = c then some (([] : PyStr), xs) else none) = none
      rw [if_neg (fun hx : x = c => h.1 hx.symm)]

theorem lastSegNoSemi_of_not_mem {s : PyStr} (h : ';' ∉ s) : lastSegNoSemi s := by
  rcases hsl : splitLast '/' s with _ | ⟨a, b⟩
  · rw [lastSegNoSemi, hsl]
    exact h
  · rw [lastSegNoSemi, hsl]
    obtain ⟨hdec, -⟩ := splitLast_eq_some hsl
    intro hc
    exact h (hdec ▸ List.mem_append_right _ (List.mem_cons_of_mem _ hc))

theorem splitParams_noop {s : PyStr} (h : lastSegNoSemi s) :
    splitParams s = (s, []) := by
  rcases hsl : splitLast '/' s with _ | ⟨a, b⟩
  · have h2 : ';' ∉ s := by
      rw [lastSegNoSemi, hsl] at h
      exact h
    rw [splitParams, hsl, splitFirst_not_mem h2]
  · have h2 : ';' ∉ b := by
      rw [lastSegNoSemi, hsl] at h
      exact h
    rw [splitParams, hsl]
    show (match splitFirst ';' b with
      | (v, some p) => (a ++ '/' :: v, p)
      | (_, none) => (s, [])) = (s, [])
    rw [splitFirst_not_mem h2]

theorem splitParams_fst_clean (s : PyStr) : lastSegNoSemi (splitParams s).1 := by
  rcases hsl : splitLast '/' s with _ | ⟨a, b⟩
  · rcases hsf : splitFirst ';' s with ⟨v, o⟩
    cases o with
    | none =>
        have heq : splitParams s = (s, []) := by
          rw [splitParams, hsl, hsf]
        rw [heq]
        show lastSegNoSemi s
        refine lastSegNoSemi_of_not_mem ?_
        obtain ⟨he, hn⟩ := splitFirst_eq_none hsf
        exact he ▸ hn
    | some p =>
        have heq : splitParams s = (v, p) := by
          rw [splitParams, hsl, hsf]
        rw [heq]
        show lastSegNoSemi v
        obtain ⟨hdec, hnv⟩ := splitFirst_eq_some hsf
        have hslv : splitLast '/' v = none := by
          refine splitLast_not_mem ?_
          intro hc
          exact (splitLast_eq_none hsl)
            (hdec ▸ List.mem_append_left _ hc)
        rw [lastSegNoSemi, hslv]
        exact hnv
  · obtain ⟨hdec, hnb⟩ := splitLast_eq_some hsl
    rcases hsf : splitFirst ';' b with ⟨v, o⟩
    cases o with
    | none =>
        have heq : splitParams s = (s, []) := by
          rw [splitParams, hsl]
          show (match splitFirst ';' b with
            | (v, some p) => (a ++ '/' :: v, p)
            | (_, none) => (s, [])) = (s, [])
          rw [hsf]
        rw [heq]
        show lastSegNoSemi s
        obtain ⟨he, hn⟩ := splitFirst_eq_none hsf
        rw [lastSegNoSemi, hsl]
        exact he ▸ hn
    | some p =>
        have heq : splitParams s = (a ++ '/' :: v, p) := by
          rw [splitParams, hsl]
          show (match splitFirst ';' b with
            | (v, some p) => (a ++ '/' :: v, p)
            | (_, none) => (s, [])) = (a ++ '/' :: v, p)
          rw [hsf]
        rw [heq]
        show lastSegNoSemi (a ++ '/' :: v)
        obtain ⟨hdecb, hnv⟩ := splitFirst_eq_some hsf
        have hnbv : '/' ∉ v :=
          fun hc => hnb (hdecb ▸ List.mem_append_left _ hc)
        have hsl2 : splitLast '/' (a ++ '/' :: v) = some (a, v) :=
          splitLast_append a hnbv
        rw [lastSegNoSemi, hsl2]
        exact hnv

theorem lastSegNoSemi_collapse {s : PyStr} (h : lastSegNoSemi s) :
    lastSegNoSemi (collapseAux false s) := by
  rcases hsl : splitLast '/' s with _ | ⟨a, b⟩
  · rw [collapse_noslash (splitLast_eq_none hsl) false]
    exact h
  · obtain ⟨hdec, hnb⟩ := splitLast_eq_some hsl
    have h2 : ';' ∉ b := by
      rw [lastSegNoSemi, hsl] at h
      exact h
    have hcb : collapseAux true b = b := collapse_noslash hnb true
    have hcoll : collapseAux false s
        = collapseAux false a ++ collapseAux (flagEnd false a) ('/' :: b) := by
      rw [hdec, collapse_append]
    cases hflag : flagEnd false a with
    | false =>
        rw [hflag] at hcoll
        rw [collapseAux, if_pos rfl] at hcoll
        simp only [Bool.false_eq_true, if_false] at hcoll
        rw [hcb] at hcoll
        have hsp2 : splitLast '/' (collapseAux false s)
            = some (collapseAux false a, b) := by
          rw [hcoll]
          exact splitLast_append _ hnb
        rw [lastSegNoSemi, hsp2]
        exact h2
    | true =>
        rw [hflag] at hcoll
        rw [collapseAux, if_pos rfl] at hcoll
        simp only [if_true] at hcoll
        rw [hcb] at hcoll
        rcases flagEnd_slash_end a false hflag with ⟨-, hcon⟩ | ⟨a2, ha2⟩
        · exact absurd hcon (by decide)
        · rw [ha2] at hcoll
          have hcoll2 : collapseAux false s = a2 ++ '/' :: b := by
            rw [hcoll, List.append_assoc]
            rfl
          have hsp2 : splitLast '/' (collapseAux false s) = some (a2, b) := by
            rw [hcoll2]
            exact splitLast_append _ hnb
          rw [lastSegNoSemi, hsp2]
          exact h2

theorem lastSegNoSemi_cons_slash {pa : PyStr} (h : lastSegNoSemi pa) :
    lastSegNoSemi ('/' :: pa) := by
  rcases hsl : splitLast '/' pa with _ | ⟨a, b⟩
  · have h2 : ';' ∉ pa := by
      rw [lastSegNoSemi, hsl] at h
      exact h
    have hsl2 : splitLast '/' ('/' :: pa) = some ([], pa) := by
      rw [splitLast, hsl]
      show (if ('/' : Char) = '/' then some (([] : PyStr), pa) else none)
        = some ([], pa)
      rw [if_pos rfl]
    rw [lastSegNoSemi, hsl2]
    exact h2
  · have h2 : ';' ∉ b := by
      rw [lastSegNoSemi, hsl] at h
      exact h
    have hsl2 : splitLast '/' ('/' :: pa) = some ('/' :: a, b) := by
      rw [splitLast, hsl]
    rw [lastSegNoSemi, hsl2]
    exact h2

theorem take2_cons_slash {pa : PyStr} (h : pa.headD ' ' ≠ '/') :
    ('/' :: pa).take 2 ≠ ['/', '/'] := by
  cases pa with
  | nil => decide
  | cons c t =>
      rw [List.take_succ_cons, List.take_succ_cons, List.take_zero]
      intro hcon
      have h2 := (List.cons.injEq .. ▸ (List.cons.injEq .. ▸ hcon).2).1
      exact h (show (c :: t).headD ' ' = '/' from h2)

/-! Re-splitting an assembled URL. -/

theorem netlocOk_nil : netlocOk ([] : PyStr) := by
  refine ⟨fun c hc => absurd hc (by simp), by simp, by simp, rfl,
    fun c hc => absurd hc (by simp)⟩

theorem isAsciiAlpha_gt {c : Char} (h : isAsciiAlpha c = true) :
    0x20 < c.toNat := by
  rw [isAsciiAlpha] at h
  simp only [decide_eq_true_eq] at h
  have h2 : (97 ≤ c.toNat ∧ c.toNat ≤ 122) ∨ (65 ≤ c.toNat ∧ c.toNat ≤ 90) := by
    rcases h with hh | hh
    · exact Or.inl ⟨hh.1, hh.2⟩
    · exact Or.inr ⟨hh.1, hh.2⟩
  rcases h2 with hh | hh <;> omega

theorem schemeChar_clean {c : Char} (h : schemeChar c = true) : cleanChar c := by
  rw [schemeChar] at h
  simp only [decide_eq_true_eq] at h
  have h2 : (97 ≤ c.toNat ∧ c.toNat ≤ 122) ∨ (65 ≤ c.toNat ∧ c.toNat ≤ 90) ∨
      (48 ≤ c.toNat ∧ c.toNat ≤ 57) ∨ c.toNat = 43 ∨ c.toNat = 45 ∨
      c.toNat = 46 := by
    rcases h with hh | hh | hh | hh | hh | hh
    · exact Or.inl ⟨hh.1, hh.2⟩
    · exact Or.inr (Or.inl ⟨hh.1, hh.2⟩)
    · exact Or.inr (Or.inr (Or.inl ⟨hh.1, hh.2⟩))
    · exact Or.inr (Or.inr (Or.inr (Or.inl (by rw [hh]; rfl))))
    · exact Or.inr (Or.inr (Or.inr (Or.inr (Or.inl (by rw [hh]; rfl)))))
    · exact Or.inr (Or.inr (Or.inr (Or.inr (Or.inr (by rw [hh]; rfl)))))
  intro hbad
  have h3 : c.toNat = 9 ∨ c.toNat = 13 ∨ c.toNat = 10 := by
    rcases hbad with hb | hb | hb
    · exact Or.inl (by rw [hb]; rfl)
    · exact Or.inr (Or.inl (by rw [hb]; rfl))
    · exact Or.inr (Or.inr (by rw [hb]; rfl))
  rcases h2 with hh | hh | hh | hh | hh | hh <;>
    rcases h3 with h3 | h3 | h3 <;> omega

theorem urlencode_no_hash (pairs : List (PyStr × PyStr)) :
    '#' ∉ pyUrlencode pairs := by
  intro hc
  rcases mem_urlencode hc with h1 | h1 | ⟨pp, -, hcase⟩
  · exact absurd h1 (by decide)
  · exact absurd h1 (by decide)
  · rcases hcase with h2 | h2
    · exact @quotePlus_avoid pp.1 '#' (Or.inr (Or.inr (Or.inl rfl))) h2
    · exact @quotePlus_avoid pp.2 '#' (Or.inr (Or.inr (Or.inl rfl))) h2

theorem urlencode_clean (pairs : List (PyStr × PyStr)) :
    ∀ c ∈ pyUrlencode pairs, cleanChar c := by
  intro c hc
  rcases mem_urlencode hc with h1 | h1 | ⟨pp, -, hcase⟩
  · rw [h1]
    exact (by decide : ¬('&' = '\t' ∨ '&' = '\r' ∨ '&' = '\n'))
  · rw [h1]
    exact (by decide : ¬('=' = '\t' ∨ '=' = '\r' ∨ '=' = '\n'))
  · intro hbad
    have h3 : c.toNat = 9 ∨ c.toNat = 13 ∨ c.toNat = 10 := by
      rcases hbad with hb | hb | hb
      · exact Or.inl (by rw [hb]; rfl)
      · exact Or.inr (Or.inl (by rw [hb]; rfl))
      · exact Or.inr (Or.inr (by rw [hb]; rfl))
    rcases hcase with h2 | h2 <;>
      (rcases quotePlus_toNat h2 with h4 | h4 | h4 | h4 | h4 | h4 | h4 | h4 | h4 <;>
        rcases h3 with h3 | h3 | h3 <;> omega)

theorem collapse_true_eq_false {s : PyStr} (h : s.headD ' ' ≠ '/') :
    collapseAux true s = collapseAux false s := by
  cases s with
  | nil => rfl
  | cons c t =>
      have hc : c ≠ '/' := h
      rw [collapseAux, if_neg hc, collapseAux, if_neg hc]

theorem splitNetloc_split (nl pp : PyStr)
    (hnlb : ∀ c ∈ nl, netlocBreak c = false)
    (hhead : pp.headD ' ' = '/') (hne : pp ≠ []) :
    splitNetloc (nl ++ pp) = (nl, pp) := by
  have hpred : ∀ c ∈ nl, (fun c => decide ¬(netlocBreak c = true)) c = true := by
    intro c hc
    simp only []
    rw [hnlb c hc]
    rfl
  obtain ⟨ht, hd⟩ := takeWhile_all_append (fun c => ¬netlocBreak c) nl pp hpred
  cases pp with
  | nil => exact absurd rfl hne
  | cons c0 t =>
      have hc0 : c0 = '/' := hhead
      subst hc0
      obtain ⟨ht2, hd2⟩ := takeWhile_head_false (fun c => ¬netlocBreak c) '/' t
        (by decide)
      rw [splitNetloc, ht, hd, ht2, hd2, List.append_nil]

theorem urlsplitE_core {url0 sch nl rest1 pa q : PyStr}
    (hclean : removeUnsafe (lstripC0 url0) = url0)
    (hss : splitScheme url0 = (sch, '/' :: '/' :: (nl ++ rest1)))
    (hr1head : rest1.headD ' ' = '/') (hr1ne : rest1 ≠ [])
    (hnlb : ∀ c ∈ nl, netlocBreak c = false)
    (hbr1 : ¬(('[' ∈ nl ∧ ']' ∉ nl) ∨ (']' ∈ nl ∧ '[' ∉ nl)))
    (hbr2 : ¬('[' ∈ nl ∧ ']' ∈ nl ∧ ¬bracketedHostOk (bracketPart nl)))
    (hnf : nl.any nfkcOffender = false)
    (hfr : splitFirst '#' rest1 = (rest1, none))
    (hqu : splitFirst '?' rest1 = (pa, some q)
      ∨ (splitFirst '?' rest1 = (pa, none) ∧ q = [])) :
    urlsplitE url0 = Except.ok ⟨sch, nl, pa, q, []⟩ := by
  rw [urlsplitE]
  simp only []
  rw [hclean, hss]
  simp only []
  rw [if_pos (show (('/' :: '/' :: (nl ++ rest1) : PyStr)).take 2 = ['/', '/']
    from rfl)]
  have hdrop : (('/' :: '/' :: (nl ++ rest1) : PyStr)).drop 2 = nl ++ rest1 := rfl
  rw [hdrop, splitNetloc_split nl rest1 hnlb hr1head hr1ne]
  simp only []
  rw [if_neg hbr1, if_neg hbr2,
    if_neg (show ¬(nl.any nfkcOffender = true) from by
      rw [hnf]; exact Bool.false_ne_true), hfr]
  simp only []
  rcases hqu with hqu | ⟨hqu, hq0⟩
  · rw [hqu]
    rfl
  · rw [hqu, hq0]
    rfl

theorem urlsplitE_core_plain {url0 sch rest0 pa q : PyStr}
    (hclean : removeUnsafe (lstripC0 url0) = url0)
    (hss : splitScheme url0 = (sch, rest0))
    (ht2 : rest0.take 2 ≠ ['/', '/'])
    (hfr : splitFirst '#' rest0 = (rest0, none))
    (hqu : splitFirst '?' rest0 = (pa, some q)
      ∨ (splitFirst '?' rest0 = (pa, none) ∧ q = [])) :
    urlsplitE url0 = Except.ok ⟨sch, [], pa, q, []⟩ := by
  rw [urlsplitE]
  simp only []
  rw [hclean, hss]
  simp only []
  rw [if_neg ht2, hfr]
  simp only []
  rcases hqu with hqu | ⟨hqu, hq0⟩
  · rw [hqu]
    rfl
  · rw [hqu, hq0]
    rfl

/-! `_splitparams` and the facts carried by a successful `urlparse`. -/

theorem splitParams_shape (s : PyStr) :
    splitParams s = (s, []) ∨
    (∃ v p2, s = v ++ ';' :: p2 ∧ splitParams s = (v, p2) ∧ '/' ∉ s) ∨
    (∃ a v p2 b, s = a ++ '/' :: b ∧ b = v ++ ';' :: p2 ∧ splitParams s
      = (a ++ '/' :: v, p2)) := by
  rcases hsl : splitLast '/' s with _ | ⟨a, b⟩
  · rcases hsf : splitFirst ';' s with ⟨v, o⟩
    cases o with
    | none =>
        left
        rw [splitParams, hsl, hsf]
    | some p2 =>
        right; left
        refine ⟨v, p2, (splitFirst_eq_some hsf).1, ?_, splitLast_eq_none hsl⟩
        rw [splitParams, hsl, hsf]
  · rcases hsf : splitFirst ';' b with ⟨v, o⟩
    cases o with
    | none =>
        left
        rw [splitParams, hsl]
        show (match splitFirst ';' b with
          | (v, some p) => (a ++ '/' :: v, p)
          | (_, none) => (s, [])) = (s, [])
        rw [hsf]
    | some p2 =>
        right; right
        refine ⟨a, v, p2, b, (splitLast_eq_some hsl).1,
          (splitFirst_eq_some hsf).1, ?_⟩
        rw [splitParams, hsl]
        show (match splitFirst ';' b with
          | (v, some p) => (a ++ '/' :: v, p)
          | (_, none) => (s, [])) = (a ++ '/' :: v, p2)
        rw [hsf]

theorem mem_splitParams {c : Char} {s : PyStr} (h : c ∈ (splitParams s).1) :
    c ∈ s := by
  rcases splitParams_shape s with heq | ⟨v, p2, hdec, heq, -⟩
    | ⟨a, v, p2, b, hdec, hb, heq⟩
  · rw [heq] at h
    exact h
  · rw [heq] at h
    rw [hdec]
    exact List.mem_append_left _ h
  · rw [heq] at h
    have h2 : c ∈ (a ++ '/' :: v : PyStr) := h
    rw [hdec, hb]
    rcases List.mem_append.mp h2 with h3 | h3
    · exact List.mem_append_left _ h3
    rcases List.mem_cons.mp h3 with heq2 | h4
    · rw [heq2]
      exact List.mem_append_right _ (List.mem_cons_self _ _)
    · exact List.mem_append_right _ (List.mem_cons_of_mem _
        (List.mem_append_left _ h4))

theorem splitParams_noScheme {s : PyStr} (h : noScheme s) :
    noScheme (splitParams s).1 := by
  rcases splitParams_shape s with heq | ⟨v, p2, hdec, heq, -⟩
    | ⟨a, v, p2, b, hdec, hb, heq⟩
  · rw [heq]
    exact h
  · rw [heq]
    show noScheme v
    rw [hdec] at h
    exact noScheme_prefix h
  · rw [heq]
    show noScheme (a ++ '/' :: v)
    rw [hdec, hb] at h
    have heq2 : a ++ '/' :: (v ++ ';' :: p2) = (a ++ '/' :: v) ++ ';' :: p2 := by
      rw [List.append_assoc, List.cons_append]
    rw [heq2] at h
    exact noScheme_prefix h

theorem splitParams_head (s : PyStr) :
    (splitParams s).1 = [] ∨ (splitParams s).1.headD ' ' = s.headD ' ' := by
  rcases splitParams_shape s with heq | ⟨v, p2, hdec, heq, -⟩
    | ⟨a, v, p2, b, hdec, hb, heq⟩
  · rw [heq]
    exact Or.inr rfl
  · rw [heq]
    cases v with
    | nil => exact Or.inl rfl
    | cons c t =>
        right
        rw [hdec]
        exact ( head_of_prefix ' ' (List.cons_ne_nil c t)).symm
  · rw [heq]
    right
    rw [hdec]
    cases a with
    | nil => rfl
    | cons c t =>
        show ((c :: t : PyStr) ++ '/' :: v).headD ' '
          = ((c :: t : PyStr) ++ '/' :: b).headD ' '
        rw [ head_of_prefix ' ' (List.cons_ne_nil c t),
          head_of_prefix ' ' (List.cons_ne_nil c t)]

theorem urlparse_facts {url : PyStr} {p : ParseResult}
    (h : urlparseE url = Except.ok p) :
    schemeOk p.scheme ∧ netlocOk p.netloc ∧
    '#' ∉ p.path ∧ '?' ∉ p.path ∧ (∀ c ∈ p.path, cleanChar c) ∧
    (p.netloc ≠ [] → p.path = [] ∨ p.path.headD ' ' = '/') ∧
    (p.scheme = [] → p.netloc = [] → noScheme p.path) ∧
    (p.path ≠ [] → p.scheme = [] → p.netloc = [] →
      0x20 < (p.path.headD ' ').toNat) ∧
    (p.scheme ∈ usesParams → lastSegNoSemi p.path) := by
  rw [urlparseE] at h
  cases hsp : urlsplitE url with
  | error e =>
      rw [hsp, exceptBind_err] at h
      exact Except.noConfusion h
  | ok r =>
      rw [hsp, exceptBind_ok] at h
      obtain ⟨f1, f2, f3, f4, f5, f6, f7, f8⟩ := urlsplit_facts hsp
      by_cases hcond : r.scheme ∈ usesParams ∧ ';' ∈ r.path
      · rw [if_pos hcond] at h
        have h2 : Except.ok (⟨r.scheme, r.netloc, (splitParams r.path).1,
            (splitParams r.path).2, r.query, r.fragment⟩ : ParseResult)
            = Except.ok p := h
        have h3 := Except.ok.inj h2
        subst h3
        refine ⟨f1, f2, ?_, ?_, ?_, ?_, ?_, ?_, ?_⟩
        · exact fun hc => f3 (mem_splitParams hc)
        · exact fun hc => f4 (mem_splitParams hc)
        · exact fun c hc => f5 c (mem_splitParams hc)
        · intro hne
          rcases f6 hne with hpe | hph
          · exact Or.inl (by rw [hpe]; rfl)
          · rcases splitParams_head r.path with h9 | h9
            · exact Or.inl h9
            · right
              rw [h9, hph]
        · intro hs hn
          rcases f7 with h9 | h9 | h9
          · exact splitParams_noScheme h9
          · exact absurd hs h9
          · exact absurd hn h9
        · intro hne hs hn
          have hrne : r.path ≠ [] := by
            intro hc
            rw [hc] at hne
            exact hne rfl
          rcases splitParams_head r.path with h9 | h9
          · exact absurd h9 hne
          · rcases f8 hrne hn with h10 | h10
            · rw [h9]
              exact h10
            · exact absurd hs h10
        · intro hu
          exact splitParams_fst_clean r.path
      · rw [if_neg hcond] at h
        have h2 : Except.ok (⟨r.scheme, r.netloc, r.path, [], r.query,
            r.fragment⟩ : ParseResult) = Except.ok p := h
        have h3 := Except.ok.inj h2
        subst h3
        refine ⟨f1, f2, f3, f4, f5, f6, ?_, ?_, ?_⟩
        · intro hs hn
          rcases f7 with h9 | h9 | h9
          · exact h9
          · exact absurd hs h9
          · exact absurd hn h9
        · intro hne hs hn
          rcases f8 hne hn with h10 | h10
          · exact h10
          · exact absurd hs h10
        · intro hu
          refine lastSegNoSemi_of_not_mem ?_
          intro hc
          exact hcond ⟨hu, hc⟩

/-! Assembling a canonical URL and re-splitting it. -/

theorem take_one_slash {s : PyStr} (h1 : s ≠ []) (h2 : s.headD ' ' = '/') :
    s.take 1 = ['/'] := by
  cases s with
  | nil => exact absurd rfl h1
  | cons c t =>
      rw [List.take_succ_cons, List.take_zero]
      have hc : c = '/' := h2
      rw [hc]

theorem take_one_ne {s : PyStr} (h2 : s.headD ' ' ≠ '/') :
    s.take 1 ≠ ['/'] := by
  cases s with
  | nil => exact fun hc => List.noConfusion hc
  | cons c t =>
      rw [List.take_succ_cons, List.take_zero]
      intro hc
      exact h2 (show (c :: t : PyStr).headD ' ' = '/' from
        (List.cons.injEq .. ▸ hc).1)

theorem clean_fix {s : PyStr} (hgt : 0x20 < (s.headD ' ').toNat)
    (hcl : ∀ c ∈ s, cleanChar c) :
    removeUnsafe (lstripC0 s) = s := by
  rw [lstripC0_id (Or.inr hgt)]
  exact removeUnsafe_id hcl

theorem urlunsplit_eq_branch (sch nl pa q u : PyStr)
    (hcond : nl ≠ [] ∨ (sch ≠ [] ∧ sch ∈ usesNetloc ∧ pa.take 2 ≠ ['/', '/']))
    (hu : (if pa ≠ [] ∧ pa.take 1 ≠ ['/'] then '/' :: pa else pa) = u) :
    urlunsplit sch nl pa q []
      = (if sch ≠ [] then sch ++ ':' :: ('/' :: '/' :: (nl ++ u))
          else '/' :: '/' :: (nl ++ u))
        ++ (if q = [] then [] else '?' :: q) := by
  rw [urlunsplit]
  simp only []
  rw [if_pos hcond, hu, if_neg (fun hcon : ([] : PyStr) ≠ [] => hcon rfl)]
  by_cases hq : q = []
  · rw [if_neg (fun hcon : q ≠ [] => hcon hq), if_pos hq, List.append_nil]
  · rw [if_pos hq, if_neg hq]

theorem urlunsplit_eq_plain (sch pa q : PyStr)
    (hcond : ¬(([] : PyStr) ≠ []
      ∨ (sch ≠ [] ∧ sch ∈ usesNetloc ∧ pa.take 2 ≠ ['/', '/']))) :
    urlunsplit sch [] pa q []
      = (if sch ≠ [] then sch ++ ':' :: pa else pa)
        ++ (if q = [] then [] else '?' :: q) := by
  rw [urlunsplit]
  simp only []
  rw [if_neg hcond, if_neg (fun hcon : ([] : PyStr) ≠ [] => hcon rfl)]
  by_cases hq : q = []
  · rw [if_neg (fun hcon : q ≠ [] => hcon hq), if_pos hq, List.append_nil]
  · rw [if_pos hq, if_neg hq]

theorem urlsplitE_assembled_netloc (sch nl pt q : PyStr)
    (hsch : schemeOk sch) (hnl : netlocOk nl)
    (hpaf : '#' ∉ ('/' :: pt : PyStr)) (hpaq : '?' ∉ ('/' :: pt : PyStr))
    (hpacl : ∀ c ∈ ('/' :: pt : PyStr), cleanChar c)
    (hqf : '#' ∉ q) (hqcl : ∀ c ∈ q, cleanChar c) :
    urlsplitE ((if sch ≠ [] then sch ++ ':' :: ('/' :: '/' :: (nl ++ '/' :: pt))
        else '/' :: '/' :: (nl ++ '/' :: pt))
      ++ (if q = [] then [] else '?' :: q))
      = Except.ok ⟨sch, nl, '/' :: pt, q, []⟩ := by
  have hnl' : (∀ c ∈ nl, netlocBreak c = false) ∧
      ¬(('[' ∈ nl ∧ ']' ∉ nl) ∨ (']' ∈ nl ∧ '[' ∉ nl)) ∧
      ¬('[' ∈ nl ∧ ']' ∈ nl ∧ ¬bracketedHostOk (bracketPart nl)) ∧
      nl.any nfkcOffender = false ∧ (∀ c ∈ nl, cleanChar c) := hnl
  obtain ⟨hnlb, hbr1, hbr2, hnf, hnlcl⟩ := hnl'
  have hslashcl : cleanChar '/' :=
    (by decide : ¬('/' = '\t' ∨ '/' = '\r' ∨ '/' = '\n'))
  have hcoloncl : cleanChar ':' :=
    (by decide : ¬(':' = '\t' ∨ ':' = '\r' ∨ ':' = '\n'))
  have hbodycl : ∀ c ∈ ('/' :: '/' :: (nl ++ '/' :: pt) : PyStr),
      cleanChar c := by
    intro c hc
    rcases List.mem_cons.mp hc with heq | hc2
    · rw [heq]
      exact hslashcl
    rcases List.mem_cons.mp hc2 with heq | hc3
    · rw [heq]
      exact hslashcl
    rcases List.mem_append.mp hc3 with h4 | h4
    · exact hnlcl c h4
    · exact hpacl c h4
  by_cases hq0 : q = []
  · subst hq0
    rw [if_pos rfl, List.append_nil]
    by_cases hs0 : sch = []
    · subst hs0
      rw [if_neg (fun hcon : ([] : PyStr) ≠ [] => hcon rfl)]
      refine urlsplitE_core (clean_fix ?_ hbodycl)
        (splitScheme_noScheme (noScheme_head_nonalpha _
          (show isAsciiAlpha '/' = false from by decide)))
        rfl (List.cons_ne_nil _ _) hnlb hbr1 hbr2 hnf
        (splitFirst_not_mem hpaf) (Or.inr ⟨splitFirst_not_mem hpaq, rfl⟩)
      show (0x20 : Nat) < Char.toNat '/'
      decide
    · rw [if_pos hs0]
      have hsch' : sch ≠ [] ∧ isAsciiAlpha (sch.headD ' ') = true
          ∧ sch.all schemeChar = true ∧ pyLower sch = sch := by
        have hsch2 : sch = [] ∨ (sch ≠ [] ∧ isAsciiAlpha (sch.headD ' ') = true
            ∧ sch.all schemeChar = true ∧ pyLower sch = sch) := hsch
        rcases hsch2 with h1 | h1
        · exact absurd h1 hs0
        · exact h1
      obtain ⟨hne, hal, hall, hlow⟩ := hsch'
      refine urlsplitE_core (clean_fix ?_ ?_)
        (splitScheme_valid _ hne hal hall hlow)
        rfl (List.cons_ne_nil _ _) hnlb hbr1 hbr2 hnf
        (splitFirst_not_mem hpaf) (Or.inr ⟨splitFirst_not_mem hpaq, rfl⟩)
      · rw [ head_of_prefix ' ' hne]
        exact isAsciiAlpha_gt hal
      · intro c hc
        rcases List.mem_append.mp hc with h1 | h1
        · exact schemeChar_clean (List.all_eq_true.mp hall c h1)
        rcases List.mem_cons.mp h1 with heq | h2
        · rw [heq]
          exact hcoloncl
        · exact hbodycl c h2
  · rw [if_neg hq0]
    have hqmcl : cleanChar '?' :=
      (by decide : ¬('?' = '\t' ∨ '?' = '\r' ∨ '?' = '\n'))
    have hbodyqcl : ∀ c ∈ ('/' :: '/' :: (nl ++ ('/' :: pt ++ '?' :: q)) :
        PyStr), cleanChar c := by
      intro c hc
      rcases List.mem_cons.mp hc with heq | hc2
      · rw [heq]
        exact hslashcl
      rcases List.mem_cons.mp hc2 with heq | hc3
      · rw [heq]
        exact hslashcl
      rcases List.mem_append.mp hc3 with h4 | h4
      · exact hnlcl c h4
      rcases List.mem_append.mp h4 with h5 | h5
      · exact hpacl c h5
      rcases List.mem_cons.mp h5 with heq | h6
      · rw [heq]
        exact hqmcl
      · exact hqcl c h6
    have hfr1 : '#' ∉ ('/' :: pt : PyStr) ++ '?' :: q := by
      intro hc
      rcases List.mem_append.mp hc with h1 | h1
      · exact hpaf h1
      rcases List.mem_cons.mp h1 with heq | h2
      · exact absurd heq (by decide)
      · exact hqf h2
    by_cases hs0 : sch = []
    · subst hs0
      rw [if_neg (fun hcon : ([] : PyStr) ≠ [] => hcon rfl)]
      have hb : ('/' :: '/' :: (nl ++ '/' :: pt) : PyStr) ++ '?' :: q
          = '/' :: '/' :: (nl ++ ('/' :: pt ++ '?' :: q)) := by
        simp only [List.append_assoc, List.cons_append]
      rw [hb]
      refine urlsplitE_core (clean_fix ?_ hbodyqcl)
        (splitScheme_noScheme (noScheme_head_nonalpha _
          (show isAsciiAlpha '/' = false from by decide)))
        rfl (List.cons_ne_nil '/' (pt ++ '?' :: q)) hnlb hbr1 hbr2 hnf
        (splitFirst_not_mem hfr1) (Or.inl (splitFirst_append q hpaq))
      show (0x20 : Nat) < Char.toNat '/'
      decide
    · rw [if_pos hs0]
      have hsch' : sch ≠ [] ∧ isAsciiAlpha (sch.headD ' ') = true
          ∧ sch.all schemeChar = true ∧ pyLower sch = sch := by
        have hsch2 : sch = [] ∨ (sch ≠ [] ∧ isAsciiAlpha (sch.headD ' ') = true
            ∧ sch.all schemeChar = true ∧ pyLower sch = sch) := hsch
        rcases hsch2 with h1 | h1
        · exact absurd h1 hs0
        · exact h1
      obtain ⟨hne, hal, hall, hlow⟩ := hsch'
      have hb : (sch ++ ':' :: ('/' :: '/' :: (nl ++ '/' :: pt)) : PyStr)
          ++ '?' :: q
          = sch ++ ':' :: ('/' :: '/' :: (nl ++ ('/' :: pt ++ '?' :: q))) := by
        simp only [List.append_assoc, List.cons_append]
      rw [hb]
      refine urlsplitE_core (clean_fix ?_ ?_)
        (splitScheme_valid _ hne hal hall hlow)
        rfl (List.cons_ne_nil '/' (pt ++ '?' :: q)) hnlb hbr1 hbr2 hnf
        (splitFirst_not_mem hfr1) (Or.inl (splitFirst_append q hpaq))
      · rw [ head_of_prefix ' ' hne]
        exact isAsciiAlpha_gt hal
      · intro c hc
        rcases List.mem_append.mp hc with h1 | h1
        · exact schemeChar_clean (List.all_eq_true.mp hall c h1)
        rcases List.mem_cons.mp h1 with heq | h2
        · rw [heq]
          exact hcoloncl
        · exact hbodyqcl c h2

theorem urlsplitE_assembled_plain (sch pa q : PyStr)
    (hsch : schemeOk sch)
    (hns : sch = [] → noScheme pa)
    (hgt : sch = [] → 0x20 < (pa.headD ' ').toNat)
    (hpane : pa ≠ []) (hpa2 : pa.take 2 ≠ ['/', '/'])
    (hpaf : '#' ∉ pa) (hpaq : '?' ∉ pa) (hpacl : ∀ c ∈ pa, cleanChar c)
    (hqf : '#' ∉ q) (hqcl : ∀ c ∈ q, cleanChar c) :
    urlsplitE ((if sch ≠ [] then sch ++ ':' :: pa else pa)
      ++ (if q = [] then [] else '?' :: q))
      = Except.ok ⟨sch, [], pa, q, []⟩ := by
  have hcoloncl : cleanChar ':' :=
    (by decide : ¬(':' = '\t' ∨ ':' = '\r' ∨ ':' = '\n'))
  by_cases hq0 : q = []
  · subst hq0
    rw [if_pos rfl, List.append_nil]
    by_cases hs0 : sch = []
    · subst hs0
      rw [if_neg (fun hcon : ([] : PyStr) ≠ [] => hcon rfl)]
      exact urlsplitE_core_plain (clean_fix (hgt rfl) hpacl)
        (splitScheme_noScheme (hns rfl)) hpa2
        (splitFirst_not_mem hpaf) (Or.inr ⟨splitFirst_not_mem hpaq, rfl⟩)
    · rw [if_pos hs0]
      have hsch' : sch ≠ [] ∧ isAsciiAlpha (sch.headD ' ') = true
          ∧ sch.all schemeChar = true ∧ pyLower sch = sch := by
        have hsch2 : sch = [] ∨ (sch ≠ [] ∧ isAsciiAlpha (sch.headD ' ') = true
            ∧ sch.all schemeChar = true ∧ pyLower sch = sch) := hsch
        rcases hsch2 with h1 | h1
        · exact absurd h1 hs0
        · exact h1
      obtain ⟨hne, hal, hall, hlow⟩ := hsch'
      refine urlsplitE_core_plain (clean_fix ?_ ?_)
        (splitScheme_valid _ hne hal hall hlow) hpa2
        (splitFirst_not_mem hpaf) (Or.inr ⟨splitFirst_not_mem hpaq, rfl⟩)
      · rw [ head_of_prefix ' ' hne]
        exact isAsciiAlpha_gt hal
      · intro c hc
        rcases List.mem_append.mp hc with h1 | h1
        · exact schemeChar_clean (List.all_eq_true.mp hall c h1)
        rcases List.mem_cons.mp h1 with heq | h2
        · rw [heq]
          exact hcoloncl
        · exact hpacl c h2
  · rw [if_neg hq0]
    have hqmcl : cleanChar '?' :=
      (by decide : ¬('?' = '\t' ∨ '?' = '\r' ∨ '?' = '\n'))
    have hrest : '#' ∉ pa ++ '?' :: q := by
      intro hc
      rcases List.mem_append.mp hc with h1 | h1
      · exact hpaf h1
      rcases List.mem_cons.mp h1 with heq | h2
      · exact absurd heq (by decide)
      · exact hqf h2
    have hrestcl : ∀ c ∈ pa ++ '?' :: q, cleanChar c := by
      intro c hc
      rcases List.mem_append.mp hc with h1 | h1
      · exact hpacl c h1
      rcases List.mem_cons.mp h1 with heq | h2
      · rw [heq]
        exact hqmcl
      · exact hqcl c h2
    by_cases hs0 : sch = []
    · subst hs0
      rw [if_neg (fun hcon : ([] : PyStr) ≠ [] => hcon rfl)]
      refine urlsplitE_core_plain (clean_fix ?_ hrestcl)
        (splitScheme_noScheme (noScheme_qmark pa q (hns rfl)))
        (take2_append_q q hpane hpa2)
        (splitFirst_not_mem hrest) (Or.inl (splitFirst_append q hpaq))
      rw [ head_of_prefix ' ' hpane]
      exact hgt rfl
    · rw [if_pos hs0]
      have hsch' : sch ≠ [] ∧ isAsciiAlpha (sch.headD ' ') = true
          ∧ sch.all schemeChar = true ∧ pyLower sch = sch := by
        have hsch2 : sch = [] ∨ (sch ≠ [] ∧ isAsciiAlpha (sch.headD ' ') = true
            ∧ sch.all schemeChar = true ∧ pyLower sch = sch) := hsch
        rcases hsch2 with h1 | h1
        · exact absurd h1 hs0
        · exact h1
      obtain ⟨hne, hal, hall, hlow⟩ := hsch'
      have hb : (sch ++ ':' :: pa : PyStr) ++ '?' :: q
          = sch ++ ':' :: (pa ++ '?' :: q) := by
        simp only [List.append_assoc, List.cons_append]
      rw [hb]
      refine urlsplitE_core_plain (clean_fix ?_ ?_)
        (splitScheme_valid _ hne hal hall hlow)
        (take2_append_q q hpane hpa2)
        (splitFirst_not_mem hrest) (Or.inl (splitFirst_append q hpaq))
      · rw [ head_of_prefix ' ' hne]
        exact isAsciiAlpha_gt hal
      · intro c hc
        rcases List.mem_append.mp hc with h1 | h1
        · exact schemeChar_clean (List.all_eq_true.mp hall c h1)
        rcases List.mem_cons.mp h1 with heq | h2
        · rw [heq]
          exact hcoloncl
        · exact hrestcl c h2

theorem canonical_query_fixed (q0 : PyStr) :
    pyUrlencode (sortPairs ((parseQsl (pyUrlencode (sortPairs
        ((parseQsl q0).filter fun kv => kv.1 ∉ TRACKING_KEYS)))).filter
      fun kv => kv.1 ∉ TRACKING_KEYS))
      = pyUrlencode (sortPairs ((parseQsl q0).filter
        fun kv => kv.1 ∉ TRACKING_KEYS)) := by
  rw [parseQsl_urlencode, sortPairs_filter_id, sortPairs_idem]

theorem canonicalize_inv {u s : PyStr} (h : canonicalize_url u = Except.ok s) :
    ∃ p, urlparseE u = Except.ok p ∧
      s = urlunparse (pyLower p.scheme) (pyLower p.netloc)
        (collapseSlashes (if p.path = [] then pystr "/" else p.path)) []
        (pyUrlencode (sortPairs ((parseQsl p.query).filter
          fun kv => kv.1 ∉ TRACKING_KEYS))) [] := by
  cases hup : urlparseE u with
  | error e =>
      rw [canonicalize_url, hup, exceptBind_err] at h
      exact Except.noConfusion h
  | ok p =>
      refine ⟨p, rfl, ?_⟩
      rw [canonicalize_reduce hup] at h
      exact (Except.ok.inj h).symm

theorem canonicalize_fixed_of_split {s sch nl pa q : PyStr}
    (hsplit : urlsplitE s = Except.ok ⟨sch, nl, pa, q, []⟩)
    (hlow_s : pyLower sch = sch) (hlow_n : pyLower nl = nl)
    (hpane : pa ≠ []) (hcoll : collapseSlashes pa = pa)
    (hlast : sch ∈ usesParams → lastSegNoSemi pa)
    (hq : pyUrlencode (sortPairs ((parseQsl q).filter
        fun kv => kv.1 ∉ TRACKING_KEYS)) = q)
    (hasm : urlunparse sch nl pa [] q [] = s) :
    canonicalize_url s = Except.ok s := by
  have hparse : urlparseE s = Except.ok ⟨sch, nl, pa, [], q, []⟩ := by
    rw [urlparseE, hsplit, exceptBind_ok]
    simp only []
    by_cases hcond : sch ∈ usesParams ∧ ';' ∈ pa
    · rw [if_pos hcond]
      show Except.ok (⟨sch, nl, (splitParams pa).1, (splitParams pa).2, q, []⟩
        : ParseResult) = Except.ok ⟨sch, nl, pa, [], q, []⟩
      rw [splitParams_noop (hlast hcond.1)]
    · rw [if_neg hcond]
      rfl
  rw [canonicalize_reduce hparse]
  show Except.ok (urlunparse (pyLower sch) (pyLower nl)
      (collapseSlashes (if pa = [] then pystr "/" else pa)) []
      (pyUrlencode (sortPairs ((parseQsl q).filter
        fun kv => kv.1 ∉ TRACKING_KEYS))) []) = Except.ok s
  rw [hlow_s, hlow_n, if_neg hpane, hcoll, hq, hasm]

theorem canonicalize_of_parts (s sch nl pa q : PyStr)
    (hsch : schemeOk sch) (hnl : netlocOk nl)
    (hlow_s : pyLower sch = sch) (hlow_n : pyLower nl = nl)
    (hpane : pa ≠ []) (hpa2 : pa.take 2 ≠ ['/', '/'])
    (hfix : collapseAux false pa = pa)
    (hpaf : '#' ∉ pa) (hpaq : '?' ∉ pa) (hpacl : ∀ c ∈ pa, cleanChar c)
    (hpahead : nl ≠ [] → pa.headD ' ' = '/')
    (hpans : sch = [] → nl = [] → noScheme pa)
    (hpagt : sch = [] → nl = [] → 0x20 < (pa.headD ' ').toNat)
    (hlast : sch ∈ usesParams → lastSegNoSemi pa)
    (hqf : '#' ∉ q) (hqcl : ∀ c ∈ q, cleanChar c)
    (hqfix : pyUrlencode (sortPairs ((parseQsl q).filter
        fun kv => kv.1 ∉ TRACKING_KEYS)) = q)
    (hseq : s = urlunsplit sch nl pa q []) :
    canonicalize_url s = Except.ok s := by
  by_cases hcondp : nl ≠ [] ∨ (sch ≠ [] ∧ sch ∈ usesNetloc)
  · have hcond : nl ≠ []
        ∨ (sch ≠ [] ∧ sch ∈ usesNetloc ∧ pa.take 2 ≠ ['/', '/']) := by
      rcases hcondp with h1 | h1
      · exact Or.inl h1
      · exact Or.inr ⟨h1.1, h1.2, hpa2⟩
    by_cases hh : pa.headD ' ' = '/'
    · -- the path already starts with `/`: reassembly keeps it unchanged
      cases pa with
      | nil => exact absurd rfl hpane
      | cons c0 pt =>
          have hc0 : c0 = '/' := hh
          subst hc0
          have htk : (if ('/' :: pt : PyStr) ≠ []
                ∧ ('/' :: pt : PyStr).take 1 ≠ ['/']
              then '/' :: '/' :: pt else '/' :: pt) = '/' :: pt := by
            refine if_neg ?_
            rintro ⟨-, hcon⟩
            exact hcon rfl
          rw [urlunsplit_eq_branch sch nl ('/' :: pt) q ('/' :: pt)
            hcond htk] at hseq
          have hsplit : urlsplitE s
              = Except.ok ⟨sch, nl, '/' :: pt, q, []⟩ := by
            rw [hseq]
            exact urlsplitE_assembled_netloc sch nl pt q hsch hnl
              hpaf hpaq hpacl hqf hqcl
          have hasm : urlunparse sch nl ('/' :: pt) [] q [] = s := by
            rw [urlunparse, if_neg (fun hcon : ([] : PyStr) ≠ [] => hcon rfl)]
            rw [urlunsplit_eq_branch sch nl ('/' :: pt) q ('/' :: pt)
              hcond htk]
            exact hseq.symm
          exact canonicalize_fixed_of_split hsplit hlow_s hlow_n hpane
            hfix hlast hqfix hasm
    · -- `urlunsplit` prepends a `/`; the result still canonicalizes to itself
      have hnl0 : nl = [] := by
        by_contra hcon
        exact hh (hpahead hcon)
      subst hnl0
      have hbr : sch ≠ [] ∧ sch ∈ usesNetloc := by
        rcases hcondp with h1 | h1
        · exact absurd rfl h1
        · exact h1
      have htk2 : (if pa ≠ [] ∧ pa.take 1 ≠ ['/'] then '/' :: pa else pa)
          = '/' :: pa := if_pos ⟨hpane, take_one_ne hh⟩
      rw [urlunsplit_eq_branch sch [] pa q ('/' :: pa) hcond htk2] at hseq
      have hf2 : '#' ∉ ('/' :: pa : PyStr) := by
        intro hc
        rcases List.mem_cons.mp hc with heq | h2
        · exact absurd heq (by decide)
        · exact hpaf h2
      have hq2 : '?' ∉ ('/' :: pa : PyStr) := by
        intro hc
        rcases List.mem_cons.mp hc with heq | h2
        · exact absurd heq (by decide)
        · exact hpaq h2
      have hcl2 : ∀ c ∈ ('/' :: pa : PyStr), cleanChar c := by
        intro c hc
        rcases List.mem_cons.mp hc with heq | h2
        · rw [heq]
          exact (by decide : ¬('/' = '\t' ∨ '/' = '\r' ∨ '/' = '\n'))
        · exact hpacl c h2
      have hsplit : urlsplitE s = Except.ok ⟨sch, [], '/' :: pa, q, []⟩ := by
        rw [hseq]
        exact urlsplitE_assembled_netloc sch [] pa q hsch hnl
          hf2 hq2 hcl2 hqf hqcl
      have hfix2 : collapseSlashes ('/' :: pa) = '/' :: pa := by
        rw [collapseSlashes, collapseAux, if_pos rfl]
        simp only [Bool.false_eq_true, if_false]
        rw [collapse_true_eq_false hh, hfix]
      have hasm : urlunparse sch [] ('/' :: pa) [] q [] = s := by
        rw [urlunparse, if_neg (fun hcon : ([] : PyStr) ≠ [] => hcon rfl)]
        rw [urlunsplit_eq_branch sch [] ('/' :: pa) q ('/' :: pa)
          (Or.inr ⟨hbr.1, hbr.2, take2_cons_slash hh⟩)
          (if_neg (by
            rintro ⟨-, hcon⟩
            exact hcon rfl))]
        exact hseq.symm
      exact canonicalize_fixed_of_split hsplit hlow_s hlow_n
        (List.cons_ne_nil _ _) hfix2
        (fun hu => lastSegNoSemi_cons_slash (hlast hu)) hqfix hasm
  · -- no netloc and no `//` re-insertion: the path is kept verbatim
    have hnl0 : nl = [] := by
      by_contra hcon
      exact hcondp (Or.inl hcon)
    subst hnl0
    have hncond2 : ¬(([] : PyStr) ≠ []
        ∨ (sch ≠ [] ∧ sch ∈ usesNetloc ∧ pa.take 2 ≠ ['/', '/'])) := by
      rintro (h1 | h1)
      · exact h1 rfl
      · exact hcondp (Or.inr ⟨h1.1, h1.2.1⟩)
    rw [urlunsplit_eq_plain sch pa q hncond2] at hseq
    have hsplit : urlsplitE s = Except.ok ⟨sch, [], pa, q, []⟩ := by
      rw [hseq]
      exact urlsplitE_assembled_plain sch pa q hsch
        (fun hs => hpans hs rfl) (fun hs => hpagt hs rfl)
        hpane hpa2 hpaf hpaq hpacl hqf hqcl
    have hasm : urlunparse sch [] pa [] q [] = s := by
      rw [urlunparse, if_neg (fun hcon : ([] : PyStr) ≠ [] => hcon rfl)]
      rw [urlunsplit_eq_plain sch pa q hncond2]
      exact hseq.symm
    exact canonicalize_fixed_of_split hsplit hlow_s hlow_n hpane
      hfix hlast hqfix hasm

/-- C5: URL canonicalization is idempotent: whenever `canonicalize_url`
succeeds on `u` with result `s`, running it again on `s` succeeds and
returns `s` unchanged (so `canonicalize(canonicalize(u)) =
canonicalize(u)` for every URL `u` on which canonicalization is
defined). -/
theorem C5_canonicalize_idempotent (u s : PyStr)
    (h : canonicalize_url u = Except.ok s) :
    canonicalize_url s = Except.ok s := by
  obtain ⟨p, hup, hseq⟩ := canonicalize_inv h
  obtain ⟨g1, g2, g3, g4, g5, g6, g7, g8, g9⟩ := urlparse_facts hup
  have hlow : pyLower p.scheme = p.scheme := by
    have g1' : p.scheme = [] ∨ (p.scheme ≠ []
        ∧ isAsciiAlpha (p.scheme.headD ' ') = true
        ∧ p.scheme.all schemeChar = true
        ∧ pyLower p.scheme = p.scheme) := g1
    rcases g1' with h1 | ⟨-, -, -, h1⟩
    · rw [h1]
      rfl
    · exact h1
  rw [hlow] at hseq
  refine canonicalize_of_parts s p.scheme (pyLower p.netloc)
    (collapseSlashes (if p.path = [] then pystr "/" else p.path))
    (pyUrlencode (sortPairs ((parseQsl p.query).filter
      fun kv => kv.1 ∉ TRACKING_KEYS)))
    g1 (netlocOk_pyLower g2) hlow (pyLower_idem p.netloc)
    ?_ (collapse_take2 _) (collapse_idem _ false) ?_ ?_ ?_ ?_ ?_ ?_ ?_
    (urlencode_no_hash _) (urlencode_clean _) (canonical_query_fixed _) ?_
  · have hite : (if p.path = [] then pystr "/" else p.path) ≠ [] := by
      by_cases hpp : p.path = []
      · rw [if_pos hpp]
        exact (by decide : pystr "/" ≠ [])
      · rw [if_neg hpp]
        exact hpp
    exact collapse_ne_nil hite
  · intro hc
    have hc2 := collapse_subset hc
    by_cases hpp : p.path = []
    · rw [if_pos hpp] at hc2
      exact absurd hc2 (by decide)
    · rw [if_neg hpp] at hc2
      exact g3 hc2
  · intro hc
    have hc2 := collapse_subset hc
    by_cases hpp : p.path = []
    · rw [if_pos hpp] at hc2
      exact absurd hc2 (by decide)
    · rw [if_neg hpp] at hc2
      exact g4 hc2
  · intro c hc
    have hc2 := collapse_subset hc
    by_cases hpp : p.path = []
    · rw [if_pos hpp] at hc2
      have hcs : c = '/' := List.mem_singleton.mp hc2
      rw [hcs]
      exact (by decide : ¬('/' = '\t' ∨ '/' = '\r' ∨ '/' = '\n'))
    · rw [if_neg hpp] at hc2
      exact g5 c hc2
  · intro hne
    have hne2 : p.netloc ≠ [] := by
      intro hc2
      rw [hc2] at hne
      exact hne rfl
    rw [collapseSlashes, collapse_head]
    by_cases hpp : p.path = []
    · rw [if_pos hpp]
      rfl
    · rw [if_neg hpp]
      rcases g6 hne2 with h1 | h1
      · exact absurd h1 hpp
      · exact h1
  · intro hs hn
    have hn2 : p.netloc = [] := (pyLower_nil_iff _).mp hn
    by_cases hpp : p.path = []
    · rw [if_pos hpp]
      exact noScheme_head_nonalpha _
        (show isAsciiAlpha '/' = false from by decide)
    · rw [if_neg hpp]
      exact noScheme_collapse (g7 hs hn2)
  · intro hs hn
    have hn2 : p.netloc = [] := (pyLower_nil_iff _).mp hn
    rw [collapseSlashes, collapse_head]
    by_cases hpp : p.path = []
    · rw [if_pos hpp]
      show (0x20 : Nat) < Char.toNat '/'
      decide
    · rw [if_neg hpp]
      exact g8 hpp hs hn2
  · intro hu
    by_cases hpp : p.path = []
    · rw [if_pos hpp]
      have hsl : splitLast '/' (collapseSlashes (pystr "/"))
          = some ([], []) := rfl
      rw [lastSegNoSemi, hsl]
      exact (show (';' : Char) ∉ ([] : PyStr) from by decide)
    · rw [if_neg hpp, collapseSlashes]
      exact lastSegNoSemi_collapse (g9 hu)
  · rw [hseq]
    rw [urlunparse, if_neg (fun hcon : ([] : PyStr) ≠ [] => hcon rfl)]

theorem C5_canonicalize_idempotent_witness :
    canonicalize_url (pystr "HTTP://Ex.COM//a?b=1#f")
      = Except.ok (pystr "http://ex.com/a?b=1") ∧
    canonicalize_url (pystr "http://ex.com/a?b=1")
      = Except.ok (pystr "http://ex.com/a?b=1") :=
  ⟨rfl, C5_canonicalize_idempotent (pystr "HTTP://Ex.COM//a?b=1#f")
    (pystr "http://ex.com/a?b=1") rfl⟩

end IRSpec
